import Mathlib

/-!
# Remere's Map Editor: undo/redo engine and item attribute serialisation

Shallow embedding of `source/action.h` and `source/item_attributes.cpp`.

* Inline bodies present in `action.h` (`Action::addChange`, `Action::size`,
  `Action::redo`, `BatchAction::resetTimer`, `ActionQueue::canUndo`,
  `ActionQueue::canRedo`, `DirtyList::Empty`) are transcribed from the header.
* Member functions that `action.h` only declares are defined in `action.cpp`, which is
  not among the sources; they are modelled from the specification text and marked so.
* The live map (tiles, house exits, waypoints) is an external collaborator; it is
  passed explicitly as a `LiveState` and every mutating operation returns the new one.
  A swap on a location that the store does not hold is a contract violation and is
  modelled by the result `none`.
-/

namespace RME

/-! ## Positions, addresses and the live store -/

/-- Map position (declared in `position.h`). -/
structure Position where
  x : Int
  y : Int
  z : Int
deriving DecidableEq, Repr

/-- Tile content, kept abstract: only equality of tile values matters here. -/
abbrev TileData := Nat

/-- Address of one addressable element of the live map. -/
inductive Address where
  | tile (pos : Position)
  | houseExit (house : Nat)
  | waypoint (wp : Nat)
deriving DecidableEq, Repr

/-- Live map state owned by the editor: the tile stored at each position, the exit of
each house and the position of each waypoint. `none` means that the location is not
present in the store. -/
structure LiveState where
  tiles : Position → Option TileData
  houseExits : Nat → Option Position
  waypoints : Nat → Option Position

/-- Whether the store holds the addressed location. -/
def LiveState.hasLocation (s : LiveState) : Address → Bool
  | .tile pos => (s.tiles pos).isSome
  | .houseExit h => (s.houseExits h).isSome
  | .waypoint w => (s.waypoints w).isSome

/-! ## Change -/

/-- Enumeration `ChangeType` of `action.h`. -/
inductive ChangeType where
  | CHANGE_NONE
  | CHANGE_TILE
  | CHANGE_MOVE_HOUSE_EXIT
  | CHANGE_MOVE_WAYPOINT
deriving DecidableEq, Repr

/-- Modelled from the spec: the payload of `Change` (a `void*` in `action.h`, whose
shape is fixed by `action.cpp`): a replacement tile for `CHANGE_TILE`, an
(entity, position) pair for the two move kinds. -/
inductive Change where
  | tile (pos : Position) (t : TileData)
  | moveHouseExit (house : Nat) (target : Position)
  | moveWaypoint (wp : Nat) (target : Position)
deriving DecidableEq, Repr

/-- Tag of a change (`Change::getType`). -/
def Change.getType : Change → ChangeType
  | .tile _ _ => .CHANGE_TILE
  | .moveHouseExit _ _ => .CHANGE_MOVE_HOUSE_EXIT
  | .moveWaypoint _ _ => .CHANGE_MOVE_WAYPOINT

/-- Location addressed by a change. -/
def Change.addr : Change → Address
  | .tile pos _ => .tile pos
  | .moveHouseExit h _ => .houseExit h
  | .moveWaypoint w _ => .waypoint w

/-- Modelled from the spec: the swap primitive of section 4.1 (its code is in
`action.cpp`). The payload of the change is exchanged with the live value at the
addressed location; `none` when the location is missing from the store. -/
def Change.swap (c : Change) (s : LiveState) : Option (Change × LiveState) :=
  match c with
  | .tile pos t =>
    match s.tiles pos with
    | none => none
    | some old => some (.tile pos old, { s with tiles := Function.update s.tiles pos (some t) })
  | .moveHouseExit h target =>
    match s.houseExits h with
    | none => none
    | some old =>
      some (.moveHouseExit h old, { s with houseExits := Function.update s.houseExits h (some target) })
  | .moveWaypoint w target =>
    match s.waypoints w with
    | none => none
    | some old =>
      some (.moveWaypoint w old, { s with waypoints := Function.update s.waypoints w (some target) })

/-- Modelled from the spec: the position(s) touched by the swap of a change in a given
live state ("every commit/undo records the touched position(s)"): the position of a
tile change; for a move, the position the entity leaves and the one it is put on. -/
def Change.touched (c : Change) (s : LiveState) : List Position :=
  match c with
  | .tile pos _ => [pos]
  | .moveHouseExit h target =>
    match s.houseExits h with
    | none => []
    | some old => [old, target]
  | .moveWaypoint w target =>
    match s.waypoints w with
    | none => []
    | some old => [old, target]

/-! ## DirtyList -/

/-- Modelled from the spec: `DirtyList` (its member functions are in `action.cpp`), as
the owner id, the duplicate-free collection of recorded positions and the recorded
changes. -/
structure DirtyList where
  owner : Nat
  positions : List Position
  changes : List Change
deriving DecidableEq, Repr

/-- Fresh dirty list. -/
def DirtyList.empty : DirtyList := { owner := 0, positions := [], changes := [] }

/-- Modelled from the spec: `DirtyList::AddPosition`, insertion into the
duplicate-free position collection. -/
def DirtyList.AddPosition (d : DirtyList) (p : Position) : DirtyList :=
  if p ∈ d.positions then d else { d with positions := d.positions ++ [p] }

/-- Modelled from the spec: `DirtyList::AddChange`. -/
def DirtyList.AddChange (d : DirtyList) (c : Change) : DirtyList :=
  { d with changes := d.changes ++ [c] }

/-- Function `DirtyList::Empty` of `action.h`. -/
def DirtyList.Empty (d : DirtyList) : Bool :=
  d.positions.isEmpty && d.changes.isEmpty

/-! ## Action -/

/-- Enumeration `ActionIdentifier` of `action.h`. -/
inductive ActionIdentifier where
  | ACTION_MOVE
  | ACTION_REMOTE
  | ACTION_SELECT
  | ACTION_DELETE_TILES
  | ACTION_CUT_TILES
  | ACTION_PASTE_TILES
  | ACTION_RANDOMIZE
  | ACTION_BORDERIZE
  | ACTION_DRAW
  | ACTION_SWITCHDOOR
  | ACTION_ROTATE_ITEM
  | ACTION_CHANGE_PROPERTIES
deriving DecidableEq, Repr

/-- Class `Action` of `action.h`: the `commited` flag, the owned changes and the type
tag. The `Editor&` member is represented by the `LiveState` passed to each operation. -/
structure Action where
  commited : Bool
  changes : List Change
  type : ActionIdentifier
deriving DecidableEq, Repr

/-- Function `Action::addChange` of `action.h`: `changes.push_back(t)`. -/
def Action.addChange (a : Action) (t : Change) : Action :=
  { a with changes := a.changes ++ [t] }

/-- Function `Action::size` of `action.h`. -/
def Action.size (a : Action) : Nat := a.changes.length

/-- Function `Action::isCommited` of `action.h`. -/
def Action.isCommited (a : Action) : Bool := a.commited

/-- Function `Action::getType` of `action.h`. -/
def Action.getType (a : Action) : ActionIdentifier := a.type

/-- Modelled from the spec: the pass shared by `Action::commit` and `Action::undo`
(both in `action.cpp`): the swap is applied to every change in insertion order, and
each swap records the touched positions and the change in the dirty list. -/
def Action.swapChanges : List Change → LiveState → DirtyList →
    Option (List Change × LiveState × DirtyList)
  | [], s, d => some ([], s, d)
  | c :: cs, s, d =>
    match c.swap s with
    | none => none
    | some (c1, s1) =>
      match Action.swapChanges cs s1 (((c.touched s).foldl DirtyList.AddPosition d).AddChange c1) with
      | none => none
      | some (cs1, s2, d2) => some (c1 :: cs1, s2, d2)

/-- Modelled from the spec: `Action::commit` (section 4.2): the swap is applied to
every change in insertion order, whether or not the action was committed before, and
`commited` becomes true. -/
def Action.commit (a : Action) (s : LiveState) (d : DirtyList) :
    Option (Action × LiveState × DirtyList) :=
  match Action.swapChanges a.changes s d with
  | none => none
  | some (cs, s1, d1) => some ({ a with changes := cs, commited := true }, s1, d1)

/-- Modelled from the spec: `Action::undo` (section 4.2): the same swap, applied in
insertion order, and `commited` becomes false. Undoing an action that is not committed
is a contract violation (`none`). -/
def Action.undo (a : Action) (s : LiveState) (d : DirtyList) :
    Option (Action × LiveState × DirtyList) :=
  if a.commited then
    match Action.swapChanges a.changes s d with
    | none => none
    | some (cs, s1, d1) => some ({ a with changes := cs, commited := false }, s1, d1)
  else none

/-- Function `Action::redo` of `action.h`: `commit(dirty_list)`. -/
def Action.redo (a : Action) (s : LiveState) (d : DirtyList) :
    Option (Action × LiveState × DirtyList) :=
  Action.commit a s d

/-! ## BatchAction -/

/-- Class `BatchAction` of `action.h`: creation timestamp, cached memory size, type tag
and the owned actions. -/
structure BatchAction where
  timestamp : Int
  memory_size : Nat
  type : ActionIdentifier
  batch : List Action
deriving DecidableEq, Repr

/-- Values supplied by the editing context: the configured memory cap of the history and
the memory footprint of a sequence of actions (`BatchAction::memsize`, `Action::memsize`
and `Change::memsize` are only declared in `action.h`). -/
structure Context where
  memCap : Int
  batchMemsize : List Action → Nat

/-- Function `BatchAction::resetTimer` of `action.h`. -/
def BatchAction.resetTimer (b : BatchAction) : BatchAction :=
  { b with timestamp := 0 }

/-- Function `BatchAction::size` of `action.h`. -/
def BatchAction.size (b : BatchAction) : Nat := b.batch.length

/-- Function `BatchAction::getType` of `action.h`. -/
def BatchAction.getType (b : BatchAction) : ActionIdentifier := b.type

/-- Modelled from the spec: the loop of `BatchAction::commit` (in `action.cpp`): every
member action is committed in insertion order, into one dirty list. -/
def BatchAction.commitActions : List Action → LiveState → DirtyList →
    Option (List Action × LiveState × DirtyList)
  | [], s, d => some ([], s, d)
  | a :: rest, s, d =>
    match a.commit s d with
    | none => none
    | some (a1, s1, d1) =>
      match BatchAction.commitActions rest s1 d1 with
      | none => none
      | some (rest1, s2, d2) => some (a1 :: rest1, s2, d2)

/-- Modelled from the spec: the loop of `BatchAction::undo` (in `action.cpp`): every
member action is undone in reverse insertion order (the last action first). -/
def BatchAction.undoActions : List Action → LiveState → DirtyList →
    Option (List Action × LiveState × DirtyList)
  | [], s, d => some ([], s, d)
  | a :: rest, s, d =>
    match BatchAction.undoActions rest s d with
    | none => none
    | some (rest1, s1, d1) =>
      match a.undo s1 d1 with
      | none => none
      | some (a1, s2, d2) => some (a1 :: rest1, s2, d2)

/-- Modelled from the spec: `BatchAction::commit` (section 4.3). The dirty list of the
whole batch is returned with the new live state. -/
def BatchAction.commit (b : BatchAction) (s : LiveState) :
    Option (BatchAction × LiveState × DirtyList) :=
  match BatchAction.commitActions b.batch s DirtyList.empty with
  | none => none
  | some (as1, s1, d1) => some ({ b with batch := as1 }, s1, d1)

/-- Modelled from the spec: `BatchAction::undo` (section 4.3). -/
def BatchAction.undo (b : BatchAction) (s : LiveState) :
    Option (BatchAction × LiveState × DirtyList) :=
  match BatchAction.undoActions b.batch s DirtyList.empty with
  | none => none
  | some (as1, s1, d1) => some ({ b with batch := as1 }, s1, d1)

/-- Modelled from the spec: `BatchAction::redo` (section 4.3), identical to `commit`. -/
def BatchAction.redo (b : BatchAction) (s : LiveState) :
    Option (BatchAction × LiveState × DirtyList) :=
  BatchAction.commit b s

/-- Modelled from the spec: `BatchAction::merge` (section 4.3): the actions of `other`
are appended and the cached memory size is recomputed. -/
def BatchAction.merge (ctx : Context) (b other : BatchAction) : BatchAction :=
  { b with batch := b.batch ++ other.batch,
           memory_size := ctx.batchMemsize (b.batch ++ other.batch) }

/-! ## ActionQueue -/

/-- Class `ActionQueue` of `action.h`: the history, the cursor `current` and the running
memory total. The cursor and the total are mathematical integers, so that a decrement
below zero (a wrap of `size_t`) shows as a negative value. -/
structure ActionQueue where
  actions : List BatchAction
  current : Int
  memory_size : Int
deriving DecidableEq, Repr

/-- Queue built by the constructor: no history. -/
def ActionQueue.empty : ActionQueue := { actions := [], current := 0, memory_size := 0 }

/-- Function `ActionQueue::canUndo` of `action.h`: `return current > 0;`. The queue is returned
with the answer, as the member function is not `const`. -/
def ActionQueue.canUndo (q : ActionQueue) : Bool × ActionQueue :=
  (decide (q.current > 0), q)

/-- Function `ActionQueue::canRedo` of `action.h`: `return current < actions.size();`. -/
def ActionQueue.canRedo (q : ActionQueue) : Bool × ActionQueue :=
  (decide (q.current < (q.actions.length : Int)), q)

/-- Modelled from the spec: the test of section 4.4 that decides whether a new batch is
merged into the top entry: the queue is non-empty, nothing is pending redo, the top entry
has the type tag of the new batch and the time elapsed since its timestamp is below
`stacking_delay`. -/
def ActionQueue.stackable (q : ActionQueue) (batch : BatchAction)
    (stacking_delay now : Int) : Bool :=
  match q.actions.getLast? with
  | none => false
  | some top =>
    decide (q.current = (q.actions.length : Int)) && decide (top.type = batch.type)
      && decide (now - top.timestamp < stacking_delay)

/-- Modelled from the spec: the memory budget loop of section 4.4: while the running
total exceeds the cap, the oldest batch is evicted, `current` is decremented and the
size of the batch is subtracted from the total. The loop stops on an empty history. -/
def ActionQueue.enforceBudget (cap : Int) : List BatchAction → Int → Int → ActionQueue
  | [], cur, mem => { actions := [], current := cur, memory_size := mem }
  | b :: rest, cur, mem =>
    if mem > cap then ActionQueue.enforceBudget cap rest (cur - 1) (mem - (b.memory_size : Int))
    else { actions := b :: rest, current := cur, memory_size := mem }

/-- Sum of the cached memory sizes of a list of batches. -/
def ActionQueue.memsizeOf (l : List BatchAction) : Int :=
  (l.map fun b => (b.memory_size : Int)).sum

/-- Modelled from the spec: `ActionQueue::addBatch` (section 4.4, code in `action.cpp`).
`now` is the reading of the time source. The batch is committed on either path: an edit
is committed and then enqueued, directly or merged (section 2), and one `undo()` reverts
both halves of a stacked entry (section 8). A stackable batch is committed and merged
into the top entry, which grows; otherwise the entries at index `current` and above are
destroyed, the batch is committed and appended, and `current` becomes the length. The
memory budget is enforced last. The running total follows the batches held. The dirty
list of the commit goes to the editing context and is not kept. -/
def ActionQueue.addBatch (ctx : Context) (q : ActionQueue) (s : LiveState)
    (batch : BatchAction) (stacking_delay now : Int) : Option (ActionQueue × LiveState) :=
  if q.stackable batch stacking_delay now then
    match q.actions.getLast? with
    | none => none
    | some top =>
      match batch.commit s with
      | none => none
      | some (b1, s1, _) =>
        let merged := BatchAction.merge ctx top b1
        some (ActionQueue.enforceBudget ctx.memCap (q.actions.dropLast ++ [merged]) q.current
                (q.memory_size - (top.memory_size : Int) + (merged.memory_size : Int)), s1)
  else
    match batch.commit s with
    | none => none
    | some (b1, s1, _) =>
      let kept := q.actions.take q.current.toNat
      let gone := q.actions.drop q.current.toNat
      some (ActionQueue.enforceBudget ctx.memCap (kept ++ [b1]) ((kept.length : Int) + 1)
              (q.memory_size - ActionQueue.memsizeOf gone + (b1.memory_size : Int)), s1)

/-- Modelled from the spec: `ActionQueue::addAction` (section 4.4), the single-action
form: the action is wrapped in a fresh batch of its type, stamped with the current
time, which is handed to `addBatch`. -/
def ActionQueue.addAction (ctx : Context) (q : ActionQueue) (s : LiveState)
    (action : Action) (stacking_delay now : Int) : Option (ActionQueue × LiveState) :=
  ActionQueue.addBatch ctx q s
    { timestamp := now, memory_size := ctx.batchMemsize [action], type := action.type,
      batch := [action] } stacking_delay now

/-- Modelled from the spec: `ActionQueue::undo` (section 4.4): nothing happens when
`current` is zero; otherwise `current` is decremented and the batch now at `current` is
undone. -/
def ActionQueue.undo (q : ActionQueue) (s : LiveState) : Option (ActionQueue × LiveState) :=
  if q.current = 0 then some (q, s)
  else
    match q.actions[(q.current - 1).toNat]? with
    | none => none
    | some b =>
      match b.undo s with
      | none => none
      | some (b1, s1, _) =>
        some ({ q with current := q.current - 1,
                       actions := q.actions.set (q.current - 1).toNat b1 }, s1)

/-- Modelled from the spec: `ActionQueue::redo` (section 4.4): nothing happens when
`current` equals the length; otherwise the batch at `current` is redone and `current` is
incremented. -/
def ActionQueue.redo (q : ActionQueue) (s : LiveState) : Option (ActionQueue × LiveState) :=
  if q.current = (q.actions.length : Int) then some (q, s)
  else
    match q.actions[q.current.toNat]? with
    | none => none
    | some b =>
      match b.redo s with
      | none => none
      | some (b1, s1, _) =>
        some ({ q with current := q.current + 1,
                       actions := q.actions.set q.current.toNat b1 }, s1)

/-- Modelled from the spec: `ActionQueue::clear` (section 4.4). -/
def ActionQueue.clear (_q : ActionQueue) : ActionQueue :=
  { actions := [], current := 0, memory_size := 0 }

/-- Call `undo` `n` times in a row. -/
def ActionQueue.undoTimes : Nat → ActionQueue → LiveState → Option (ActionQueue × LiveState)
  | 0, q, s => some (q, s)
  | n + 1, q, s =>
    match q.undo s with
    | none => none
    | some (q1, s1) => ActionQueue.undoTimes n q1 s1

/-- Call `redo` `n` times in a row. -/
def ActionQueue.redoTimes : Nat → ActionQueue → LiveState → Option (ActionQueue × LiveState)
  | 0, q, s => some (q, s)
  | n + 1, q, s =>
    match q.redo s with
    | none => none
    | some (q1, s1) => ActionQueue.redoTimes n q1 s1

/-! ## Binary streams (collaborators of `item_attributes.cpp`) -/

/-- Contents of a `std::string`: a sequence of bytes. -/
abbrev ByteString := List Nat

/-- Modelled from the spec: the read handle `BinaryNode` (declared in `filehandle.h`,
not among the sources), as the bytes that remain to be read. -/
structure BinaryNode where
  data : List Nat
deriving DecidableEq, Repr

/-- Modelled from the spec: `BinaryNode::getU8`; it fails on an exhausted stream. Every
read returns the value read, if any, and the stream after the read. -/
def BinaryNode.getU8 (st : BinaryNode) : Option Nat × BinaryNode :=
  match st.data with
  | b :: rest => (some b, { data := rest })
  | [] => (none, { data := [] })

/-- Modelled from the spec: `BinaryNode::getU16`, two bytes, least significant first. -/
def BinaryNode.getU16 (st : BinaryNode) : Option Nat × BinaryNode :=
  match st.data with
  | b0 :: b1 :: rest => (some (b0 + 256 * b1), { data := rest })
  | _ => (none, { data := [] })

/-- Modelled from the spec: `BinaryNode::getU32`, four bytes, least significant first. -/
def BinaryNode.getU32 (st : BinaryNode) : Option Nat × BinaryNode :=
  match st.data with
  | b0 :: b1 :: b2 :: b3 :: rest =>
    (some (b0 + 256 * b1 + 65536 * b2 + 16777216 * b3), { data := rest })
  | _ => (none, { data := [] })

/-- Modelled from the spec: the block read behind the two string reads: `len` bytes, or a
failure when fewer remain. -/
def BinaryNode.getBlock (st : BinaryNode) (len : Nat) : Option ByteString × BinaryNode :=
  if len ≤ st.data.length then (some (st.data.take len), { data := st.data.drop len })
  else (none, { data := [] })

/-- Modelled from the spec: `BinaryNode::getString`: a 16-bit length, then the bytes. -/
def BinaryNode.getString (st : BinaryNode) : Option ByteString × BinaryNode :=
  match st.getU16 with
  | (none, st1) => (none, st1)
  | (some len, st1) => st1.getBlock len

/-- Modelled from the spec: `BinaryNode::getLongString`: a 32-bit length, then the
bytes. -/
def BinaryNode.getLongString (st : BinaryNode) : Option ByteString × BinaryNode :=
  match st.getU32 with
  | (none, st1) => (none, st1)
  | (some len, st1) => st1.getBlock len

/-- Modelled from the spec: the write handle `NodeFileWriteHandle` (declared in
`filehandle.h`, not among the sources), as the bytes written so far. -/
structure NodeFileWriteHandle where
  bytes : List Nat
deriving DecidableEq, Repr

/-- Bytes of a 16-bit value, least significant first. -/
def encodeU16 (v : Nat) : List Nat := [v % 256, v / 256 % 256]

/-- Bytes of a 32-bit value, least significant first. -/
def encodeU32 (v : Nat) : List Nat :=
  [v % 256, v / 256 % 256, v / 65536 % 256, v / 16777216 % 256]

/-- Modelled from the spec: `NodeFileWriteHandle::addU8`. -/
def NodeFileWriteHandle.addU8 (f : NodeFileWriteHandle) (v : Nat) : NodeFileWriteHandle :=
  { bytes := f.bytes ++ [v % 256] }

/-- Modelled from the spec: `NodeFileWriteHandle::addU16`. -/
def NodeFileWriteHandle.addU16 (f : NodeFileWriteHandle) (v : Nat) : NodeFileWriteHandle :=
  { bytes := f.bytes ++ encodeU16 v }

/-- Modelled from the spec: `NodeFileWriteHandle::addU32`. -/
def NodeFileWriteHandle.addU32 (f : NodeFileWriteHandle) (v : Nat) : NodeFileWriteHandle :=
  { bytes := f.bytes ++ encodeU32 v }

/-- Modelled from the spec: `NodeFileWriteHandle::addString`: a 16-bit length, then the
bytes. -/
def NodeFileWriteHandle.addString (f : NodeFileWriteHandle) (str : ByteString) :
    NodeFileWriteHandle :=
  { bytes := f.bytes ++ encodeU16 str.length ++ str }

/-- Modelled from the spec: `NodeFileWriteHandle::addLongString`: a 32-bit length, then
the bytes. -/
def NodeFileWriteHandle.addLongString (f : NodeFileWriteHandle) (str : ByteString) :
    NodeFileWriteHandle :=
  { bytes := f.bytes ++ encodeU32 str.length ++ str }

/-! ## ItemAttribute -/

/-- Numeric values of the enumerators of `ItemAttribute::Type`. The enumeration is
declared in `item_attributes.h`, which is not among the sources, so the values are taken
as a parameter. -/
structure TypeCodes where
  NONE : Nat
  STRING : Nat
  INTEGER : Nat
  FLOAT : Nat
  BOOLEAN : Nat
deriving DecidableEq, Repr

/-- Content of the byte buffer `data` of an `ItemAttribute`: what was last stored in it.
An `int32_t` is an integer, a `float` is its 32-bit pattern. -/
inductive AttrData where
  | unset
  | str (s : ByteString)
  | int (i : Int)
  | float (bits : Nat)
  | bool (b : Bool)
deriving DecidableEq, Repr

/-- Class `ItemAttribute`: the type tag and the buffer. -/
structure ItemAttribute where
  type : Nat
  data : AttrData
deriving DecidableEq, Repr

/-- Buffer read as a `std::string`. Reading the buffer at a type that was not the last
one stored has no defined result; a fixed value stands for it. -/
def AttrData.asString : AttrData → ByteString
  | .str s => s
  | _ => []

/-- Buffer read as an `int32_t`. -/
def AttrData.asInteger : AttrData → Int
  | .int i => i
  | _ => 0

/-- Buffer read as a `float` (32-bit pattern). -/
def AttrData.asFloat : AttrData → Nat
  | .float b => b
  | _ => 0

/-- Buffer read as a `bool`. -/
def AttrData.asBoolean : AttrData → Bool
  | .bool b => b
  | _ => false

/-- Constructor `ItemAttribute::ItemAttribute()`: type `NONE`. -/
def ItemAttribute.new (tc : TypeCodes) : ItemAttribute :=
  { type := tc.NONE, data := .unset }

/-- Function `ItemAttribute::clear`: a held string is destroyed and the type becomes `NONE`;
nothing happens for the other types. -/
def ItemAttribute.clear (tc : TypeCodes) (a : ItemAttribute) : ItemAttribute :=
  if a.type = tc.STRING then { type := tc.NONE, data := .unset } else a

/-- Object that the parameter `const std::string& str` of `ItemAttribute::set` (and the
parameter `value` of `ItemAttributes::setAttribute`, which is forwarded to it) is bound
to. With `apart str` it is a string that is no part of the attribute written to, of
content `str`. With `held junk` it is the string that the attribute written to holds in
its own buffer, the object that `getString()` points to: `clear()` destroys that string
before it is copied, so the copy reads a destroyed object, and `junk` stands for the
bytes it then obtains, which the program does not determine. -/
inductive StringRef where
  | apart (str : ByteString)
  | held (junk : ByteString)
deriving DecidableEq, Repr

/-- Function `ItemAttribute::set(const std::string&)`: `clear()`, then the tag becomes `STRING`
and the string that `str` refers to is copied into the buffer. The reference is read
after `clear()` has run. -/
def ItemAttribute.setString (tc : TypeCodes) (a : ItemAttribute) (str : StringRef) :
    ItemAttribute :=
  let a1 := a.clear tc
  match str with
  | .apart v => { a1 with type := tc.STRING, data := .str v }
  | .held junk => { a1 with type := tc.STRING, data := .str junk }

/-- Function `ItemAttribute::set(int32_t)`. -/
def ItemAttribute.setInteger (tc : TypeCodes) (a : ItemAttribute) (i : Int) : ItemAttribute :=
  { (a.clear tc) with type := tc.INTEGER, data := .int i }

/-- Function `ItemAttribute::set(float)`. -/
def ItemAttribute.setFloat (tc : TypeCodes) (a : ItemAttribute) (y : Nat) : ItemAttribute :=
  { (a.clear tc) with type := tc.FLOAT, data := .float y }

/-- Function `ItemAttribute::set(bool)`. -/
def ItemAttribute.setBoolean (tc : TypeCodes) (a : ItemAttribute) (b : Bool) : ItemAttribute :=
  { (a.clear tc) with type := tc.BOOLEAN, data := .bool b }

/-- Function `ItemAttribute::getString`: `none` stands for the null pointer. -/
def ItemAttribute.getString (tc : TypeCodes) (a : ItemAttribute) : Option ByteString :=
  if a.type = tc.STRING then some a.data.asString else none

/-- Function `ItemAttribute::getInteger`. -/
def ItemAttribute.getInteger (tc : TypeCodes) (a : ItemAttribute) : Option Int :=
  if a.type = tc.INTEGER then some a.data.asInteger else none

/-- Function `ItemAttribute::getFloat`. -/
def ItemAttribute.getFloat (tc : TypeCodes) (a : ItemAttribute) : Option Nat :=
  if a.type = tc.FLOAT then some a.data.asFloat else none

/-- Function `ItemAttribute::getBoolean`. -/
def ItemAttribute.getBoolean (tc : TypeCodes) (a : ItemAttribute) : Option Bool :=
  if a.type = tc.BOOLEAN then some a.data.asBoolean else none

/-- Operator `ItemAttribute::operator=` for two distinct objects: `clear()`, then the tag of `o` is
taken and the value is copied according to it; an unknown tag gives `NONE`. -/
def ItemAttribute.assign (tc : TypeCodes) (a o : ItemAttribute) : ItemAttribute :=
  let a1 := a.clear tc
  if o.type = tc.STRING then { type := o.type, data := .str o.data.asString }
  else if o.type = tc.INTEGER then { type := o.type, data := .int o.data.asInteger }
  else if o.type = tc.FLOAT then { type := o.type, data := .float o.data.asFloat }
  else if o.type = tc.BOOLEAN then { type := o.type, data := .bool o.data.asBoolean }
  else { type := tc.NONE, data := a1.data }

/-- Value of a `uint32_t` read as an `int32_t`. -/
def toInt32 (u : Nat) : Int :=
  if u % 4294967296 < 2147483648 then ((u % 4294967296 : Nat) : Int)
  else ((u % 4294967296 : Nat) : Int) - 4294967296

/-- Value of an `int32_t` read as a `uint32_t`. -/
def toUInt32 (i : Int) : Nat := (i % 4294967296).toNat

/-- Function `ItemAttribute::unserialize`. The result of `getU8(rtype)` is not tested: when that
read fails, `rtype` keeps the indeterminate value `rtype0` of the uninitialised local.
The result is the returned flag, the attribute and the stream after the call. -/
def ItemAttribute.unserialize (tc : TypeCodes) (rtype0 : Nat) (a : ItemAttribute)
    (stream : BinaryNode) : Bool × ItemAttribute × BinaryNode :=
  let r := stream.getU8
  let rtype := r.1.getD rtype0
  if rtype = tc.STRING then
    match r.2.getLongString with
    | (none, st) => (false, a, st)
    | (some str, st) => (true, a.setString tc (.apart str), st)
  else if rtype = tc.INTEGER then
    match r.2.getU32 with
    | (none, st) => (false, a, st)
    | (some u32, st) => (true, a.setInteger tc (toInt32 u32), st)
  else if rtype = tc.FLOAT then
    match r.2.getU32 with
    | (none, st) => (false, a, st)
    | (some u32, st) => (true, a.setFloat tc u32, st)
  else if rtype = tc.BOOLEAN then
    match r.2.getU8 with
    | (none, st) => (false, a, st)
    | (some b, st) => (true, a.setBoolean tc (decide (b ≠ 0)), st)
  else (true, a, r.2)

/-- Function `ItemAttribute::serialize`. -/
def ItemAttribute.serialize (tc : TypeCodes) (a : ItemAttribute) (f : NodeFileWriteHandle) :
    NodeFileWriteHandle :=
  let f1 := f.addU8 a.type
  if a.type = tc.STRING then f1.addLongString a.data.asString
  else if a.type = tc.INTEGER then f1.addU32 (toUInt32 a.data.asInteger)
  else if a.type = tc.FLOAT then f1.addU32 a.data.asFloat
  else if a.type = tc.BOOLEAN then f1.addU8 (if a.data.asBoolean then 1 else 0)
  else f1

/-! ## ItemAttributes -/

/-- Order of `std::string` keys: lexicographic on the bytes. -/
def keyLess : ByteString → ByteString → Bool
  | [], [] => false
  | [], _ :: _ => true
  | _ :: _, [] => false
  | a :: as, b :: bs => if a < b then true else if b < a then false else keyLess as bs

/-- Type `ItemAttributeMap` (`std::map<std::string, ItemAttribute>`): the entries in
ascending key order. -/
abbrev ItemAttributeMap := List (ByteString × ItemAttribute)

/-- Statement `m[key] = value` on a `std::map`: the attribute under `key` (a fresh one of
type `NONE` when the key is new) is assigned `value`. -/
def ItemAttributeMap.assignAt (tc : TypeCodes) :
    ItemAttributeMap → ByteString → ItemAttribute → ItemAttributeMap
  | [], key, value => [(key, (ItemAttribute.new tc).assign tc value)]
  | (k, v) :: rest, key, value =>
    if key = k then (k, v.assign tc value) :: rest
    else if keyLess key k then (key, (ItemAttribute.new tc).assign tc value) :: (k, v) :: rest
    else (k, v) :: ItemAttributeMap.assignAt tc rest key value

/-- Class `ItemAttributes`: the pointer `attributes`, null (`none`) until a map is
created. -/
structure ItemAttributes where
  attributes : Option ItemAttributeMap
deriving DecidableEq, Repr

/-- Function `ItemAttributes::createAttributes`. -/
def ItemAttributes.createAttributes (s : ItemAttributes) : ItemAttributes :=
  match s.attributes with
  | none => { attributes := some [] }
  | some _ => s

/-- Loop `while(n--)` of `ItemAttributes::unserializeAttributeMap`: `n` entries remain
to be read, `attrib` is the local attribute that is reused from entry to entry. -/
def ItemAttributes.unserializeEntries (tc : TypeCodes) (rtype0 : Nat) :
    Nat → ItemAttribute → ItemAttributeMap → BinaryNode → Bool × ItemAttributeMap × BinaryNode
  | 0, _, m, stream => (true, m, stream)
  | n + 1, attrib, m, stream =>
    match stream.getString with
    | (none, st1) => (false, m, st1)
    | (some key, st1) =>
      match attrib.unserialize tc rtype0 st1 with
      | (false, _, st2) => (false, m, st2)
      | (true, attrib1, st2) =>
        ItemAttributes.unserializeEntries tc rtype0 n attrib1
          (ItemAttributeMap.assignAt tc m key attrib1) st2

/-- Function `ItemAttributes::unserializeAttributeMap`. The result is the returned flag, the
object and the stream after the call. -/
def ItemAttributes.unserializeAttributeMap (tc : TypeCodes) (rtype0 : Nat)
    (s : ItemAttributes) (stream : BinaryNode) : Bool × ItemAttributes × BinaryNode :=
  match stream.getU16 with
  | (some n, st1) =>
    let s1 := s.createAttributes
    match ItemAttributes.unserializeEntries tc rtype0 n (ItemAttribute.new tc)
        (s1.attributes.getD []) st1 with
    | (ok, m, st2) => (ok, { attributes := some m }, st2)
  | (none, st1) => (true, s, st1)

/-- Loop of `ItemAttributes::serializeAttributeMap`: `while(attribute != end && i <=
0xFFFF)`; `i` counts the entries written so far. -/
def ItemAttributes.serializeEntries (tc : TypeCodes) :
    ItemAttributeMap → Nat → NodeFileWriteHandle → NodeFileWriteHandle
  | [], _, f => f
  | (key, attrib) :: rest, i, f =>
    if i ≤ 0xFFFF then
      let f1 := if key.length > 0xFFFF then f.addString (key.take 65535) else f.addString key
      ItemAttributes.serializeEntries tc rest (i + 1) (attrib.serialize tc f1)
    else f

/-- Function `ItemAttributes::serializeAttributeMap`. The function dereferences `attributes`
without a test, so it is defined only when a map is allocated. -/
def ItemAttributes.serializeAttributeMap (tc : TypeCodes) (s : ItemAttributes)
    (f : NodeFileWriteHandle) : Option NodeFileWriteHandle :=
  match s.attributes with
  | none => none
  | some m =>
    some (ItemAttributes.serializeEntries tc m 0 (f.addU16 (min 0xFFFF m.length)))

/-! ## Descriptions used by the statements -/

/-- Bytes that `serializeAttributeMap` writes for one map entry: the key through
`addString`, cut to 65535 bytes, then the attribute through `ItemAttribute::serialize`. -/
def ItemAttributes.entryEncoding (tc : TypeCodes) (e : ByteString × ItemAttribute) : List Nat :=
  (e.2.serialize tc ((NodeFileWriteHandle.mk []).addString (e.1.take 65535))).bytes

/-- Example values of the type tags, used at concrete inputs. -/
def exampleCodes : TypeCodes := { NONE := 0, STRING := 1, INTEGER := 2, FLOAT := 3, BOOLEAN := 4 }

/-- Example map of 65536 attributes: the keys are the two-byte strings in ascending
order, each with an integer attribute. -/
def exampleBigMap : ItemAttributeMap :=
  (List.range 65536).map (fun i => ([i / 256, i % 256], { type := 2, data := AttrData.int i }))

/-- The tags of the four value kinds are pairwise different, as the labels of one
`switch` are. -/
def TypeCodes.Distinct (tc : TypeCodes) : Prop :=
  tc.STRING ≠ tc.INTEGER ∧ tc.STRING ≠ tc.FLOAT ∧ tc.STRING ≠ tc.BOOLEAN
    ∧ tc.INTEGER ≠ tc.FLOAT ∧ tc.INTEGER ≠ tc.BOOLEAN ∧ tc.FLOAT ≠ tc.BOOLEAN

instance (tc : TypeCodes) : Decidable tc.Distinct := by
  unfold TypeCodes.Distinct
  infer_instance

/-- The read of the value of an entry fails: `t` is the type byte that was read and `st`
the stream after it. A string value is read by `getLongString`, an integer or a float by
`getU32`, a boolean by `getU8`. -/
def ValueReadFails (tc : TypeCodes) (t : Nat) (st : BinaryNode) : Prop :=
  (t = tc.STRING ∧ st.getLongString.1 = none)
    ∨ ((t = tc.INTEGER ∨ t = tc.FLOAT) ∧ st.getU32.1 = none)
    ∨ (t = tc.BOOLEAN ∧ st.getU8.1 = none)

/-- Among the next `n` entries of the stream, read as `unserializeAttributeMap` reads
them, the read of a key fails or the read of a value fails. -/
inductive EntryReadFails (tc : TypeCodes) (rtype0 : Nat) :
    Nat → ItemAttribute → BinaryNode → Prop
  | key {n : Nat} {attrib : ItemAttribute} {st : BinaryNode} :
      st.getString.1 = none → EntryReadFails tc rtype0 (n + 1) attrib st
  | value {n : Nat} {attrib : ItemAttribute} {st st1 st2 : BinaryNode} {k : ByteString}
      {t : Nat} :
      st.getString = (some k, st1) → st1.getU8 = (some t, st2) → ValueReadFails tc t st2 →
      EntryReadFails tc rtype0 (n + 1) attrib st
  | later {n : Nat} {attrib attrib1 : ItemAttribute} {st st1 st2 : BinaryNode}
      {k : ByteString} :
      st.getString = (some k, st1) → attrib.unserialize tc rtype0 st1 = (true, attrib1, st2) →
      EntryReadFails tc rtype0 n attrib1 st2 → EntryReadFails tc rtype0 (n + 1) attrib st

/-- States of the queue and of the live map that can be reached from the empty queue by
calls of `addBatch`, `addAction`, `undo`, `redo` and `clear`. -/
inductive ActionQueue.Reachable (ctx : Context) : ActionQueue → LiveState → Prop
  | init (s : LiveState) : ActionQueue.Reachable ctx ActionQueue.empty s
  | addBatch {q q1 : ActionQueue} {s s1 : LiveState} (batch : BatchAction)
      (stacking_delay now : Int) :
      ActionQueue.Reachable ctx q s →
      q.addBatch ctx s batch stacking_delay now = some (q1, s1) →
      ActionQueue.Reachable ctx q1 s1
  | addAction {q q1 : ActionQueue} {s s1 : LiveState} (action : Action)
      (stacking_delay now : Int) :
      ActionQueue.Reachable ctx q s →
      q.addAction ctx s action stacking_delay now = some (q1, s1) →
      ActionQueue.Reachable ctx q1 s1
  | undo {q q1 : ActionQueue} {s s1 : LiveState} :
      ActionQueue.Reachable ctx q s → q.undo s = some (q1, s1) →
      ActionQueue.Reachable ctx q1 s1
  | redo {q q1 : ActionQueue} {s s1 : LiveState} :
      ActionQueue.Reachable ctx q s → q.redo s = some (q1, s1) →
      ActionQueue.Reachable ctx q1 s1
  | clear {q : ActionQueue} {s : LiveState} :
      ActionQueue.Reachable ctx q s → ActionQueue.Reachable ctx q.clear s

/-- Example store: one tile at (10,10,7) and one at (11,10,7), house 1 with an exit. -/
def exampleStore : LiveState :=
  { tiles := fun p =>
      if p = Position.mk 10 10 7 then some 100
      else if p = Position.mk 11 10 7 then some 200 else none,
    houseExits := fun h => if h = 1 then some (Position.mk 5 5 7) else none,
    waypoints := fun _ => none }

/-- Example batch: one action with one tile change at (10,10,7). -/
def exampleBatchA : BatchAction :=
  { timestamp := 0, memory_size := 1, type := ActionIdentifier.ACTION_DRAW,
    batch := [{ commited := false, changes := [Change.tile (Position.mk 10 10 7) 101],
                type := ActionIdentifier.ACTION_DRAW }] }

/-- Example batch: one action with one tile change at (11,10,7). -/
def exampleBatchB : BatchAction :=
  { timestamp := 0, memory_size := 1, type := ActionIdentifier.ACTION_DRAW,
    batch := [{ commited := false, changes := [Change.tile (Position.mk 11 10 7) 201],
                type := ActionIdentifier.ACTION_DRAW }] }

/-- Example context with a memory cap of `cap`; a batch weighs one unit per action. -/
def exampleContext (cap : Int) : Context :=
  { memCap := cap, batchMemsize := fun l => l.length }

/-- Example batch A after its commit: the change holds the tile that was live. -/
def exampleBatchA1 : BatchAction :=
  { timestamp := 0, memory_size := 1, type := ActionIdentifier.ACTION_DRAW,
    batch := [{ commited := true, changes := [Change.tile (Position.mk 10 10 7) 100],
                type := ActionIdentifier.ACTION_DRAW }] }

/-- Example batch B after its commit. -/
def exampleBatchB1 : BatchAction :=
  { timestamp := 0, memory_size := 1, type := ActionIdentifier.ACTION_DRAW,
    batch := [{ commited := true, changes := [Change.tile (Position.mk 11 10 7) 200],
                type := ActionIdentifier.ACTION_DRAW }] }

/-- Example store after the commit of batch A. -/
def exampleStoreA : LiveState :=
  { exampleStore with
    tiles := Function.update exampleStore.tiles (Position.mk 10 10 7) (some 101) }

/-- Example store after the commits of batch A and batch B. -/
def exampleStoreAB : LiveState :=
  { exampleStoreA with
    tiles := Function.update exampleStoreA.tiles (Position.mk 11 10 7) (some 201) }

/-- Dirty list produced by the commit of example batch B. -/
def exampleDirtyB : DirtyList :=
  { owner := 0, positions := [Position.mk 11 10 7],
    changes := [Change.tile (Position.mk 11 10 7) 200] }

/-- Example queue with a pending redo: batch A is done, batch B was undone. -/
def exampleQueuePending : ActionQueue :=
  { actions := [exampleBatchA1, exampleBatchB], current := 1, memory_size := 2 }

/-- Example batch: one action without changes, created at time 0, of type `DRAW`. -/
def exampleBatchE : BatchAction :=
  { timestamp := 0, memory_size := 1, type := ActionIdentifier.ACTION_DRAW,
    batch := [{ commited := false, changes := [], type := ActionIdentifier.ACTION_DRAW }] }

/-- Example batch E after its commit. -/
def exampleBatchE1 : BatchAction :=
  { timestamp := 0, memory_size := 1, type := ActionIdentifier.ACTION_DRAW,
    batch := [{ commited := true, changes := [], type := ActionIdentifier.ACTION_DRAW }] }

/-- Dirty list produced by the commit of example batch A. -/
def exampleDirtyA : DirtyList :=
  { owner := 0, positions := [Position.mk 10 10 7],
    changes := [Change.tile (Position.mk 10 10 7) 100] }

/-- Example store after batch A was pushed, batch B was stacked on it and the stacked
entry was undone: both tiles hold their first values again. -/
def exampleStoreUndone : LiveState :=
  { exampleStoreAB with
    tiles := Function.update
      (Function.update exampleStoreAB.tiles (Position.mk 11 10 7) (some 200))
      (Position.mk 10 10 7) (some 100) }

/-- Example store after the stacked entry was redone. -/
def exampleStoreRedone : LiveState :=
  { exampleStoreUndone with
    tiles := Function.update
      (Function.update exampleStoreUndone.tiles (Position.mk 10 10 7) (some 101))
      (Position.mk 11 10 7) (some 201) }

/-- Example store after batch A was committed once more on `exampleStoreRedone`. -/
def exampleStoreLast : LiveState :=
  { exampleStoreRedone with
    tiles := Function.update exampleStoreRedone.tiles (Position.mk 10 10 7) (some 101) }

/-- Example batch A after its commit on `exampleStoreRedone`, where the live tile at
(10,10,7) is 101 already. -/
def exampleBatchA2 : BatchAction :=
  { timestamp := 0, memory_size := 1, type := ActionIdentifier.ACTION_DRAW,
    batch := [{ commited := true, changes := [Change.tile (Position.mk 10 10 7) 101],
                type := ActionIdentifier.ACTION_DRAW }] }

/-- The swap pass of an action on the live state alone, without the dirty list. -/
def Action.swapAll : List Change → LiveState → Option (List Change × LiveState)
  | [], s => some ([], s)
  | c :: cs, s =>
    match c.swap s with
    | none => none
    | some (c1, s1) =>
      match Action.swapAll cs s1 with
      | none => none
      | some (cs1, s2) => some (c1 :: cs1, s2)

/-- Positions touched by the swap pass of an action, in the order of the pass. -/
def Action.touchedAll : List Change → LiveState → List Position
  | [], _ => []
  | c :: cs, s =>
    c.touched s ++
      (match c.swap s with
       | none => []
       | some (_, s1) => Action.touchedAll cs s1)

/-- The changes of an action address pairwise distinct locations. -/
def Action.Independent (a : Action) : Prop := (a.changes.map Change.addr).Nodup

instance (a : Action) : Decidable a.Independent := by
  unfold Action.Independent
  infer_instance

/-- Every location addressed by a change of the action is present in the store. -/
def Action.Addressable (a : Action) (s : LiveState) : Prop :=
  ∀ c ∈ a.changes, s.hasLocation c.addr = true

instance (a : Action) (s : LiveState) : Decidable (a.Addressable s) := by
  unfold Action.Addressable
  infer_instance

/-- Every action of the batch has changes that address pairwise distinct locations. -/
def BatchAction.Independent (b : BatchAction) : Prop := ∀ a ∈ b.batch, a.Independent

instance (b : BatchAction) : Decidable b.Independent := by
  unfold BatchAction.Independent
  infer_instance

/-- Every location addressed by a change of the batch is present in the store. -/
def BatchAction.Addressable (b : BatchAction) (s : LiveState) : Prop :=
  ∀ a ∈ b.batch, a.Addressable s

instance (b : BatchAction) (s : LiveState) : Decidable (b.Addressable s) := by
  unfold BatchAction.Addressable
  infer_instance

/-- Every action of the batch is committed. -/
def BatchAction.Commited (b : BatchAction) : Prop := ∀ a ∈ b.batch, a.commited = true

instance (b : BatchAction) : Decidable b.Commited := by
  unfold BatchAction.Commited
  infer_instance

/-- Example action with two tile changes on the same position (10,10,7). -/
def exampleActionTwice : Action :=
  { commited := false,
    changes := [Change.tile (Position.mk 10 10 7) 101, Change.tile (Position.mk 10 10 7) 102],
    type := ActionIdentifier.ACTION_DRAW }

/-- Example action with three changes on three different locations: two tiles and the
exit of house 1. -/
def exampleActionThree : Action :=
  { commited := false,
    changes := [Change.tile (Position.mk 10 10 7) 101,
                Change.moveHouseExit 1 (Position.mk 6 6 7),
                Change.tile (Position.mk 11 10 7) 201],
    type := ActionIdentifier.ACTION_DRAW }

/-- Example batch of two actions; the second changes again the tile at (10,10,7) that
the first one changes. -/
def exampleBatchTwo : BatchAction :=
  { timestamp := 0, memory_size := 2, type := ActionIdentifier.ACTION_DRAW,
    batch := [exampleActionThree,
              { commited := false, changes := [Change.tile (Position.mk 10 10 7) 102],
                type := ActionIdentifier.ACTION_DRAW }] }

/-- States reached by committing `n` batches through `addBatch`, starting from the empty
queue, when no call stacks its batch on the top entry and no call evicts an entry: each
call makes the history one entry longer. -/
inductive ActionQueue.Committed (ctx : Context) : Nat → ActionQueue → LiveState → Prop
  | init (s : LiveState) : ActionQueue.Committed ctx 0 ActionQueue.empty s
  | push {n : Nat} {q q1 : ActionQueue} {s s1 : LiveState} (batch : BatchAction)
      (stacking_delay now : Int) :
      ActionQueue.Committed ctx n q s →
      q.addBatch ctx s batch stacking_delay now = some (q1, s1) →
      q1.actions.length = q.actions.length + 1 →
      ActionQueue.Committed ctx (n + 1) q1 s1

/-- The entries below the cursor are committed, made of actions whose changes address
pairwise distinct locations, and address locations that the store holds. -/
def ActionQueue.DoneOk (q : ActionQueue) (s : LiveState) : Prop :=
  ∀ (i : Nat) (b : BatchAction), (i : Int) < q.current → q.actions[i]? = some b →
    b.Commited ∧ b.Independent ∧ b.Addressable s

/-- Example batch whose only action changes the tile at (10,10,7) twice. -/
def exampleBatchTwice : BatchAction :=
  { timestamp := 0, memory_size := 1, type := ActionIdentifier.ACTION_DRAW,
    batch := [exampleActionTwice] }

/-- Example batch `exampleBatchTwice` after its commit. -/
def exampleBatchTwice1 : BatchAction :=
  { timestamp := 0, memory_size := 1, type := ActionIdentifier.ACTION_DRAW,
    batch := [{ commited := true,
                changes := [Change.tile (Position.mk 10 10 7) 100,
                            Change.tile (Position.mk 10 10 7) 101],
                type := ActionIdentifier.ACTION_DRAW }] }

/-- Example store after the commit of `exampleBatchTwice`. -/
def exampleStoreTwice : LiveState :=
  { exampleStore with
    tiles := Function.update
      (Function.update exampleStore.tiles (Position.mk 10 10 7) (some 101))
      (Position.mk 10 10 7) (some 102) }

/-! ## Position set of the dirty list (`action.h`) -/

/-- Structure `DirtyList::ValueType` of `action.h`: the packed position and the bitmask
of floors, two `uint32_t`. -/
structure ValueType where
  pos : Nat
  floors : Nat
deriving DecidableEq, Repr

/-- Functor `DirtyList::Comparator` of `action.h`: `return a.pos < b.pos;`. -/
def DirtyList.Comparator (a b : ValueType) : Bool := decide (a.pos < b.pos)

/-- Equivalence that a `std::set` derives from its comparator: neither element is
ordered before the other. -/
def DirtyList.Equivalent (a b : ValueType) : Prop :=
  DirtyList.Comparator a b = false ∧ DirtyList.Comparator b a = false

/-- Type `DirtyList::SetType` (`std::set<ValueType, Comparator>`): the elements in the
order in which the set enumerates them. -/
abbrev SetType := List ValueType

/-- Insertion into a `std::set` ordered by `Comparator`: the element goes before the
first element that is ordered after it, and it is not inserted when the set holds an
equivalent element. -/
def SetType.insert : SetType → ValueType → SetType
  | [], v => [v]
  | x :: rest, v =>
    if DirtyList.Comparator v x then v :: x :: rest
    else if DirtyList.Comparator x v then x :: SetType.insert rest v
    else x :: rest

/-- Set obtained from the empty set by inserting the given elements one after the
other. -/
def SetType.ofInserts (l : List ValueType) : SetType := l.foldl SetType.insert []

/-! ## Further members of `ItemAttribute` -/

/-- Constructor `ItemAttribute::ItemAttribute(const std::string&)`. -/
def ItemAttribute.ofString (tc : TypeCodes) (str : ByteString) : ItemAttribute :=
  { type := tc.STRING, data := .str str }

/-- Constructor `ItemAttribute::ItemAttribute(int32_t)`. -/
def ItemAttribute.ofInteger (tc : TypeCodes) (i : Int) : ItemAttribute :=
  { type := tc.INTEGER, data := .int i }

/-- Constructor `ItemAttribute::ItemAttribute(float)`. -/
def ItemAttribute.ofFloat (tc : TypeCodes) (f : Nat) : ItemAttribute :=
  { type := tc.FLOAT, data := .float f }

/-- Constructor `ItemAttribute::ItemAttribute(bool)`. It has no member initialiser for
`type`: the tag keeps the indeterminate value `type0` of the uninitialised member. -/
def ItemAttribute.ofBoolean (type0 : Nat) (b : Bool) : ItemAttribute :=
  { type := type0, data := .bool b }

/-- Operator `ItemAttribute::operator=` when the argument is the object itself
(`&o == this`): the object is returned as it is. -/
def ItemAttribute.assignSelf (a : ItemAttribute) : ItemAttribute := a

/-- The five tags of `ItemAttribute::Type` are pairwise different. -/
def TypeCodes.AllDistinct (tc : TypeCodes) : Prop :=
  tc.Distinct ∧ tc.NONE ≠ tc.STRING ∧ tc.NONE ≠ tc.INTEGER ∧ tc.NONE ≠ tc.FLOAT
    ∧ tc.NONE ≠ tc.BOOLEAN

instance (tc : TypeCodes) : Decidable tc.AllDistinct := by
  unfold TypeCodes.AllDistinct
  infer_instance

/-- The tag of the attribute is one of the five tags of `ItemAttribute::Type`. -/
def ItemAttribute.HasKnownType (tc : TypeCodes) (a : ItemAttribute) : Prop :=
  a.type = tc.NONE ∨ a.type = tc.STRING ∨ a.type = tc.INTEGER ∨ a.type = tc.FLOAT
    ∨ a.type = tc.BOOLEAN

instance (tc : TypeCodes) (a : ItemAttribute) : Decidable (a.HasKnownType tc) := by
  unfold ItemAttribute.HasKnownType
  infer_instance

/-! ## Further members of `ItemAttributes` -/

/-- Lookup `attributes->find(key)` on the map. -/
def ItemAttributeMap.find : ItemAttributeMap → ByteString → Option ItemAttribute
  | [], _ => none
  | (k, v) :: rest, key => if key = k then some v else ItemAttributeMap.find rest key

/-- Statement `m[key].f()` on a `std::map`: the member function `f` is applied to the
attribute under `key`, a fresh one of type `NONE` when the key is new. -/
def ItemAttributeMap.applyAt (tc : TypeCodes) :
    ItemAttributeMap → ByteString → (ItemAttribute → ItemAttribute) → ItemAttributeMap
  | [], key, f => [(key, f (ItemAttribute.new tc))]
  | (k, v) :: rest, key, f =>
    if key = k then (k, f v) :: rest
    else if keyLess key k then (key, f (ItemAttribute.new tc)) :: (k, v) :: rest
    else (k, v) :: ItemAttributeMap.applyAt tc rest key f

/-- Erasure `attributes->erase(attributes->find(key))`; nothing happens when the key is
not found. -/
def ItemAttributeMap.erase : ItemAttributeMap → ByteString → ItemAttributeMap
  | [], _ => []
  | (k, v) :: rest, key =>
    if key = k then rest else (k, v) :: ItemAttributeMap.erase rest key

/-- Function `ItemAttributes::setAttribute(const std::string&, const std::string&)`:
`createAttributes()`, then `(*attributes)[key].set(value)`. The reference `value` is
handed on to `set`; `held junk` is the string held by the attribute stored under `key`
(what `getStringAttribute(key)` points to). -/
def ItemAttributes.setAttributeString (tc : TypeCodes) (s : ItemAttributes)
    (key : ByteString) (value : StringRef) : ItemAttributes :=
  { attributes := some (ItemAttributeMap.applyAt tc (s.createAttributes.attributes.getD [])
      key (fun a => a.setString tc value)) }

/-- Function `ItemAttributes::setAttribute(const std::string&, int32_t)`. -/
def ItemAttributes.setAttributeInteger (tc : TypeCodes) (s : ItemAttributes)
    (key : ByteString) (value : Int) : ItemAttributes :=
  { attributes := some (ItemAttributeMap.applyAt tc (s.createAttributes.attributes.getD [])
      key (fun a => a.setInteger tc value)) }

/-- Function `ItemAttributes::setAttribute(const std::string&, float)`. -/
def ItemAttributes.setAttributeFloat (tc : TypeCodes) (s : ItemAttributes)
    (key : ByteString) (value : Nat) : ItemAttributes :=
  { attributes := some (ItemAttributeMap.applyAt tc (s.createAttributes.attributes.getD [])
      key (fun a => a.setFloat tc value)) }

/-- Function `ItemAttributes::setAttribute(const std::string&, bool)`. -/
def ItemAttributes.setAttributeBoolean (tc : TypeCodes) (s : ItemAttributes)
    (key : ByteString) (value : Bool) : ItemAttributes :=
  { attributes := some (ItemAttributeMap.applyAt tc (s.createAttributes.attributes.getD [])
      key (fun a => a.setBoolean tc value)) }

/-- Function `ItemAttributes::eraseAttribute`. -/
def ItemAttributes.eraseAttribute (s : ItemAttributes) (key : ByteString) : ItemAttributes :=
  match s.attributes with
  | none => s
  | some m => { attributes := some (ItemAttributeMap.erase m key) }

/-- Function `ItemAttributes::getStringAttribute`: `none` stands for the null pointer. -/
def ItemAttributes.getStringAttribute (tc : TypeCodes) (s : ItemAttributes)
    (key : ByteString) : Option ByteString :=
  match s.attributes with
  | none => none
  | some m =>
    match ItemAttributeMap.find m key with
    | some a => a.getString tc
    | none => none

/-- Function `ItemAttributes::getIntegerAttribute`. -/
def ItemAttributes.getIntegerAttribute (tc : TypeCodes) (s : ItemAttributes)
    (key : ByteString) : Option Int :=
  match s.attributes with
  | none => none
  | some m =>
    match ItemAttributeMap.find m key with
    | some a => a.getInteger tc
    | none => none

/-- Function `ItemAttributes::getFloatAttribute`. -/
def ItemAttributes.getFloatAttribute (tc : TypeCodes) (s : ItemAttributes)
    (key : ByteString) : Option Nat :=
  match s.attributes with
  | none => none
  | some m =>
    match ItemAttributeMap.find m key with
    | some a => a.getFloat tc
    | none => none

/-- Function `ItemAttributes::getBooleanAttribute`. -/
def ItemAttributes.getBooleanAttribute (tc : TypeCodes) (s : ItemAttributes)
    (key : ByteString) : Option Bool :=
  match s.attributes with
  | none => none
  | some m =>
    match ItemAttributeMap.find m key with
    | some a => a.getBoolean tc
    | none => none

/-- Function `ItemAttributes::hasStringAttribute`. -/
def ItemAttributes.hasStringAttribute (tc : TypeCodes) (s : ItemAttributes)
    (key : ByteString) : Bool :=
  (s.getStringAttribute tc key).isSome

/-- Function `ItemAttributes::hasIntegerAttribute`. -/
def ItemAttributes.hasIntegerAttribute (tc : TypeCodes) (s : ItemAttributes)
    (key : ByteString) : Bool :=
  (s.getIntegerAttribute tc key).isSome

/-- Function `ItemAttributes::hasFloatAttribute`. -/
def ItemAttributes.hasFloatAttribute (tc : TypeCodes) (s : ItemAttributes)
    (key : ByteString) : Bool :=
  (s.getFloatAttribute tc key).isSome

/-- Function `ItemAttributes::hasBooleanAttribute`. -/
def ItemAttributes.hasBooleanAttribute (tc : TypeCodes) (s : ItemAttributes)
    (key : ByteString) : Bool :=
  (s.getBooleanAttribute tc key).isSome

/-- Invariant of a `std::map`: the keys are in strictly ascending order. -/
def ItemAttributeMap.Ordered (m : ItemAttributeMap) : Prop :=
  (m.map Prod.fst).Pairwise (fun a b => keyLess a b = true)

instance (m : ItemAttributeMap) : Decidable m.Ordered := by
  unfold ItemAttributeMap.Ordered
  infer_instance

/-- Invariant of `ItemAttributes`: the map, when allocated, is a `std::map`. -/
def ItemAttributes.WellFormed (s : ItemAttributes) : Prop :=
  ∀ m, s.attributes = some m → ItemAttributeMap.Ordered m

instance (s : ItemAttributes) : Decidable s.WellFormed := by
  unfold ItemAttributes.WellFormed
  cases s.attributes with
  | none => exact isTrue (fun _ h => by cases h)
  | some m0 =>
    exact decidable_of_iff (ItemAttributeMap.Ordered m0)
      ⟨fun h m hm => by cases hm; exact h, fun h => h m0 rfl⟩

/-- Attribute stored under a key, if any. -/
def ItemAttributes.find (s : ItemAttributes) (key : ByteString) : Option ItemAttribute :=
  match s.attributes with
  | none => none
  | some m => ItemAttributeMap.find m key

/-- Results of the four typed getters for a key, in the order string, integer, float,
boolean. -/
def ItemAttributes.getters (tc : TypeCodes) (s : ItemAttributes) (key : ByteString) :
    Option ByteString × Option Int × Option Nat × Option Bool :=
  (s.getStringAttribute tc key, s.getIntegerAttribute tc key, s.getFloatAttribute tc key,
    s.getBooleanAttribute tc key)

/-- Example attributes: "a" maps to the integer 7 and "b" to the string "x". -/
def exampleAttributes : ItemAttributes :=
  { attributes := some [([97], ItemAttribute.mk 2 (AttrData.int 7)),
                        ([98], ItemAttribute.mk 1 (AttrData.str [120]))] }

/-- Example object: a default-constructed `ItemAttributes` on which the string "hi" was
set under the key "a". -/
def exampleHi : ItemAttributes :=
  (ItemAttributes.mk none).setAttributeString exampleCodes [97] (StringRef.apart [104, 105])

/-- One call of `ItemAttributes::setAttribute`: the key and the value, of one of the four
overloads. A string value is a string of its own, no part of the object written to. -/
inductive SetCall where
  | str (key : ByteString) (value : ByteString)
  | int (key : ByteString) (value : Int)
  | float (key : ByteString) (value : Nat)
  | bool (key : ByteString) (value : Bool)
deriving DecidableEq, Repr

/-- Key of a call. -/
def SetCall.key : SetCall → ByteString
  | .str k _ => k
  | .int k _ => k
  | .float k _ => k
  | .bool k _ => k

/-- The value of the call is in the range of its type and of the stream primitive that
carries it: an `int32_t`, the 32-bit pattern of a `float`, a string whose length fits
the 32-bit length of a long string. -/
def SetCall.Fits : SetCall → Prop
  | .str _ v => v.length < 4294967296
  | .int _ i => -2147483648 ≤ i ∧ i < 2147483648
  | .float _ y => y < 4294967296
  | .bool _ _ => True

instance (c : SetCall) : Decidable c.Fits := by
  cases c <;> unfold SetCall.Fits <;> infer_instance

/-- Call of the overload of `setAttribute` that the value selects. -/
def ItemAttributes.setAttribute (tc : TypeCodes) (s : ItemAttributes) : SetCall → ItemAttributes
  | .str k v => s.setAttributeString tc k (.apart v)
  | .int k v => s.setAttributeInteger tc k v
  | .float k v => s.setAttributeFloat tc k v
  | .bool k v => s.setAttributeBoolean tc k v

/-- Object built from a default-constructed `ItemAttributes` by the given calls of
`setAttribute`, in order. -/
def ItemAttributes.build (tc : TypeCodes) (calls : List SetCall) : ItemAttributes :=
  calls.foldl (ItemAttributes.setAttribute tc) { attributes := none }

/-- The attribute holds a value of one of the four kinds, with the tag of that kind, in
the range of its type and of the stream primitive that carries it. -/
def ItemAttribute.Fits (tc : TypeCodes) (a : ItemAttribute) : Prop :=
  match a.data with
  | .str v => a.type = tc.STRING ∧ v.length < 4294967296
  | .int i => a.type = tc.INTEGER ∧ -2147483648 ≤ i ∧ i < 2147483648
  | .float y => a.type = tc.FLOAT ∧ y < 4294967296
  | .bool _ => a.type = tc.BOOLEAN
  | .unset => False

/-- The tags of the four value kinds fit the type byte of a serialised attribute. -/
def TypeCodes.FitByte (tc : TypeCodes) : Prop :=
  tc.STRING < 256 ∧ tc.INTEGER < 256 ∧ tc.FLOAT < 256 ∧ tc.BOOLEAN < 256

instance (tc : TypeCodes) : Decidable tc.FitByte := by
  unfold TypeCodes.FitByte
  infer_instance

/-- Example calls: "b" is set to a string, "a" to an integer, "c" to a float pattern,
"d" to a boolean, and "a" again to a negative integer. -/
def exampleCalls : List SetCall :=
  [SetCall.str [98] [120, 121], SetCall.int [97] 7, SetCall.float [99] 1065353216,
   SetCall.bool [100] true, SetCall.int [97] (-2)]

/-- The map of the object, when allocated, is a `std::map` whose keys are at most 65535
bytes long and whose attributes hold values in range. -/
def ItemAttributes.Serialisable (tc : TypeCodes) (s : ItemAttributes) : Prop :=
  ∀ m, s.attributes = some m →
    ItemAttributeMap.Ordered m ∧ ∀ e ∈ m, e.1.length ≤ 65535 ∧ e.2.Fits tc

/-- Number of attributes of the object. -/
def ItemAttributes.count (s : ItemAttributes) : Nat := (s.attributes.getD []).length

/-! ## Results on `action.h` -/

/-- C6: `canUndo()` answers true exactly when `current > 0`, `canRedo()` answers true
exactly when `current` is smaller than the number of batches held, and neither call
changes the queue. -/
theorem canUndo_canRedo_iff (q : ActionQueue) :
    (q.canUndo.1 = true ↔ q.current > 0)
      ∧ (q.canRedo.1 = true ↔ q.current < (q.actions.length : Int))
      ∧ q.canUndo.2 = q ∧ q.canRedo.2 = q := by
  simp [ActionQueue.canUndo, ActionQueue.canRedo]

/-- C7, as stated, fails: on a committed action `addChange` still appends, so the
sequence of changes and `size()` both change. -/
theorem addChange_committed_counterexample :
    (Action.mk true [] ActionIdentifier.ACTION_DRAW).isCommited = true
      ∧ ((Action.mk true [] ActionIdentifier.ACTION_DRAW).addChange
            (Change.tile (Position.mk 10 10 7) 1)).changes
          ≠ (Action.mk true [] ActionIdentifier.ACTION_DRAW).changes
      ∧ ((Action.mk true [] ActionIdentifier.ACTION_DRAW).addChange
            (Change.tile (Position.mk 10 10 7) 1)).size = 1
      ∧ (Action.mk true [] ActionIdentifier.ACTION_DRAW).size = 0 := by
  decide

/-- C7, amended: whatever the `commited` flag, `addChange(c)` appends `c` at the end of
the sequence of changes, `size()` grows by one, and the flag and the type tag are kept. -/
theorem addChange_appends (a : Action) (c : Change) :
    (a.addChange c).changes = a.changes ++ [c]
      ∧ (a.addChange c).size = a.size + 1
      ∧ (a.addChange c).commited = a.commited
      ∧ (a.addChange c).type = a.type := by
  simp [Action.addChange, Action.size]

/-- C10: `Action::redo` gives exactly the result of `Action::commit` on the same action,
live state and dirty list, and whenever it gives a result the action in it has
`commited == true`. -/
theorem redo_eq_commit (a : Action) (s : LiveState) (d : DirtyList) :
    a.redo s d = a.commit s d
      ∧ (a.redo s d).map (fun r => r.1.commited) = (a.commit s d).map (fun _ => true) := by
  refine ⟨rfl, ?_⟩
  unfold Action.redo Action.commit
  cases Action.swapChanges a.changes s d with
  | none => rfl
  | some r => rfl

/-! ## Results on `item_attributes.cpp` -/

theorem ItemAttribute.serialize_bytes (tc : TypeCodes) (a : ItemAttribute)
    (f : NodeFileWriteHandle) :
    (a.serialize tc f).bytes = f.bytes ++ (a.serialize tc (NodeFileWriteHandle.mk [])).bytes := by
  unfold ItemAttribute.serialize
  simp only [NodeFileWriteHandle.addU8, NodeFileWriteHandle.addU32,
    NodeFileWriteHandle.addLongString]
  split_ifs <;> simp

theorem ItemAttributes.entry_bytes (tc : TypeCodes) (key : ByteString) (attrib : ItemAttribute)
    (f : NodeFileWriteHandle) :
    (attrib.serialize tc
        (if key.length > 0xFFFF then f.addString (key.take 65535) else f.addString key)).bytes
      = f.bytes ++ ItemAttributes.entryEncoding tc (key, attrib) := by
  have hk : (if key.length > 0xFFFF then f.addString (key.take 65535) else f.addString key)
      = f.addString (key.take 65535) := by
    split_ifs with h
    · rfl
    · rw [List.take_of_length_le (by omega)]
  rw [hk, ItemAttribute.serialize_bytes, ItemAttributes.entryEncoding,
    ItemAttribute.serialize_bytes tc attrib ((NodeFileWriteHandle.mk []).addString _)]
  simp [NodeFileWriteHandle.addString]

theorem ItemAttributes.serializeEntries_bytes (tc : TypeCodes) (m : ItemAttributeMap) :
    ∀ (i : Nat) (f : NodeFileWriteHandle),
      (ItemAttributes.serializeEntries tc m i f).bytes
        = f.bytes ++ ((m.take (65536 - i)).map (ItemAttributes.entryEncoding tc)).flatten := by
  induction m with
  | nil => intro i f; simp [ItemAttributes.serializeEntries]
  | cons e rest ih =>
    intro i f
    obtain ⟨key, attrib⟩ := e
    unfold ItemAttributes.serializeEntries
    by_cases hi : i ≤ 0xFFFF
    · rw [if_pos hi]
      simp only []
      rw [ih, ItemAttributes.entry_bytes]
      have h1 : 65536 - i = (65536 - (i + 1)) + 1 := by omega
      rw [h1, List.take_succ_cons]
      simp
    · rw [if_neg hi]
      have h1 : 65536 - i = 0 := by omega
      simp [h1]

theorem ItemAttributes.serializeAttributeMap_bytes (tc : TypeCodes) (m : ItemAttributeMap)
    (f : NodeFileWriteHandle) :
    (ItemAttributes.serializeAttributeMap tc { attributes := some m } f).map (fun r => r.bytes)
      = some (f.bytes ++ encodeU16 (min 65535 m.length)
          ++ ((m.take 65536).map (ItemAttributes.entryEncoding tc)).flatten) := by
  simp only [ItemAttributes.serializeAttributeMap, Option.map_some', Option.some.injEq]
  rw [ItemAttributes.serializeEntries_bytes]
  simp [NodeFileWriteHandle.addU16]

/-- C9, what the code does: with a map of `n` attributes, `serializeAttributeMap` writes
the 16-bit count `min(65535, n)` and then the first `min(65536, n)` entries in key
order. On the example map of 65536 attributes the count written is 65535 (bytes 255,
255) and all 65536 entries follow: one entry more than the count announces. -/
theorem serializeAttributeMap_writes :
    (∀ (tc : TypeCodes) (m : ItemAttributeMap) (f : NodeFileWriteHandle),
        (ItemAttributes.serializeAttributeMap tc { attributes := some m } f).map
            (fun r => r.bytes)
          = some (f.bytes ++ encodeU16 (min 65535 m.length)
              ++ ((m.take 65536).map (ItemAttributes.entryEncoding tc)).flatten)
        ∧ (m.take 65536).length = min 65536 m.length)
      ∧ exampleBigMap.length = 65536
      ∧ (ItemAttributes.serializeAttributeMap exampleCodes { attributes := some exampleBigMap }
            { bytes := [] }).map (fun r => r.bytes)
          = some ([255, 255]
              ++ (exampleBigMap.map (ItemAttributes.entryEncoding exampleCodes)).flatten) := by
  have hlen : exampleBigMap.length = 65536 := by
    unfold exampleBigMap
    rw [List.length_map, List.length_range]
  refine ⟨fun tc m f => ⟨ItemAttributes.serializeAttributeMap_bytes tc m f, by simp⟩, hlen, ?_⟩
  rw [ItemAttributes.serializeAttributeMap_bytes, hlen,
    List.take_of_length_le (by rw [hlen])]
  rfl

theorem ItemAttribute.unserialize_value_fails (tc : TypeCodes) (hd : tc.Distinct)
    (rtype0 : Nat) (a : ItemAttribute) (st1 st2 : BinaryNode) (t : Nat)
    (ht : st1.getU8 = (some t, st2)) (hv : ValueReadFails tc t st2) :
    (a.unserialize tc rtype0 st1).1 = false := by
  obtain ⟨h1, h2, h3, h4, h5, h6⟩ := hd
  unfold ItemAttribute.unserialize
  simp only [ht, Option.getD_some]
  rcases hv with ⟨hs, hf⟩ | ⟨hs | hs, hf⟩ | ⟨hs, hf⟩
  · subst hs
    rw [if_pos rfl]
    cases hr : st2.getLongString with
    | mk o st3 => rw [hr] at hf; simp only at hf; subst hf; rfl
  · subst hs
    rw [if_neg (Ne.symm h1), if_pos rfl]
    cases hr : st2.getU32 with
    | mk o st3 => rw [hr] at hf; simp only at hf; subst hf; rfl
  · subst hs
    rw [if_neg (Ne.symm h2), if_neg (Ne.symm h4), if_pos rfl]
    cases hr : st2.getU32 with
    | mk o st3 => rw [hr] at hf; simp only at hf; subst hf; rfl
  · subst hs
    rw [if_neg (Ne.symm h3), if_neg (Ne.symm h5), if_neg (Ne.symm h6), if_pos rfl]
    cases hr : st2.getU8 with
    | mk o st3 => rw [hr] at hf; simp only at hf; subst hf; rfl

theorem ItemAttributes.unserializeEntries_fails (tc : TypeCodes) (hd : tc.Distinct)
    (rtype0 : Nat) (n : Nat) (attrib : ItemAttribute) (st : BinaryNode)
    (h : EntryReadFails tc rtype0 n attrib st) :
    ∀ m : ItemAttributeMap,
      (ItemAttributes.unserializeEntries tc rtype0 n attrib m st).1 = false := by
  induction h with
  | @key n attrib st hk =>
    intro m
    unfold ItemAttributes.unserializeEntries
    cases hr : st.getString with
    | mk o st1 => rw [hr] at hk; simp only at hk; subst hk; rfl
  | @value n attrib st st1 st2 k t hk ht hv =>
    intro m
    unfold ItemAttributes.unserializeEntries
    have hf := ItemAttribute.unserialize_value_fails tc hd rtype0 attrib st1 st2 t ht hv
    rw [hk]
    simp only []
    cases hr : attrib.unserialize tc rtype0 st1 with
    | mk ok rest =>
      rw [hr] at hf
      simp only at hf
      subst hf
      rfl
  | @later n attrib attrib1 st st1 st2 k hk hu _ ih =>
    intro m
    unfold ItemAttributes.unserializeEntries
    rw [hk]
    simp only []
    rw [hu]
    exact ih _

/-- C8, as stated, fails: on the empty stream the read of the 16-bit entry count fails
and `unserializeAttributeMap` returns true. It also returns true on a stream that ends
right before the type byte of the only entry, when the uninitialised `rtype` holds no
value tag. -/
theorem unserializeAttributeMap_truncated_counterexample :
    (BinaryNode.getU16 { data := [] }).1 = none
      ∧ (ItemAttributes.unserializeAttributeMap exampleCodes 0 { attributes := none }
            { data := [] }).1 = true
      ∧ (BinaryNode.getU8 { data := [] }).1 = none
      ∧ (ItemAttributes.unserializeAttributeMap exampleCodes 0 { attributes := none }
            { data := [1, 0, 0, 0] }).1 = true := by
  decide

/-- C8, amended: when the stream is truncated inside the key of an entry or inside the
value of an entry, `unserializeAttributeMap` returns false; when it is truncated before
the 16-bit entry count, the function returns true and leaves the object as it was. -/
theorem unserializeAttributeMap_truncated (tc : TypeCodes) (hd : tc.Distinct) (rtype0 : Nat)
    (s : ItemAttributes) (stream : BinaryNode) :
    (∀ (n : Nat) (st1 : BinaryNode), stream.getU16 = (some n, st1) →
        EntryReadFails tc rtype0 n (ItemAttribute.new tc) st1 →
        (ItemAttributes.unserializeAttributeMap tc rtype0 s stream).1 = false)
      ∧ (stream.getU16.1 = none →
          (ItemAttributes.unserializeAttributeMap tc rtype0 s stream).1 = true
            ∧ (ItemAttributes.unserializeAttributeMap tc rtype0 s stream).2.1 = s) := by
  constructor
  · intro n st1 hn hf
    unfold ItemAttributes.unserializeAttributeMap
    rw [hn]
    simp only []
    exact ItemAttributes.unserializeEntries_fails tc hd rtype0 n _ st1 hf _
  · intro hn
    unfold ItemAttributes.unserializeAttributeMap
    cases hr : stream.getU16 with
    | mk o st1 =>
      rw [hr] at hn
      simp only at hn
      subst hn
      exact ⟨rfl, rfl⟩

/-- Witness for C8: a key announced with 5 bytes of which one is present, a string value
cut after its length, and an empty stream. -/
theorem unserializeAttributeMap_truncated_witness :
    (ItemAttributes.unserializeAttributeMap exampleCodes 0 { attributes := none }
        { data := [1, 0, 5, 0, 97] }).1 = false
      ∧ (ItemAttributes.unserializeAttributeMap exampleCodes 0 { attributes := none }
        { data := [1, 0, 1, 0, 97, 1, 3, 0, 0, 0, 98] }).1 = false
      ∧ (ItemAttributes.unserializeAttributeMap exampleCodes 0 { attributes := none }
        { data := [] }).1 = true :=
  ⟨(unserializeAttributeMap_truncated exampleCodes (by decide) 0 { attributes := none }
      { data := [1, 0, 5, 0, 97] }).1 1 { data := [5, 0, 97] } rfl
      (EntryReadFails.key (by decide)),
   (unserializeAttributeMap_truncated exampleCodes (by decide) 0 { attributes := none }
      { data := [1, 0, 1, 0, 97, 1, 3, 0, 0, 0, 98] }).1 1
      { data := [1, 0, 97, 1, 3, 0, 0, 0, 98] } rfl
      (@EntryReadFails.value exampleCodes 0 0 (ItemAttribute.new exampleCodes)
        { data := [1, 0, 97, 1, 3, 0, 0, 0, 98] } { data := [1, 3, 0, 0, 0, 98] }
        { data := [3, 0, 0, 0, 98] } [97] 1 rfl rfl (Or.inl ⟨rfl, by decide⟩)),
   ((unserializeAttributeMap_truncated exampleCodes (by decide) 0 { attributes := none }
      { data := [] }).2 rfl).1⟩

/-! ## Results on the history queue -/

theorem ActionQueue.enforceBudget_of_le (cap : Int) (l : List BatchAction) (cur mem : Int)
    (h : mem ≤ cap) :
    ActionQueue.enforceBudget cap l cur mem = { actions := l, current := cur, memory_size := mem } := by
  cases l with
  | nil => rfl
  | cons b rest =>
    unfold ActionQueue.enforceBudget
    rw [if_neg (by omega)]

theorem ActionQueue.enforceBudget_drop (cap : Int) (l : List BatchAction) :
    ∀ (cur mem : Int), ∃ k : Nat, k ≤ l.length
      ∧ (ActionQueue.enforceBudget cap l cur mem).actions = l.drop k
      ∧ (ActionQueue.enforceBudget cap l cur mem).current = cur - (k : Int) := by
  induction l with
  | nil => intro cur mem; exact ⟨0, by simp [ActionQueue.enforceBudget]⟩
  | cons b rest ih =>
    intro cur mem
    unfold ActionQueue.enforceBudget
    by_cases h : mem > cap
    · rw [if_pos h]
      obtain ⟨k, hk, ha, hc⟩ := ih (cur - 1) (mem - (b.memory_size : Int))
      refine ⟨k + 1, by simp; omega, by simpa using ha, ?_⟩
      rw [hc]
      push_cast
      ring
    · rw [if_neg h]
      exact ⟨0, by simp⟩

theorem ActionQueue.enforceBudget_current (cap : Int) (l : List BatchAction) (cur mem : Int)
    (h : cur = (l.length : Int)) :
    (ActionQueue.enforceBudget cap l cur mem).current
      = ((ActionQueue.enforceBudget cap l cur mem).actions.length : Int) := by
  obtain ⟨k, hk, ha, hc⟩ := ActionQueue.enforceBudget_drop cap l cur mem
  rw [ha, hc, h, List.length_drop]
  omega

theorem ActionQueue.stackable_current (q : ActionQueue) (batch : BatchAction)
    (delay now : Int) (h : q.stackable batch delay now = true) :
    q.current = (q.actions.length : Int) ∧ q.actions ≠ [] := by
  unfold ActionQueue.stackable at h
  cases hl : q.actions.getLast? with
  | none => rw [hl] at h; simp at h
  | some top =>
    rw [hl] at h
    simp only [Bool.and_eq_true, decide_eq_true_eq] at h
    refine ⟨h.1.1, ?_⟩
    intro hn
    rw [hn] at hl
    simp at hl

theorem ActionQueue.addBatch_current (ctx : Context) (q q1 : ActionQueue) (s s1 : LiveState)
    (batch : BatchAction) (delay now : Int)
    (h : q.addBatch ctx s batch delay now = some (q1, s1)) :
    q1.current = (q1.actions.length : Int) := by
  unfold ActionQueue.addBatch at h
  by_cases hst : q.stackable batch delay now = true
  · rw [if_pos hst] at h
    obtain ⟨hc, hne⟩ := ActionQueue.stackable_current q batch delay now hst
    cases hl : q.actions.getLast? with
    | none => rw [hl] at h; simp at h
    | some top =>
      rw [hl] at h
      cases hb : batch.commit s with
      | none => rw [hb] at h; simp at h
      | some r =>
        obtain ⟨b1, s2, d⟩ := r
        rw [hb] at h
        simp only [Option.some.injEq, Prod.mk.injEq] at h
        rw [← h.1]
        apply ActionQueue.enforceBudget_current
        rw [hc]
        simp [List.length_dropLast]
        have : 0 < q.actions.length := List.length_pos.mpr hne
        omega
  · rw [if_neg hst] at h
    cases hb : batch.commit s with
    | none => rw [hb] at h; simp at h
    | some r =>
      obtain ⟨b1, s2, d⟩ := r
      rw [hb] at h
      simp only [Option.some.injEq, Prod.mk.injEq] at h
      rw [← h.1]
      apply ActionQueue.enforceBudget_current
      simp

theorem ActionQueue.queue_undo_inv (q q1 : ActionQueue) (s s1 : LiveState)
    (h : q.undo s = some (q1, s1)) :
    (q.current = 0 ∧ q1 = q ∧ s1 = s)
      ∨ (q.current ≠ 0 ∧ ∃ (b b1 : BatchAction) (d : DirtyList),
          q.actions[(q.current - 1).toNat]? = some b ∧ b.undo s = some (b1, s1, d)
            ∧ q1 = { q with current := q.current - 1,
                            actions := q.actions.set (q.current - 1).toNat b1 }) := by
  unfold ActionQueue.undo at h
  by_cases h0 : q.current = 0
  · rw [if_pos h0] at h
    simp only [Option.some.injEq, Prod.mk.injEq] at h
    exact Or.inl ⟨h0, h.1.symm, h.2.symm⟩
  · rw [if_neg h0] at h
    right
    refine ⟨h0, ?_⟩
    cases hg : q.actions[(q.current - 1).toNat]? with
    | none => rw [hg] at h; exact absurd h (by simp)
    | some b =>
      rw [hg] at h
      dsimp only at h
      cases hu : b.undo s with
      | none => rw [hu] at h; exact absurd h (by simp)
      | some r =>
        obtain ⟨b1, s2, d⟩ := r
        rw [hu] at h
        simp only [Option.some.injEq, Prod.mk.injEq] at h
        exact ⟨b, b1, d, rfl, h.2 ▸ hu, h.1.symm⟩

theorem ActionQueue.queue_redo_inv (q q1 : ActionQueue) (s s1 : LiveState)
    (h : q.redo s = some (q1, s1)) :
    (q.current = (q.actions.length : Int) ∧ q1 = q ∧ s1 = s)
      ∨ (q.current ≠ (q.actions.length : Int) ∧ ∃ (b b1 : BatchAction) (d : DirtyList),
          q.actions[q.current.toNat]? = some b ∧ b.redo s = some (b1, s1, d)
            ∧ q1 = { q with current := q.current + 1,
                            actions := q.actions.set q.current.toNat b1 }) := by
  unfold ActionQueue.redo at h
  by_cases h0 : q.current = (q.actions.length : Int)
  · rw [if_pos h0] at h
    simp only [Option.some.injEq, Prod.mk.injEq] at h
    exact Or.inl ⟨h0, h.1.symm, h.2.symm⟩
  · rw [if_neg h0] at h
    right
    refine ⟨h0, ?_⟩
    cases hg : q.actions[q.current.toNat]? with
    | none => rw [hg] at h; exact absurd h (by simp)
    | some b =>
      rw [hg] at h
      dsimp only at h
      cases hu : b.redo s with
      | none => rw [hu] at h; exact absurd h (by simp)
      | some r =>
        obtain ⟨b1, s2, d⟩ := r
        rw [hu] at h
        simp only [Option.some.injEq, Prod.mk.injEq] at h
        exact ⟨b, b1, d, rfl, h.2 ▸ hu, h.1.symm⟩

/-- C3: in every state reachable from the empty queue by `addBatch`, `addAction`, `undo`,
`redo` and `clear`, evictions included, `0 <= current <= number of batches held`. -/
theorem reachable_current_bounds (ctx : Context) (q : ActionQueue) (s : LiveState)
    (h : ActionQueue.Reachable ctx q s) :
    0 ≤ q.current ∧ q.current ≤ (q.actions.length : Int) := by
  induction h with
  | init s => simp [ActionQueue.empty]
  | addBatch batch delay now _ hstep _ =>
    have := ActionQueue.addBatch_current ctx _ _ _ _ batch delay now hstep
    omega
  | addAction action delay now _ hstep _ =>
    have := ActionQueue.addBatch_current ctx _ _ _ _ _ delay now hstep
    omega
  | @undo q q1 s s1 _ hstep ih =>
    rcases ActionQueue.queue_undo_inv q q1 s s1 hstep with ⟨_, hq, _⟩ | ⟨h0, b, b1, d, hg, _, hq⟩
    · rw [hq]; exact ih
    · rw [hq]
      simp only [List.length_set]
      omega
  | @redo q q1 s s1 _ hstep ih =>
    rcases ActionQueue.queue_redo_inv q q1 s s1 hstep with ⟨_, hq, _⟩ | ⟨h0, b, b1, d, hg, _, hq⟩
    · rw [hq]; exact ih
    · rw [hq]
      simp only [List.length_set]
      have hlt : q.current.toNat < q.actions.length := by
        by_contra hcon
        rw [List.getElem?_eq_none (by omega)] at hg
        simp at hg
      omega
  | clear _ _ => simp [ActionQueue.clear]

/-- Witness for C3: under a cap of two units batch A is pushed, batch B is stacked on it
within the stacking window, the stacked entry is undone (`current` is 0 and both tiles
hold their first values) and redone, and a further push of batch A evicts the stacked
entry. -/
theorem reachable_current_bounds_witness :
    ActionQueue.Reachable (exampleContext 2)
        { actions := [BatchAction.merge (exampleContext 2) exampleBatchA exampleBatchB],
          current := 0, memory_size := 2 } exampleStoreUndone
      ∧ exampleStoreUndone.tiles (Position.mk 10 10 7) = some 100
      ∧ exampleStoreUndone.tiles (Position.mk 11 10 7) = some 200
      ∧ ActionQueue.Reachable (exampleContext 2)
          { actions := [exampleBatchA2], current := 1, memory_size := 1 } exampleStoreLast
      ∧ 0 ≤ (ActionQueue.mk [exampleBatchA2] 1 1).current
      ∧ (ActionQueue.mk [exampleBatchA2] 1 1).current
          ≤ ((ActionQueue.mk [exampleBatchA2] 1 1).actions.length : Int) :=
  have hu : ActionQueue.Reachable (exampleContext 2)
      { actions := [BatchAction.merge (exampleContext 2) exampleBatchA exampleBatchB],
        current := 0, memory_size := 2 } exampleStoreUndone :=
    ActionQueue.Reachable.undo
      (ActionQueue.Reachable.addBatch exampleBatchB 5 1
        (ActionQueue.Reachable.addBatch exampleBatchA 0 0
          (ActionQueue.Reachable.init exampleStore)
          (show ActionQueue.empty.addBatch (exampleContext 2) exampleStore exampleBatchA 0 0
              = some ({ actions := [exampleBatchA1], current := 1, memory_size := 1 },
                  exampleStoreA) from rfl))
        (show (ActionQueue.mk [exampleBatchA1] 1 1).addBatch (exampleContext 2) exampleStoreA
              exampleBatchB 5 1
            = some ({ actions := [BatchAction.merge (exampleContext 2) exampleBatchA1
                        exampleBatchB1],
                      current := 1, memory_size := 2 }, exampleStoreAB) from rfl))
      rfl
  have hr : ActionQueue.Reachable (exampleContext 2)
      { actions := [exampleBatchA2], current := 1, memory_size := 1 } exampleStoreLast :=
    ActionQueue.Reachable.addBatch exampleBatchA 0 2
      (ActionQueue.Reachable.redo hu
        (show (ActionQueue.mk [BatchAction.merge (exampleContext 2) exampleBatchA
                exampleBatchB] 0 2).redo exampleStoreUndone
            = some ({ actions := [BatchAction.merge (exampleContext 2) exampleBatchA1
                        exampleBatchB1],
                      current := 1, memory_size := 2 }, exampleStoreRedone) from rfl))
      rfl
  ⟨hu, by decide, by decide, hr, reachable_current_bounds (exampleContext 2) _ exampleStoreLast hr⟩

theorem ActionQueue.stackable_false (q : ActionQueue) (batch : BatchAction) (delay now : Int)
    (h : q.current ≠ (q.actions.length : Int)) : q.stackable batch delay now = false := by
  cases hs : q.stackable batch delay now with
  | false => rfl
  | true => exact absurd (ActionQueue.stackable_current q batch delay now hs).1 h

theorem ActionQueue.addBatch_push (ctx : Context) (q : ActionQueue) (s s1 : LiveState)
    (batch b1 : BatchAction) (d : DirtyList) (delay now : Int)
    (hs : q.stackable batch delay now = false) (hc : batch.commit s = some (b1, s1, d)) :
    q.addBatch ctx s batch delay now
      = some (ActionQueue.enforceBudget ctx.memCap (q.actions.take q.current.toNat ++ [b1])
                (((q.actions.take q.current.toNat).length : Int) + 1)
                (q.memory_size - ActionQueue.memsizeOf (q.actions.drop q.current.toNat)
                  + (b1.memory_size : Int)), s1) := by
  unfold ActionQueue.addBatch
  rw [hs, hc]
  rfl

theorem ActionQueue.addBatch_merge (ctx : Context) (q : ActionQueue) (s s1 : LiveState)
    (batch b1 top : BatchAction) (d : DirtyList) (delay now : Int)
    (hs : q.stackable batch delay now = true) (ht : q.actions.getLast? = some top)
    (hc : batch.commit s = some (b1, s1, d)) :
    q.addBatch ctx s batch delay now
      = some (ActionQueue.enforceBudget ctx.memCap
                (q.actions.dropLast ++ [BatchAction.merge ctx top b1]) q.current
                (q.memory_size - (top.memory_size : Int)
                  + ((BatchAction.merge ctx top b1).memory_size : Int)), s1) := by
  unfold ActionQueue.addBatch
  rw [hs, ht, hc]
  rfl

/-- C4, as stated, fails: with a memory cap of one unit, pushing batch B on a queue that
holds batch A (done) and a pending redo leaves the single entry B, not A followed by B:
the budget loop evicts A. -/
theorem addBatch_pending_redo_counterexample :
    exampleQueuePending.current < (exampleQueuePending.actions.length : Int)
      ∧ (exampleQueuePending.addBatch (exampleContext 1) exampleStoreA exampleBatchB 0 0).map
            (fun r => r.1.actions) = some [exampleBatchB1]
      ∧ [exampleBatchB1]
          ≠ exampleQueuePending.actions.take exampleQueuePending.current.toNat ++ [exampleBatchB1]
      ∧ [exampleBatchB1]
          ≠ exampleQueuePending.actions.take exampleQueuePending.current.toNat ++ [exampleBatchB] := by
  decide

/-- C4, amended: when `current < length` and the commit of the new batch succeeds,
`addBatch` leaves the entries that were at indices below `current` followed by the new
batch in its committed state, less the oldest entries that the memory budget evicts (none
when the running total stays within the cap); the new batch is not merged into an older
entry, every entry formerly at index `current` or above is gone, and `canRedo()` returns
false. -/
theorem addBatch_pending_redo (ctx : Context) (q : ActionQueue) (s s1 : LiveState)
    (batch b1 : BatchAction) (d : DirtyList) (delay now : Int)
    (hcur : q.current < (q.actions.length : Int))
    (hc : batch.commit s = some (b1, s1, d)) :
    ∃ (q1 : ActionQueue) (k : Nat),
      q.addBatch ctx s batch delay now = some (q1, s1)
        ∧ q1.actions = (q.actions.take q.current.toNat ++ [b1]).drop k
        ∧ q1.canRedo.1 = false
        ∧ (q.memory_size - ActionQueue.memsizeOf (q.actions.drop q.current.toNat)
              + (b1.memory_size : Int) ≤ ctx.memCap →
            q1.actions = q.actions.take q.current.toNat ++ [b1]) := by
  have hs := ActionQueue.stackable_false q batch delay now (by omega)
  have hadd := ActionQueue.addBatch_push ctx q s s1 batch b1 d delay now hs hc
  obtain ⟨k, _, ha, _⟩ := ActionQueue.enforceBudget_drop ctx.memCap
    (q.actions.take q.current.toNat ++ [b1])
    (((q.actions.take q.current.toNat).length : Int) + 1)
    (q.memory_size - ActionQueue.memsizeOf (q.actions.drop q.current.toNat)
      + (b1.memory_size : Int))
  refine ⟨_, k, hadd, ha, ?_, ?_⟩
  · have hcq := ActionQueue.addBatch_current ctx q _ s s1 batch delay now hadd
    simp only [ActionQueue.canRedo, decide_eq_false_iff_not]
    omega
  · intro hm
    rw [ActionQueue.enforceBudget_of_le _ _ _ _ hm]

/-- Witness for C4: the same push as in the counterexample under a cap of ten units. -/
theorem addBatch_pending_redo_witness :
    exampleQueuePending.current < (exampleQueuePending.actions.length : Int)
      ∧ exampleBatchB.commit exampleStoreA = some (exampleBatchB1, exampleStoreAB, exampleDirtyB)
      ∧ ∃ (q1 : ActionQueue) (k : Nat),
          exampleQueuePending.addBatch (exampleContext 10) exampleStoreA exampleBatchB 0 0
              = some (q1, exampleStoreAB)
            ∧ q1.actions
                = (exampleQueuePending.actions.take exampleQueuePending.current.toNat
                    ++ [exampleBatchB1]).drop k
            ∧ q1.canRedo.1 = false
            ∧ (exampleQueuePending.memory_size
                  - ActionQueue.memsizeOf
                      (exampleQueuePending.actions.drop exampleQueuePending.current.toNat)
                  + (exampleBatchB1.memory_size : Int) ≤ (exampleContext 10).memCap →
                q1.actions
                  = exampleQueuePending.actions.take exampleQueuePending.current.toNat
                      ++ [exampleBatchB1]) :=
  ⟨by decide, rfl,
    addBatch_pending_redo (exampleContext 10) exampleQueuePending exampleStoreA exampleStoreAB
      exampleBatchB exampleBatchB1 exampleDirtyB 0 0 (by decide) rfl⟩

theorem BatchAction.commitActions_length (l : List Action) :
    ∀ (s s1 : LiveState) (d d1 : DirtyList) (l1 : List Action),
      BatchAction.commitActions l s d = some (l1, s1, d1) → l1.length = l.length := by
  induction l with
  | nil =>
    intro s s1 d d1 l1 h
    simp only [BatchAction.commitActions, Option.some.injEq, Prod.mk.injEq] at h
    rw [← h.1]
  | cons a rest ih =>
    intro s s1 d d1 l1 h
    unfold BatchAction.commitActions at h
    cases ha : a.commit s d with
    | none => rw [ha] at h; exact absurd h (by simp)
    | some r =>
      obtain ⟨a1, s2, d2⟩ := r
      rw [ha] at h
      dsimp only at h
      cases hr : BatchAction.commitActions rest s2 d2 with
      | none => rw [hr] at h; exact absurd h (by simp)
      | some r2 =>
        obtain ⟨rest1, s3, d3⟩ := r2
        rw [hr] at h
        simp only [Option.some.injEq, Prod.mk.injEq] at h
        rw [← h.1]
        simp [ih s2 s3 d2 d3 rest1 hr]

theorem BatchAction.commit_fields (b b1 : BatchAction) (s s1 : LiveState) (d : DirtyList)
    (h : b.commit s = some (b1, s1, d)) :
    b1.timestamp = b.timestamp ∧ b1.type = b.type ∧ b1.memory_size = b.memory_size
      ∧ b1.size = b.size := by
  unfold BatchAction.commit at h
  cases hr : BatchAction.commitActions b.batch s DirtyList.empty with
  | none => rw [hr] at h; exact absurd h (by simp)
  | some r =>
    obtain ⟨l1, s2, d2⟩ := r
    rw [hr] at h
    simp only [Option.some.injEq, Prod.mk.injEq] at h
    rw [← h.1]
    exact ⟨rfl, rfl, rfl, BatchAction.commitActions_length _ _ _ _ _ _ hr⟩

/-- C5, as stated, fails in two ways. Under a memory cap of one unit, two batches of the
same type pushed with an elapsed time of 0 and a `stacking_delay` of 0 leave one entry,
not two: the budget loop evicts the first. And when the first batch is itself stacked on
the entry already on top, the two calls add no entry at all and the top entry holds the
actions of three batches. -/
theorem addBatch_stacking_counterexample :
    ((ActionQueue.empty.addBatch (exampleContext 1) exampleStore exampleBatchA 0 0).bind
        (fun r => r.1.addBatch (exampleContext 1) r.2 exampleBatchB 0 0)).map
        (fun r => r.1.actions.length) = some 1
      ∧ (((ActionQueue.mk [exampleBatchE1] 1 1).addBatch (exampleContext 10) exampleStore
            exampleBatchE 5 1).bind
          (fun r => r.1.addBatch (exampleContext 10) r.2 exampleBatchE 5 2)).map
          (fun r => r.1.actions.map BatchAction.size) = some [3] := by
  decide

theorem BatchAction.commitActions_flags (l : List Action) :
    ∀ (s s1 : LiveState) (d d1 : DirtyList) (l1 : List Action),
      BatchAction.commitActions l s d = some (l1, s1, d1) → ∀ a ∈ l1, a.commited = true := by
  induction l with
  | nil =>
    intro s s1 d d1 l1 h a ha
    simp only [BatchAction.commitActions, Option.some.injEq, Prod.mk.injEq] at h
    rw [← h.1] at ha
    exact absurd ha (List.not_mem_nil _)
  | cons x rest ih =>
    intro s s1 d d1 l1 h a ha
    unfold BatchAction.commitActions at h
    cases hx : x.commit s d with
    | none => rw [hx] at h; exact absurd h (by simp)
    | some r =>
      obtain ⟨x1, s2, d2⟩ := r
      rw [hx] at h
      dsimp only at h
      cases hr : BatchAction.commitActions rest s2 d2 with
      | none => rw [hr] at h; exact absurd h (by simp)
      | some r2 =>
        obtain ⟨rest1, s3, d3⟩ := r2
        rw [hr] at h
        simp only [Option.some.injEq, Prod.mk.injEq] at h
        rw [← h.1] at ha
        rcases List.mem_cons.mp ha with ha | ha
        · rw [ha]
          unfold Action.commit at hx
          cases hsw : Action.swapChanges x.changes s d with
          | none => rw [hsw] at hx; exact absurd hx (by simp)
          | some w =>
            obtain ⟨cs, s4, d4⟩ := w
            rw [hsw] at hx
            simp only [Option.some.injEq, Prod.mk.injEq] at hx
            rw [← hx.1]
        · exact ih s2 s3 d2 d3 rest1 hr a ha

/-- After its commit every action of a batch is flagged as committed. -/
theorem BatchAction.commit_flags (b b1 : BatchAction) (s s1 : LiveState) (d : DirtyList)
    (h : b.commit s = some (b1, s1, d)) : b1.Commited := by
  unfold BatchAction.commit at h
  cases hr : BatchAction.commitActions b.batch s DirtyList.empty with
  | none => rw [hr] at h; exact absurd h (by simp)
  | some r =>
    obtain ⟨l1, s2, d2⟩ := r
    rw [hr] at h
    simp only [Option.some.injEq, Prod.mk.injEq] at h
    rw [← h.1]
    exact BatchAction.commitActions_flags _ _ _ _ _ _ hr

/-- C5, amended: for two batches of the same type tag added one after the other to a
queue with no pending redo, provided that the first batch is not itself stacked on the
entry already on top, that the commit of each of the two batches succeeds and that the
running memory total stays within the cap: the first call appends the committed first
batch; if the time elapsed since the first batch's timestamp is below `stacking_delay`,
the second call commits the second batch and adds no entry, so that the queue has gained
exactly one entry, which holds the committed actions of the first batch followed by those
of the second, as many as the two batches together, all flagged as committed; if the
elapsed time is `stacking_delay` or more, the queue has gained two entries. In both cases
the live state is the one after the two commits. -/
theorem addBatch_stacking (ctx : Context) (q : ActionQueue) (s s1 s2 : LiveState)
    (b1 b2 c1 c2 : BatchAction) (dl dl2 : DirtyList) (d1 d2 now1 now2 : Int)
    (hcur : q.current = (q.actions.length : Int))
    (hty : b1.type = b2.type)
    (hfirst : q.stackable b1 d1 now1 = false)
    (hc1 : b1.commit s = some (c1, s1, dl))
    (hc2 : b2.commit s1 = some (c2, s2, dl2))
    (hmem1 : q.memory_size + (b1.memory_size : Int) ≤ ctx.memCap) :
    ∃ q1 : ActionQueue,
      q.addBatch ctx s b1 d1 now1 = some (q1, s1)
        ∧ q1.actions = q.actions ++ [c1]
        ∧ (now2 - b1.timestamp < d2 →
            q.memory_size + (ctx.batchMemsize (c1.batch ++ c2.batch) : Int) ≤ ctx.memCap →
            ∃ q2 : ActionQueue,
              q1.addBatch ctx s1 b2 d2 now2 = some (q2, s2)
                ∧ q2.actions = q.actions ++ [BatchAction.merge ctx c1 c2]
                ∧ q2.actions.length = q.actions.length + 1
                ∧ (BatchAction.merge ctx c1 c2).batch = c1.batch ++ c2.batch
                ∧ c1.size = b1.size ∧ c2.size = b2.size
                ∧ (BatchAction.merge ctx c1 c2).size = b1.size + b2.size
                ∧ (BatchAction.merge ctx c1 c2).Commited)
        ∧ (d2 ≤ now2 - b1.timestamp →
            q.memory_size + (b1.memory_size : Int) + (b2.memory_size : Int) ≤ ctx.memCap →
            ∃ q2 : ActionQueue,
              q1.addBatch ctx s1 b2 d2 now2 = some (q2, s2)
                ∧ q2.actions = q.actions ++ [c1, c2]
                ∧ q2.actions.length = q.actions.length + 2) := by
  obtain ⟨hts, htp, hms, hsz⟩ := BatchAction.commit_fields b1 c1 s s1 dl hc1
  obtain ⟨_, _, hms2, hsz2⟩ := BatchAction.commit_fields b2 c2 s1 s2 dl2 hc2
  have hadd := ActionQueue.addBatch_push ctx q s s1 b1 c1 dl d1 now1 hfirst hc1
  have htn : q.current.toNat = q.actions.length := by omega
  rw [htn, List.take_length, List.drop_length, hms] at hadd
  have hm0 : ActionQueue.memsizeOf [] = 0 := rfl
  rw [hm0, ActionQueue.enforceBudget_of_le _ _ _ _ (by omega)] at hadd
  refine ⟨_, hadd, rfl, ?_, ?_⟩
  · intro hel hmem
    have hst : (ActionQueue.mk (q.actions ++ [c1]) ((q.actions.length : Int) + 1)
        (q.memory_size - 0 + (b1.memory_size : Int))).stackable b2 d2 now2 = true := by
      have hlast : (q.actions ++ [c1]).getLast? = some c1 := by simp
      simp only [ActionQueue.stackable, hlast, Bool.and_eq_true, decide_eq_true_eq]
      refine ⟨⟨?_, ?_⟩, ?_⟩
      · simp
      · rw [htp, hty]
      · rw [hts]; exact hel
    have hmerge := ActionQueue.addBatch_merge ctx _ s1 s2 b2 c2 c1 dl2 d2 now2 hst (by simp) hc2
    simp only [List.dropLast_concat] at hmerge
    rw [ActionQueue.enforceBudget_of_le _ _ _ _ (by
      simp only [BatchAction.merge]
      rw [hms]
      omega)] at hmerge
    refine ⟨_, hmerge, rfl, by simp, rfl, hsz, hsz2, ?_, ?_⟩
    · simp only [BatchAction.size] at hsz hsz2 ⊢
      simp [BatchAction.merge, hsz, hsz2]
    · have hf1 := BatchAction.commit_flags b1 c1 s s1 dl hc1
      have hf2 := BatchAction.commit_flags b2 c2 s1 s2 dl2 hc2
      intro a ha
      rcases List.mem_append.mp ha with ha | ha
      · exact hf1 a ha
      · exact hf2 a ha
  · intro hel hmem
    have hst : (ActionQueue.mk (q.actions ++ [c1]) ((q.actions.length : Int) + 1)
        (q.memory_size - 0 + (b1.memory_size : Int))).stackable b2 d2 now2 = false := by
      have hlast : (q.actions ++ [c1]).getLast? = some c1 := by simp
      simp only [ActionQueue.stackable, hlast, Bool.and_eq_false_imp, decide_eq_true_eq,
        decide_eq_false_iff_not]
      intro _ hlt
      rw [hts] at hlt
      omega
    have hpush := ActionQueue.addBatch_push ctx _ s1 s2 b2 c2 dl2 d2 now2 hst hc2
    have htn2 : ((q.actions.length : Int) + 1).toNat = (q.actions ++ [c1]).length := by
      simp only [List.length_append, List.length_singleton]
      omega
    simp only [htn2, List.take_length, List.drop_length, hm0, hms2] at hpush
    rw [ActionQueue.enforceBudget_of_le _ _ _ _ (by omega)] at hpush
    exact ⟨_, hpush, by simp, by simp⟩

/-- Witness for C5: batch A then batch B on the empty queue under a cap of ten units, the
second call one time unit after the first, once with a `stacking_delay` of 5 (one entry
that holds both committed actions) and once with a `stacking_delay` of 0 (two
entries). -/
theorem addBatch_stacking_witness :
    ActionQueue.empty.current = (ActionQueue.empty.actions.length : Int)
      ∧ exampleBatchA.type = exampleBatchB.type
      ∧ ActionQueue.empty.stackable exampleBatchA 0 0 = false
      ∧ exampleBatchA.commit exampleStore = some (exampleBatchA1, exampleStoreA, exampleDirtyA)
      ∧ exampleBatchB.commit exampleStoreA = some (exampleBatchB1, exampleStoreAB, exampleDirtyB)
      ∧ ActionQueue.empty.memory_size + (exampleBatchA.memory_size : Int)
          ≤ (exampleContext 10).memCap
      ∧ ((1 : Int) - exampleBatchA.timestamp < 5)
      ∧ ((0 : Int) ≤ (1 : Int) - exampleBatchA.timestamp)
      ∧ (∃ q1 : ActionQueue,
        ActionQueue.empty.addBatch (exampleContext 10) exampleStore exampleBatchA 0 0
            = some (q1, exampleStoreA)
          ∧ q1.actions = ActionQueue.empty.actions ++ [exampleBatchA1]
          ∧ ((1 : Int) - exampleBatchA.timestamp < 5 →
              ActionQueue.empty.memory_size
                + ((exampleContext 10).batchMemsize
                    (exampleBatchA1.batch ++ exampleBatchB1.batch) : Int)
                ≤ (exampleContext 10).memCap →
              ∃ q2 : ActionQueue,
                q1.addBatch (exampleContext 10) exampleStoreA exampleBatchB 5 1
                    = some (q2, exampleStoreAB)
                  ∧ q2.actions = ActionQueue.empty.actions
                      ++ [BatchAction.merge (exampleContext 10) exampleBatchA1 exampleBatchB1]
                  ∧ q2.actions.length = ActionQueue.empty.actions.length + 1
                  ∧ (BatchAction.merge (exampleContext 10) exampleBatchA1 exampleBatchB1).batch
                      = exampleBatchA1.batch ++ exampleBatchB1.batch
                  ∧ exampleBatchA1.size = exampleBatchA.size
                  ∧ exampleBatchB1.size = exampleBatchB.size
                  ∧ (BatchAction.merge (exampleContext 10) exampleBatchA1 exampleBatchB1).size
                      = exampleBatchA.size + exampleBatchB.size
                  ∧ (BatchAction.merge (exampleContext 10) exampleBatchA1
                      exampleBatchB1).Commited)
          ∧ (5 ≤ (1 : Int) - exampleBatchA.timestamp →
              ActionQueue.empty.memory_size + (exampleBatchA.memory_size : Int)
                + (exampleBatchB.memory_size : Int) ≤ (exampleContext 10).memCap →
              ∃ q2 : ActionQueue,
                q1.addBatch (exampleContext 10) exampleStoreA exampleBatchB 5 1
                    = some (q2, exampleStoreAB)
                  ∧ q2.actions = ActionQueue.empty.actions ++ [exampleBatchA1, exampleBatchB1]
                  ∧ q2.actions.length = ActionQueue.empty.actions.length + 2))
      ∧ (∃ q1 : ActionQueue,
        ActionQueue.empty.addBatch (exampleContext 10) exampleStore exampleBatchA 0 0
            = some (q1, exampleStoreA)
          ∧ q1.actions = ActionQueue.empty.actions ++ [exampleBatchA1]
          ∧ ((1 : Int) - exampleBatchA.timestamp < 0 →
              ActionQueue.empty.memory_size
                + ((exampleContext 10).batchMemsize
                    (exampleBatchA1.batch ++ exampleBatchB1.batch) : Int)
                ≤ (exampleContext 10).memCap →
              ∃ q2 : ActionQueue,
                q1.addBatch (exampleContext 10) exampleStoreA exampleBatchB 0 1
                    = some (q2, exampleStoreAB)
                  ∧ q2.actions = ActionQueue.empty.actions
                      ++ [BatchAction.merge (exampleContext 10) exampleBatchA1 exampleBatchB1]
                  ∧ q2.actions.length = ActionQueue.empty.actions.length + 1
                  ∧ (BatchAction.merge (exampleContext 10) exampleBatchA1 exampleBatchB1).batch
                      = exampleBatchA1.batch ++ exampleBatchB1.batch
                  ∧ exampleBatchA1.size = exampleBatchA.size
                  ∧ exampleBatchB1.size = exampleBatchB.size
                  ∧ (BatchAction.merge (exampleContext 10) exampleBatchA1 exampleBatchB1).size
                      = exampleBatchA.size + exampleBatchB.size
                  ∧ (BatchAction.merge (exampleContext 10) exampleBatchA1
                      exampleBatchB1).Commited)
          ∧ (0 ≤ (1 : Int) - exampleBatchA.timestamp →
              ActionQueue.empty.memory_size + (exampleBatchA.memory_size : Int)
                + (exampleBatchB.memory_size : Int) ≤ (exampleContext 10).memCap →
              ∃ q2 : ActionQueue,
                q1.addBatch (exampleContext 10) exampleStoreA exampleBatchB 0 1
                    = some (q2, exampleStoreAB)
                  ∧ q2.actions = ActionQueue.empty.actions ++ [exampleBatchA1, exampleBatchB1]
                  ∧ q2.actions.length = ActionQueue.empty.actions.length + 2)) :=
  ⟨rfl, rfl, rfl, rfl, rfl, by decide, by decide, by decide,
    addBatch_stacking (exampleContext 10) ActionQueue.empty exampleStore exampleStoreA
      exampleStoreAB exampleBatchA exampleBatchB exampleBatchA1 exampleBatchB1 exampleDirtyA
      exampleDirtyB 0 5 0 1 rfl rfl rfl rfl rfl (by decide),
    addBatch_stacking (exampleContext 10) ActionQueue.empty exampleStore exampleStoreA
      exampleStoreAB exampleBatchA exampleBatchB exampleBatchA1 exampleBatchB1 exampleDirtyA
      exampleDirtyB 0 0 0 1 rfl rfl rfl rfl rfl (by decide)⟩

/-! ## The swap primitive -/

theorem Change.swap_addr (c c1 : Change) (s s1 : LiveState) (h : c.swap s = some (c1, s1)) :
    c1.addr = c.addr := by
  cases c with
  | tile pos t =>
    simp only [Change.swap] at h
    cases ht : s.tiles pos with
    | none => rw [ht] at h; exact absurd h (by simp)
    | some old =>
      rw [ht] at h
      simp only [Option.some.injEq, Prod.mk.injEq] at h
      rw [← h.1]; rfl
  | moveHouseExit hs target =>
    simp only [Change.swap] at h
    cases ht : s.houseExits hs with
    | none => rw [ht] at h; exact absurd h (by simp)
    | some old =>
      rw [ht] at h
      simp only [Option.some.injEq, Prod.mk.injEq] at h
      rw [← h.1]; rfl
  | moveWaypoint w target =>
    simp only [Change.swap] at h
    cases ht : s.waypoints w with
    | none => rw [ht] at h; exact absurd h (by simp)
    | some old =>
      rw [ht] at h
      simp only [Option.some.injEq, Prod.mk.injEq] at h
      rw [← h.1]; rfl

theorem Change.swap_isSome (c : Change) (s : LiveState) :
    (c.swap s).isSome = s.hasLocation c.addr := by
  cases c with
  | tile pos t =>
    simp only [Change.swap, Change.addr, LiveState.hasLocation]
    cases s.tiles pos <;> rfl
  | moveHouseExit hs target =>
    simp only [Change.swap, Change.addr, LiveState.hasLocation]
    cases s.houseExits hs <;> rfl
  | moveWaypoint w target =>
    simp only [Change.swap, Change.addr, LiveState.hasLocation]
    cases s.waypoints w <;> rfl

theorem Change.swap_swap (c c1 : Change) (s s1 : LiveState) (h : c.swap s = some (c1, s1)) :
    c1.swap s1 = some (c, s) := by
  cases c with
  | tile pos t =>
    simp only [Change.swap] at h
    cases ht : s.tiles pos with
    | none => rw [ht] at h; exact absurd h (by simp)
    | some old =>
      rw [ht] at h
      simp only [Option.some.injEq, Prod.mk.injEq] at h
      rw [← h.1, ← h.2]
      simp only [Change.swap, Function.update_same, Function.update_idem]
      rw [← ht, Function.update_eq_self]
  | moveHouseExit hs target =>
    simp only [Change.swap] at h
    cases ht : s.houseExits hs with
    | none => rw [ht] at h; exact absurd h (by simp)
    | some old =>
      rw [ht] at h
      simp only [Option.some.injEq, Prod.mk.injEq] at h
      rw [← h.1, ← h.2]
      simp only [Change.swap, Function.update_same, Function.update_idem]
      rw [← ht, Function.update_eq_self]
  | moveWaypoint w target =>
    simp only [Change.swap] at h
    cases ht : s.waypoints w with
    | none => rw [ht] at h; exact absurd h (by simp)
    | some old =>
      rw [ht] at h
      simp only [Option.some.injEq, Prod.mk.injEq] at h
      rw [← h.1, ← h.2]
      simp only [Change.swap, Function.update_same, Function.update_idem]
      rw [← ht, Function.update_eq_self]

theorem Change.swap_hasLocation (c c1 : Change) (s s1 : LiveState)
    (h : c.swap s = some (c1, s1)) (a : Address) : s1.hasLocation a = s.hasLocation a := by
  cases c with
  | tile pos t =>
    simp only [Change.swap] at h
    cases ht : s.tiles pos with
    | none => rw [ht] at h; exact absurd h (by simp)
    | some old =>
      rw [ht] at h
      simp only [Option.some.injEq, Prod.mk.injEq] at h
      rw [← h.2]
      cases a with
      | tile p =>
        simp only [LiveState.hasLocation]
        by_cases hp : p = pos
        · subst hp; simp [ht]
        · rw [Function.update_noteq hp]
      | houseExit _ => rfl
      | waypoint _ => rfl
  | moveHouseExit hs target =>
    simp only [Change.swap] at h
    cases ht : s.houseExits hs with
    | none => rw [ht] at h; exact absurd h (by simp)
    | some old =>
      rw [ht] at h
      simp only [Option.some.injEq, Prod.mk.injEq] at h
      rw [← h.2]
      cases a with
      | tile _ => rfl
      | houseExit p =>
        simp only [LiveState.hasLocation]
        by_cases hp : p = hs
        · subst hp; simp [ht]
        · rw [Function.update_noteq hp]
      | waypoint _ => rfl
  | moveWaypoint w target =>
    simp only [Change.swap] at h
    cases ht : s.waypoints w with
    | none => rw [ht] at h; exact absurd h (by simp)
    | some old =>
      rw [ht] at h
      simp only [Option.some.injEq, Prod.mk.injEq] at h
      rw [← h.2]
      cases a with
      | tile _ => rfl
      | houseExit _ => rfl
      | waypoint p =>
        simp only [LiveState.hasLocation]
        by_cases hp : p = w
        · subst hp; simp [ht]
        · rw [Function.update_noteq hp]

/-- Two swaps on different locations commute. -/
theorem Change.swap_comm (c1 c2 c3 c4 : Change) (s s1 s2 : LiveState)
    (hne : c1.addr ≠ c2.addr) (h1 : c1.swap s = some (c3, s1))
    (h2 : c2.swap s = some (c4, s2)) :
    ∃ s12, c2.swap s1 = some (c4, s12) ∧ c1.swap s2 = some (c3, s12) := by
  cases c1 with
  | tile p1 t1 =>
    cases c2 with
    | tile p2 t2 =>
      have hp : p1 ≠ p2 := fun h => hne (by rw [h]; rfl)
      simp only [Change.swap] at h1 h2 ⊢
      cases ht1 : s.tiles p1 with
      | none => rw [ht1] at h1; exact absurd h1 (by simp)
      | some o1 =>
        cases ht2 : s.tiles p2 with
        | none => rw [ht2] at h2; exact absurd h2 (by simp)
        | some o2 =>
          rw [ht1] at h1
          rw [ht2] at h2
          simp only [Option.some.injEq, Prod.mk.injEq] at h1 h2
          obtain ⟨h1a, h1b⟩ := h1
          obtain ⟨h2a, h2b⟩ := h2
          subst h1a h1b h2a h2b
          simp only [Function.update_noteq (Ne.symm hp), Function.update_noteq hp, ht1, ht2]
          exact ⟨_, rfl, by rw [Function.update_comm hp]⟩
    | moveHouseExit p2 t2 =>
      simp only [Change.swap] at h1 h2 ⊢
      split at h1
      · exact absurd h1 (by simp)
      · split at h2
        · exact absurd h2 (by simp)
        · simp only [Option.some.injEq, Prod.mk.injEq] at h1 h2
          obtain ⟨h1a, h1b⟩ := h1
          obtain ⟨h2a, h2b⟩ := h2
          subst h1a h1b h2a h2b
          simp_all
    | moveWaypoint p2 t2 =>
      simp only [Change.swap] at h1 h2 ⊢
      split at h1
      · exact absurd h1 (by simp)
      · split at h2
        · exact absurd h2 (by simp)
        · simp only [Option.some.injEq, Prod.mk.injEq] at h1 h2
          obtain ⟨h1a, h1b⟩ := h1
          obtain ⟨h2a, h2b⟩ := h2
          subst h1a h1b h2a h2b
          simp_all
  | moveHouseExit p1 t1 =>
    cases c2 with
    | tile p2 t2 =>
      simp only [Change.swap] at h1 h2 ⊢
      split at h1
      · exact absurd h1 (by simp)
      · split at h2
        · exact absurd h2 (by simp)
        · simp only [Option.some.injEq, Prod.mk.injEq] at h1 h2
          obtain ⟨h1a, h1b⟩ := h1
          obtain ⟨h2a, h2b⟩ := h2
          subst h1a h1b h2a h2b
          simp_all
    | moveHouseExit p2 t2 =>
      have hp : p1 ≠ p2 := fun h => hne (by rw [h]; rfl)
      simp only [Change.swap] at h1 h2 ⊢
      cases ht1 : s.houseExits p1 with
      | none => rw [ht1] at h1; exact absurd h1 (by simp)
      | some o1 =>
        cases ht2 : s.houseExits p2 with
        | none => rw [ht2] at h2; exact absurd h2 (by simp)
        | some o2 =>
          rw [ht1] at h1
          rw [ht2] at h2
          simp only [Option.some.injEq, Prod.mk.injEq] at h1 h2
          obtain ⟨h1a, h1b⟩ := h1
          obtain ⟨h2a, h2b⟩ := h2
          subst h1a h1b h2a h2b
          simp only [Function.update_noteq (Ne.symm hp), Function.update_noteq hp, ht1, ht2]
          exact ⟨_, rfl, by rw [Function.update_comm hp]⟩
    | moveWaypoint p2 t2 =>
      simp only [Change.swap] at h1 h2 ⊢
      split at h1
      · exact absurd h1 (by simp)
      · split at h2
        · exact absurd h2 (by simp)
        · simp only [Option.some.injEq, Prod.mk.injEq] at h1 h2
          obtain ⟨h1a, h1b⟩ := h1
          obtain ⟨h2a, h2b⟩ := h2
          subst h1a h1b h2a h2b
          simp_all
  | moveWaypoint p1 t1 =>
    cases c2 with
    | tile p2 t2 =>
      simp only [Change.swap] at h1 h2 ⊢
      split at h1
      · exact absurd h1 (by simp)
      · split at h2
        · exact absurd h2 (by simp)
        · simp only [Option.some.injEq, Prod.mk.injEq] at h1 h2
          obtain ⟨h1a, h1b⟩ := h1
          obtain ⟨h2a, h2b⟩ := h2
          subst h1a h1b h2a h2b
          simp_all
    | moveHouseExit p2 t2 =>
      simp only [Change.swap] at h1 h2 ⊢
      split at h1
      · exact absurd h1 (by simp)
      · split at h2
        · exact absurd h2 (by simp)
        · simp only [Option.some.injEq, Prod.mk.injEq] at h1 h2
          obtain ⟨h1a, h1b⟩ := h1
          obtain ⟨h2a, h2b⟩ := h2
          subst h1a h1b h2a h2b
          simp_all
    | moveWaypoint p2 t2 =>
      have hp : p1 ≠ p2 := fun h => hne (by rw [h]; rfl)
      simp only [Change.swap] at h1 h2 ⊢
      cases ht1 : s.waypoints p1 with
      | none => rw [ht1] at h1; exact absurd h1 (by simp)
      | some o1 =>
        cases ht2 : s.waypoints p2 with
        | none => rw [ht2] at h2; exact absurd h2 (by simp)
        | some o2 =>
          rw [ht1] at h1
          rw [ht2] at h2
          simp only [Option.some.injEq, Prod.mk.injEq] at h1 h2
          obtain ⟨h1a, h1b⟩ := h1
          obtain ⟨h2a, h2b⟩ := h2
          subst h1a h1b h2a h2b
          simp only [Function.update_noteq (Ne.symm hp), Function.update_noteq hp, ht1, ht2]
          exact ⟨_, rfl, by rw [Function.update_comm hp]⟩

/-- Completion of the commuting square from the other corner. -/
theorem Change.swap_comm_back (c1 c2 c3 c4 : Change) (s s2 s12 : LiveState)
    (hne : c1.addr ≠ c2.addr) (h2 : c2.swap s = some (c4, s2))
    (h1 : c1.swap s2 = some (c3, s12)) :
    ∃ s1, c1.swap s = some (c3, s1) ∧ c2.swap s1 = some (c4, s12) := by
  have hb := Change.swap_swap c2 c4 s s2 h2
  have ha := Change.swap_addr c2 c4 s s2 h2
  obtain ⟨t, ht1, ht2⟩ := Change.swap_comm c1 c4 c3 c2 s2 s12 s (by rw [ha]; exact hne) h1 hb
  exact ⟨t, ht2, Change.swap_swap c4 c2 s12 t ht1⟩

theorem Change.touched_swap (c c1 : Change) (s s1 : LiveState) (h : c.swap s = some (c1, s1))
    (p : Position) : p ∈ c1.touched s1 ↔ p ∈ c.touched s := by
  cases c with
  | tile pos t =>
    simp only [Change.swap] at h
    cases ht : s.tiles pos with
    | none => rw [ht] at h; exact absurd h (by simp)
    | some old =>
      rw [ht] at h
      simp only [Option.some.injEq, Prod.mk.injEq] at h
      rw [← h.1]
      simp [Change.touched]
  | moveHouseExit hs target =>
    simp only [Change.swap] at h
    cases ht : s.houseExits hs with
    | none => rw [ht] at h; exact absurd h (by simp)
    | some old =>
      rw [ht] at h
      simp only [Option.some.injEq, Prod.mk.injEq] at h
      rw [← h.1, ← h.2]
      simp only [Change.touched, Function.update_same, ht, List.mem_cons, List.mem_singleton,
        List.not_mem_nil, or_false]
      exact Or.comm
  | moveWaypoint w target =>
    simp only [Change.swap] at h
    cases ht : s.waypoints w with
    | none => rw [ht] at h; exact absurd h (by simp)
    | some old =>
      rw [ht] at h
      simp only [Option.some.injEq, Prod.mk.injEq] at h
      rw [← h.1, ← h.2]
      simp only [Change.touched, Function.update_same, ht, List.mem_cons, List.mem_singleton,
        List.not_mem_nil, or_false]
      exact Or.comm

/-- The positions touched by a change do not depend on a swap at another location. -/
theorem Change.touched_indep (c1 c2 c3 : Change) (s s1 : LiveState)
    (hne : c1.addr ≠ c2.addr) (h1 : c1.swap s = some (c3, s1)) :
    c2.touched s1 = c2.touched s := by
  cases c1 with
  | tile p1 t1 =>
    simp only [Change.swap] at h1
    split at h1
    · exact absurd h1 (by simp)
    · simp only [Option.some.injEq, Prod.mk.injEq] at h1
      rw [← h1.2]
      cases c2 with
      | tile p2 t2 => rfl
      | moveHouseExit p2 t2 => rfl
      | moveWaypoint p2 t2 => rfl
  | moveHouseExit p1 t1 =>
    simp only [Change.swap] at h1
    split at h1
    · exact absurd h1 (by simp)
    · simp only [Option.some.injEq, Prod.mk.injEq] at h1
      rw [← h1.2]
      cases c2 with
      | tile p2 t2 => rfl
      | moveHouseExit p2 t2 =>
        have hp : p2 ≠ p1 := fun h => hne (by rw [h]; rfl)
        simp only [Change.touched, Function.update_noteq hp]
      | moveWaypoint p2 t2 => rfl
  | moveWaypoint p1 t1 =>
    simp only [Change.swap] at h1
    split at h1
    · exact absurd h1 (by simp)
    · simp only [Option.some.injEq, Prod.mk.injEq] at h1
      rw [← h1.2]
      cases c2 with
      | tile p2 t2 => rfl
      | moveHouseExit p2 t2 => rfl
      | moveWaypoint p2 t2 =>
        have hp : p2 ≠ p1 := fun h => hne (by rw [h]; rfl)
        simp only [Change.touched, Function.update_noteq hp]

/-! ## The swap pass of an action -/

theorem Action.swapAll_cons (c : Change) (cs l : List Change) (s s2 : LiveState) :
    Action.swapAll (c :: cs) s = some (l, s2) ↔
      ∃ (c1 : Change) (s1 : LiveState) (cs1 : List Change),
        c.swap s = some (c1, s1) ∧ Action.swapAll cs s1 = some (cs1, s2) ∧ l = c1 :: cs1 := by
  constructor
  · intro h
    unfold Action.swapAll at h
    cases hc : c.swap s with
    | none => rw [hc] at h; exact absurd h (by simp)
    | some r =>
      obtain ⟨c1, s1⟩ := r
      rw [hc] at h
      dsimp only at h
      cases hr : Action.swapAll cs s1 with
      | none => rw [hr] at h; exact absurd h (by simp)
      | some r2 =>
        obtain ⟨cs1, s3⟩ := r2
        rw [hr] at h
        simp only [Option.some.injEq, Prod.mk.injEq] at h
        exact ⟨c1, s1, cs1, rfl, h.2 ▸ hr, h.1.symm⟩
  · rintro ⟨c1, s1, cs1, hc, hr, hl⟩
    unfold Action.swapAll
    rw [hc]
    dsimp only
    rw [hr, hl]

theorem Action.swapAll_addr (cs : List Change) :
    ∀ (s s1 : LiveState) (cs1 : List Change), Action.swapAll cs s = some (cs1, s1) →
      cs1.map Change.addr = cs.map Change.addr := by
  induction cs with
  | nil =>
    intro s s1 cs1 h
    simp only [Action.swapAll, Option.some.injEq, Prod.mk.injEq] at h
    rw [← h.1]
  | cons c cs ih =>
    intro s s1 cs1 h
    obtain ⟨c1, sa, r1, hc, hr, hl⟩ := (Action.swapAll_cons c cs cs1 s s1).mp h
    rw [hl, List.map_cons, List.map_cons, ih sa s1 r1 hr, Change.swap_addr c c1 s sa hc]

theorem Action.swapAll_hasLocation (cs : List Change) :
    ∀ (s s1 : LiveState) (cs1 : List Change), Action.swapAll cs s = some (cs1, s1) →
      ∀ a : Address, s1.hasLocation a = s.hasLocation a := by
  induction cs with
  | nil =>
    intro s s1 cs1 h a
    simp only [Action.swapAll, Option.some.injEq, Prod.mk.injEq] at h
    rw [← h.2]
  | cons c cs ih =>
    intro s s1 cs1 h a
    obtain ⟨c1, sa, r1, hc, hr, _⟩ := (Action.swapAll_cons c cs cs1 s s1).mp h
    rw [ih sa s1 r1 hr a, Change.swap_hasLocation c c1 s sa hc a]

/-- The pass succeeds exactly when every addressed location is present. -/
theorem Action.swapAll_isSome (cs : List Change) :
    ∀ s : LiveState, (Action.swapAll cs s).isSome = true ↔
      ∀ c ∈ cs, s.hasLocation c.addr = true := by
  induction cs with
  | nil => intro s; simp [Action.swapAll]
  | cons c cs ih =>
    intro s
    constructor
    · intro h
      cases hr : Action.swapAll (c :: cs) s with
      | none => rw [hr] at h; exact absurd h (by simp)
      | some r =>
        obtain ⟨l, s2⟩ := r
        obtain ⟨c1, sa, r1, hc, hr1, _⟩ := (Action.swapAll_cons c cs l s s2).mp hr
        intro x hx
        rcases List.mem_cons.mp hx with hx | hx
        · rw [hx, ← Change.swap_isSome, hc]; rfl
        · have := (ih sa).mp (by rw [hr1]; rfl) x hx
          rw [← Change.swap_hasLocation c c1 s sa hc]
          exact this
    · intro h
      have hc : (c.swap s).isSome = true := by
        rw [Change.swap_isSome]
        exact h c (List.mem_cons_self _ _)
      cases hcs : c.swap s with
      | none => rw [hcs] at hc; exact absurd hc (by simp)
      | some r =>
        obtain ⟨c1, sa⟩ := r
        have hrest : (Action.swapAll cs sa).isSome = true := by
          rw [ih sa]
          intro x hx
          rw [Change.swap_hasLocation c c1 s sa hcs]
          exact h x (List.mem_cons_of_mem _ hx)
        cases hr : Action.swapAll cs sa with
        | none => rw [hr] at hrest; exact absurd hrest (by simp)
        | some r2 =>
          obtain ⟨r1, s2⟩ := r2
          rw [(Action.swapAll_cons c cs (c1 :: r1) s s2).mpr ⟨c1, sa, r1, hcs, hr, rfl⟩]
          rfl

/-- A swap at a location that the pass does not address can be moved from after the pass
to before it. -/
theorem Action.swapAll_comm_back (cs : List Change) :
    ∀ (c c1 : Change) (u u2 u12 : LiveState) (cs1 : List Change),
      c.addr ∉ cs.map Change.addr →
      Action.swapAll cs u = some (cs1, u2) → c.swap u2 = some (c1, u12) →
      ∃ u1, c.swap u = some (c1, u1) ∧ Action.swapAll cs u1 = some (cs1, u12) := by
  induction cs with
  | nil =>
    intro c c1 u u2 u12 cs1 _ h hc
    simp only [Action.swapAll, Option.some.injEq, Prod.mk.injEq] at h
    rw [← h.2] at hc
    rw [← h.1]
    exact ⟨u12, hc, rfl⟩
  | cons x r ih =>
    intro c c1 u u2 u12 cs1 hn h hc
    obtain ⟨x1, ux, r1, hx, hr, hl⟩ := (Action.swapAll_cons x r cs1 u u2).mp h
    simp only [List.map_cons, List.mem_cons, not_or] at hn
    obtain ⟨v, hcv, hrv⟩ := ih c c1 ux u2 u12 r1 hn.2 hr hc
    obtain ⟨u1, hcu, hxu⟩ := Change.swap_comm_back c x c1 x1 u ux v hn.1 hx hcv
    exact ⟨u1, hcu, (Action.swapAll_cons x r cs1 u1 u12).mpr ⟨x1, v, r1, hxu, hrv, hl⟩⟩

/-- On changes with pairwise distinct addresses the pass is its own inverse. -/
theorem Action.swapAll_swapAll (cs : List Change) :
    ∀ (s s1 : LiveState) (cs1 : List Change), (cs.map Change.addr).Nodup →
      Action.swapAll cs s = some (cs1, s1) → Action.swapAll cs1 s1 = some (cs, s) := by
  induction cs with
  | nil =>
    intro s s1 cs1 _ h
    simp only [Action.swapAll, Option.some.injEq, Prod.mk.injEq] at h
    rw [← h.1, ← h.2]
    rfl
  | cons c r ih =>
    intro s s1 cs1 hnd h
    obtain ⟨c1, sa, r1, hc, hr, hl⟩ := (Action.swapAll_cons c r cs1 s s1).mp h
    simp only [List.map_cons, List.nodup_cons] at hnd
    have hback := ih sa s1 r1 hnd.2 hr
    have hcc := Change.swap_swap c c1 s sa hc
    have hnot : c1.addr ∉ r1.map Change.addr := by
      rw [Change.swap_addr c c1 s sa hc, Action.swapAll_addr r sa s1 r1 hr]
      exact hnd.1
    obtain ⟨u1, h1, h2⟩ := Action.swapAll_comm_back r1 c1 c s1 sa s r hnot hback hcc
    rw [hl]
    exact (Action.swapAll_cons c1 r1 (c :: r) s1 s).mpr ⟨c, u1, r, h1, h2, rfl⟩

theorem Action.touched_after_pass (cs : List Change) :
    ∀ (c : Change) (u u2 : LiveState) (cs1 : List Change),
      c.addr ∉ cs.map Change.addr → Action.swapAll cs u = some (cs1, u2) →
      c.touched u2 = c.touched u := by
  induction cs with
  | nil =>
    intro c u u2 cs1 _ h
    simp only [Action.swapAll, Option.some.injEq, Prod.mk.injEq] at h
    rw [← h.2]
  | cons x r ih =>
    intro c u u2 cs1 hn h
    obtain ⟨x1, ux, r1, hx, hr, _⟩ := (Action.swapAll_cons x r cs1 u u2).mp h
    simp only [List.map_cons, List.mem_cons, not_or] at hn
    rw [ih c ux u2 r1 hn.2 hr]
    exact Change.touched_indep x c x1 u ux (Ne.symm hn.1) hx

theorem Action.touchedAll_after_swap (cs : List Change) :
    ∀ (c c1 : Change) (u u1 : LiveState),
      c.addr ∉ cs.map Change.addr → c.swap u = some (c1, u1) →
      Action.touchedAll cs u1 = Action.touchedAll cs u := by
  induction cs with
  | nil => intro c c1 u u1 _ _; rfl
  | cons x r ih =>
    intro c c1 u u1 hn hc
    simp only [List.map_cons, List.mem_cons, not_or] at hn
    unfold Action.touchedAll
    rw [Change.touched_indep c x c1 u u1 hn.1 hc]
    cases hx : x.swap u with
    | none =>
      have h0 : (x.swap u1).isSome = false := by
        rw [Change.swap_isSome, Change.swap_hasLocation c c1 u u1 hc, ← Change.swap_isSome, hx]
        rfl
      cases hx1 : x.swap u1 with
      | none => rfl
      | some r2 => rw [hx1] at h0; exact absurd h0 (by simp)
    | some r2 =>
      obtain ⟨x1, ux⟩ := r2
      obtain ⟨s12, hxs, hcs⟩ := Change.swap_comm c x c1 x1 u u1 ux hn.1 hc hx
      rw [hxs]
      dsimp only
      rw [ih c c1 ux s12 hn.2 hcs]

/-- On changes with pairwise distinct addresses, the pass and the pass that reverts it
touch the same positions. -/
theorem Action.touchedAll_swapAll (cs : List Change) :
    ∀ (s s1 : LiveState) (cs1 : List Change), (cs.map Change.addr).Nodup →
      Action.swapAll cs s = some (cs1, s1) →
      ∀ p : Position, p ∈ Action.touchedAll cs1 s1 ↔ p ∈ Action.touchedAll cs s := by
  induction cs with
  | nil =>
    intro s s1 cs1 _ h p
    simp only [Action.swapAll, Option.some.injEq, Prod.mk.injEq] at h
    rw [← h.1]
    simp [Action.touchedAll]
  | cons c r ih =>
    intro s s1 cs1 hnd h p
    obtain ⟨c1, sa, r1, hc, hr, hl⟩ := (Action.swapAll_cons c r cs1 s s1).mp h
    simp only [List.map_cons, List.nodup_cons] at hnd
    have hback := Action.swapAll_swapAll r sa s1 r1 hnd.2 hr
    have hcc := Change.swap_swap c c1 s sa hc
    have hnot : c1.addr ∉ r1.map Change.addr := by
      rw [Change.swap_addr c c1 s sa hc, Action.swapAll_addr r sa s1 r1 hr]
      exact hnd.1
    obtain ⟨u1, h1, _⟩ := Action.swapAll_comm_back r1 c1 c s1 sa s r hnot hback hcc
    have hnot1 : c1.addr ∉ r.map Change.addr := by
      rw [Change.swap_addr c c1 s sa hc]
      exact hnd.1
    rw [hl]
    unfold Action.touchedAll
    rw [h1, hc]
    dsimp only
    rw [Action.touchedAll_after_swap r1 c1 c s1 u1 hnot h1,
      Action.touched_after_pass r c1 sa s1 r1 hnot1 hr]
    simp only [List.mem_append]
    rw [ih sa s1 r1 hnd.2 hr p, Change.touched_swap c c1 s sa hc p]

/-! ## Commit and undo of an action -/

theorem DirtyList.mem_AddPosition (d : DirtyList) (q p : Position) :
    p ∈ (d.AddPosition q).positions ↔ p ∈ d.positions ∨ p = q := by
  unfold DirtyList.AddPosition
  by_cases h : q ∈ d.positions
  · rw [if_pos h]
    constructor
    · intro hp; exact Or.inl hp
    · rintro (hp | hp)
      · exact hp
      · rw [hp]; exact h
  · rw [if_neg h]
    simp

theorem DirtyList.mem_foldl_AddPosition (l : List Position) :
    ∀ (d : DirtyList) (p : Position),
      p ∈ (l.foldl DirtyList.AddPosition d).positions ↔ p ∈ d.positions ∨ p ∈ l := by
  induction l with
  | nil => intro d p; simp
  | cons q l ih =>
    intro d p
    rw [List.foldl_cons, ih, DirtyList.mem_AddPosition, List.mem_cons, or_assoc]

theorem Action.swapChanges_of_swapAll (cs : List Change) :
    ∀ (s s1 : LiveState) (d : DirtyList) (cs1 : List Change),
      Action.swapAll cs s = some (cs1, s1) →
      ∃ d1, Action.swapChanges cs s d = some (cs1, s1, d1)
        ∧ ∀ p, p ∈ d1.positions ↔ p ∈ d.positions ∨ p ∈ Action.touchedAll cs s := by
  induction cs with
  | nil =>
    intro s s1 d cs1 h
    simp only [Action.swapAll, Option.some.injEq, Prod.mk.injEq] at h
    rw [← h.1, ← h.2]
    exact ⟨d, rfl, by simp [Action.touchedAll]⟩
  | cons c r ih =>
    intro s s1 d cs1 h
    obtain ⟨c1, sa, r1, hc, hr, hl⟩ := (Action.swapAll_cons c r cs1 s s1).mp h
    obtain ⟨d1, hd1, hp1⟩ := ih sa s1
      (((c.touched s).foldl DirtyList.AddPosition d).AddChange c1) r1 hr
    refine ⟨d1, ?_, ?_⟩
    · unfold Action.swapChanges
      rw [hc]
      dsimp only
      rw [hd1, hl]
    · intro p
      have ht : Action.touchedAll (c :: r) s = c.touched s ++ Action.touchedAll r sa := by
        rw [Action.touchedAll, hc]
      rw [hp1 p, ht]
      simp only [DirtyList.AddChange, DirtyList.mem_foldl_AddPosition, List.mem_append]
      exact or_assoc

theorem Action.swapAll_of_swapChanges (cs : List Change) :
    ∀ (s s1 : LiveState) (d d1 : DirtyList) (cs1 : List Change),
      Action.swapChanges cs s d = some (cs1, s1, d1) →
      Action.swapAll cs s = some (cs1, s1) := by
  induction cs with
  | nil =>
    intro s s1 d d1 cs1 h
    simp only [Action.swapChanges, Option.some.injEq, Prod.mk.injEq] at h
    rw [← h.1, ← h.2.1]
    rfl
  | cons c r ih =>
    intro s s1 d d1 cs1 h
    unfold Action.swapChanges at h
    cases hc : c.swap s with
    | none => rw [hc] at h; exact absurd h (by simp)
    | some r2 =>
      obtain ⟨c1, sa⟩ := r2
      rw [hc] at h
      dsimp only at h
      cases hr : Action.swapChanges r sa
          (((c.touched s).foldl DirtyList.AddPosition d).AddChange c1) with
      | none => rw [hr] at h; exact absurd h (by simp)
      | some r3 =>
        obtain ⟨r1, s3, d3⟩ := r3
        rw [hr] at h
        simp only [Option.some.injEq, Prod.mk.injEq] at h
        have := ih sa s3 _ d3 r1 hr
        rw [← h.1, ← h.2.1]
        exact (Action.swapAll_cons c r (c1 :: r1) s s3).mpr ⟨c1, sa, r1, hc, this, rfl⟩

theorem Action.action_commit_inv (a a1 : Action) (s s1 : LiveState) (d d1 : DirtyList)
    (h : a.commit s d = some (a1, s1, d1)) :
    Action.swapAll a.changes s = some (a1.changes, s1)
      ∧ a1 = { a with changes := a1.changes, commited := true } := by
  unfold Action.commit at h
  cases hr : Action.swapChanges a.changes s d with
  | none => rw [hr] at h; exact absurd h (by simp)
  | some r =>
    obtain ⟨cs1, s2, d2⟩ := r
    rw [hr] at h
    simp only [Option.some.injEq, Prod.mk.injEq] at h
    have hsw := Action.swapAll_of_swapChanges a.changes s s2 d d2 cs1 hr
    rw [← h.1, ← h.2.1]
    exact ⟨hsw, rfl⟩

theorem Action.action_undo_inv (a a1 : Action) (s s1 : LiveState) (d d1 : DirtyList)
    (h : a.undo s d = some (a1, s1, d1)) :
    a.commited = true ∧ Action.swapAll a.changes s = some (a1.changes, s1)
      ∧ a1 = { a with changes := a1.changes, commited := false } := by
  unfold Action.undo at h
  by_cases hcm : a.commited = true
  · rw [if_pos hcm] at h
    cases hr : Action.swapChanges a.changes s d with
    | none => rw [hr] at h; exact absurd h (by simp)
    | some r =>
      obtain ⟨cs1, s2, d2⟩ := r
      rw [hr] at h
      simp only [Option.some.injEq, Prod.mk.injEq] at h
      have hsw := Action.swapAll_of_swapChanges a.changes s s2 d d2 cs1 hr
      rw [← h.1, ← h.2.1]
      exact ⟨hcm, hsw, rfl⟩
  · rw [if_neg hcm] at h
    exact absurd h (by simp)

theorem Action.commit_of_swapAll (a : Action) (s s1 : LiveState) (d : DirtyList)
    (cs1 : List Change) (h : Action.swapAll a.changes s = some (cs1, s1)) :
    ∃ d1, a.commit s d = some ({ a with changes := cs1, commited := true }, s1, d1)
      ∧ ∀ p, p ∈ d1.positions ↔ p ∈ d.positions ∨ p ∈ Action.touchedAll a.changes s := by
  obtain ⟨d1, hd, hp⟩ := Action.swapChanges_of_swapAll a.changes s s1 d cs1 h
  refine ⟨d1, ?_, hp⟩
  unfold Action.commit
  rw [hd]

theorem Action.undo_of_swapAll (a : Action) (s s1 : LiveState) (d : DirtyList)
    (cs1 : List Change) (hcm : a.commited = true)
    (h : Action.swapAll a.changes s = some (cs1, s1)) :
    ∃ d1, a.undo s d = some ({ a with changes := cs1, commited := false }, s1, d1)
      ∧ ∀ p, p ∈ d1.positions ↔ p ∈ d.positions ∨ p ∈ Action.touchedAll a.changes s := by
  obtain ⟨d1, hd, hp⟩ := Action.swapChanges_of_swapAll a.changes s s1 d cs1 h
  refine ⟨d1, ?_, hp⟩
  unfold Action.undo
  rw [if_pos hcm, hd]

/-- On an action whose changes address distinct locations, `undo` right after `commit`
gives back the live state and the changes, and both calls record the same positions
(those of `touched`). -/
theorem Action.commit_undo (a a1 : Action) (s s1 : LiveState) (d d1 : DirtyList)
    (hi : a.Independent) (h : a.commit s d = some (a1, s1, d1)) :
    ∃ T : List Position, (∀ p, p ∈ d1.positions ↔ p ∈ d.positions ∨ p ∈ T)
      ∧ ∀ e : DirtyList, ∃ e1 : DirtyList,
          a1.undo s1 e = some ({ a with commited := false }, s, e1)
            ∧ ∀ p, p ∈ e1.positions ↔ p ∈ e.positions ∨ p ∈ T := by
  obtain ⟨hsw, ha1⟩ := Action.action_commit_inv a a1 s s1 d d1 h
  obtain ⟨d2, hd2, hp2⟩ := Action.commit_of_swapAll a s s1 d a1.changes hsw
  rw [h] at hd2
  simp only [Option.some.injEq, Prod.mk.injEq] at hd2
  refine ⟨Action.touchedAll a.changes s, ?_, ?_⟩
  · rw [hd2.2.2]; exact hp2
  · intro e
    have hback := Action.swapAll_swapAll a.changes s s1 a1.changes hi hsw
    have hc1 : a1.commited = true := by rw [ha1]
    obtain ⟨e1, he1, hpe⟩ := Action.undo_of_swapAll a1 s1 s e a.changes hc1 hback
    refine ⟨e1, ?_, ?_⟩
    · rw [he1, ha1]
    · intro p
      rw [hpe p, Action.touchedAll_swapAll a.changes s s1 a1.changes hi hsw p]

/-- On an action whose changes address distinct locations, `commit` right after `undo`
gives back the action and the live state. -/
theorem Action.undo_commit (a a1 : Action) (s s1 : LiveState) (d d1 : DirtyList)
    (hi : a.Independent) (h : a.undo s d = some (a1, s1, d1)) :
    ∀ e : DirtyList, ∃ e1 : DirtyList, a1.commit s1 e = some (a, s, e1) := by
  intro e
  obtain ⟨hcm, hsw, ha1⟩ := Action.action_undo_inv a a1 s s1 d d1 h
  have hback := Action.swapAll_swapAll a.changes s s1 a1.changes hi hsw
  obtain ⟨e1, he1, _⟩ := Action.commit_of_swapAll a1 s1 s e a.changes hback
  refine ⟨e1, ?_⟩
  rw [he1, ha1]
  simp only [Option.some.injEq, Prod.mk.injEq, and_true]
  cases a with
  | mk cm ch ty =>
    simp only at hcm
    rw [hcm]

theorem Action.commit_isSome (a : Action) (s : LiveState) (d : DirtyList)
    (h : a.Addressable s) : ∃ r, a.commit s d = some r := by
  have hs := (Action.swapAll_isSome a.changes s).mpr h
  cases hr : Action.swapAll a.changes s with
  | none => rw [hr] at hs; exact absurd hs (by simp)
  | some r =>
    obtain ⟨cs1, s1⟩ := r
    obtain ⟨d1, hd1, _⟩ := Action.commit_of_swapAll a s s1 d cs1 hr
    exact ⟨_, hd1⟩

/-! ## Commit and undo of a batch -/

theorem Action.commit_hasLocation (a a1 : Action) (s s1 : LiveState) (d d1 : DirtyList)
    (h : a.commit s d = some (a1, s1, d1)) (x : Address) :
    s1.hasLocation x = s.hasLocation x :=
  Action.swapAll_hasLocation a.changes s s1 a1.changes (Action.action_commit_inv a a1 s s1 d d1 h).1 x

theorem Action.undo_hasLocation (a a1 : Action) (s s1 : LiveState) (d d1 : DirtyList)
    (h : a.undo s d = some (a1, s1, d1)) (x : Address) :
    s1.hasLocation x = s.hasLocation x :=
  Action.swapAll_hasLocation a.changes s s1 a1.changes (Action.action_undo_inv a a1 s s1 d d1 h).2.1 x

theorem Action.addressable_congr (a : Action) (s s1 : LiveState)
    (h : ∀ x : Address, s1.hasLocation x = s.hasLocation x) :
    a.Addressable s1 ↔ a.Addressable s := by
  unfold Action.Addressable
  simp only [h]

theorem BatchAction.commitActions_cons (a : Action) (r l : List Action) (s s2 : LiveState)
    (d d2 : DirtyList) :
    BatchAction.commitActions (a :: r) s d = some (l, s2, d2) ↔
      ∃ (a1 : Action) (s1 : LiveState) (d1 : DirtyList) (r1 : List Action),
        a.commit s d = some (a1, s1, d1)
          ∧ BatchAction.commitActions r s1 d1 = some (r1, s2, d2) ∧ l = a1 :: r1 := by
  constructor
  · intro h
    unfold BatchAction.commitActions at h
    cases ha : a.commit s d with
    | none => rw [ha] at h; exact absurd h (by simp)
    | some x =>
      obtain ⟨a1, s1, d1⟩ := x
      rw [ha] at h
      dsimp only at h
      cases hr : BatchAction.commitActions r s1 d1 with
      | none => rw [hr] at h; exact absurd h (by simp)
      | some y =>
        obtain ⟨r1, s3, d3⟩ := y
        rw [hr] at h
        simp only [Option.some.injEq, Prod.mk.injEq] at h
        exact ⟨a1, s1, d1, r1, rfl, by rw [← h.2.1, ← h.2.2]; exact hr, h.1.symm⟩
  · rintro ⟨a1, s1, d1, r1, ha, hr, hl⟩
    unfold BatchAction.commitActions
    rw [ha]
    dsimp only
    rw [hr, hl]

theorem BatchAction.undoActions_cons (a : Action) (r l : List Action) (s s2 : LiveState)
    (d d2 : DirtyList) :
    BatchAction.undoActions (a :: r) s d = some (l, s2, d2) ↔
      ∃ (a1 : Action) (s1 : LiveState) (d1 : DirtyList) (r1 : List Action),
        BatchAction.undoActions r s d = some (r1, s1, d1)
          ∧ a.undo s1 d1 = some (a1, s2, d2) ∧ l = a1 :: r1 := by
  constructor
  · intro h
    unfold BatchAction.undoActions at h
    cases hr : BatchAction.undoActions r s d with
    | none => rw [hr] at h; exact absurd h (by simp)
    | some y =>
      obtain ⟨r1, s1, d1⟩ := y
      rw [hr] at h
      dsimp only at h
      cases ha : a.undo s1 d1 with
      | none => rw [ha] at h; exact absurd h (by simp)
      | some x =>
        obtain ⟨a1, s3, d3⟩ := x
        rw [ha] at h
        simp only [Option.some.injEq, Prod.mk.injEq] at h
        exact ⟨a1, s1, d1, r1, rfl, by rw [← h.2.1, ← h.2.2]; exact ha, h.1.symm⟩
  · rintro ⟨a1, s1, d1, r1, hr, ha, hl⟩
    unfold BatchAction.undoActions
    rw [hr]
    dsimp only
    rw [ha, hl]

theorem BatchAction.commitActions_undoActions (l : List Action) :
    ∀ (l1 : List Action) (s s1 : LiveState) (d d1 : DirtyList),
      (∀ a ∈ l, a.Independent) → BatchAction.commitActions l s d = some (l1, s1, d1) →
      ∃ T : List Position, (∀ p, p ∈ d1.positions ↔ p ∈ d.positions ∨ p ∈ T)
        ∧ ∀ e : DirtyList, ∃ e1 : DirtyList,
            BatchAction.undoActions l1 s1 e
                = some (l.map (fun a => { a with commited := false }), s, e1)
              ∧ ∀ p, p ∈ e1.positions ↔ p ∈ e.positions ∨ p ∈ T := by
  induction l with
  | nil =>
    intro l1 s s1 d d1 _ h
    simp only [BatchAction.commitActions, Option.some.injEq, Prod.mk.injEq] at h
    rw [← h.1, ← h.2.1, ← h.2.2]
    exact ⟨[], by simp, fun e => ⟨e, rfl, by simp⟩⟩
  | cons a r ih =>
    intro l1 s s1 d d1 hi h
    obtain ⟨a1, sa, da, r1, ha, hr, hl⟩ := (BatchAction.commitActions_cons a r l1 s s1 d d1).mp h
    obtain ⟨Ta, hTa, hua⟩ := Action.commit_undo a a1 s sa d da
      (hi a (List.mem_cons_self _ _)) ha
    obtain ⟨Tr, hTr, hur⟩ := ih r1 sa s1 da d1 (fun x hx => hi x (List.mem_cons_of_mem _ hx)) hr
    refine ⟨Ta ++ Tr, ?_, ?_⟩
    · intro p
      rw [hTr p, hTa p, List.mem_append, or_assoc]
    · intro e
      obtain ⟨e1, he1, hp1⟩ := hur e
      obtain ⟨e2, he2, hp2⟩ := hua e1
      refine ⟨e2, ?_, ?_⟩
      · rw [hl, List.map_cons]
        exact (BatchAction.undoActions_cons a1 r1 _ s1 s e e2).mpr
          ⟨_, sa, e1, _, he1, he2, rfl⟩
      · intro p
        rw [hp2 p, hp1 p, List.mem_append]
        constructor
        · rintro ((h1 | h1) | h1)
          · exact Or.inl h1
          · exact Or.inr (Or.inr h1)
          · exact Or.inr (Or.inl h1)
        · rintro (h1 | h1 | h1)
          · exact Or.inl (Or.inl h1)
          · exact Or.inr h1
          · exact Or.inl (Or.inr h1)

theorem BatchAction.undoActions_commitActions (l : List Action) :
    ∀ (l1 : List Action) (s s1 : LiveState) (d d1 : DirtyList),
      (∀ a ∈ l, a.Independent) → BatchAction.undoActions l s d = some (l1, s1, d1) →
      ∀ e : DirtyList, ∃ e1 : DirtyList, BatchAction.commitActions l1 s1 e = some (l, s, e1) := by
  induction l with
  | nil =>
    intro l1 s s1 d d1 _ h e
    simp only [BatchAction.undoActions, Option.some.injEq, Prod.mk.injEq] at h
    rw [← h.1, ← h.2.1]
    exact ⟨e, rfl⟩
  | cons a r ih =>
    intro l1 s s1 d d1 hi h e
    obtain ⟨a1, sr, dr, r1, hr, ha, hl⟩ := (BatchAction.undoActions_cons a r l1 s s1 d d1).mp h
    obtain ⟨e1, he1⟩ := Action.undo_commit a a1 sr s1 dr d1 (hi a (List.mem_cons_self _ _)) ha e
    obtain ⟨e2, he2⟩ := ih r1 s sr d dr (fun x hx => hi x (List.mem_cons_of_mem _ hx)) hr e1
    exact ⟨e2, hl ▸ (BatchAction.commitActions_cons a1 r1 (a :: r) s1 s e e2).mpr
      ⟨a, sr, e1, r, he1, he2, rfl⟩⟩

theorem BatchAction.commitActions_isSome (l : List Action) :
    ∀ (s : LiveState) (d : DirtyList), (∀ a ∈ l, a.Addressable s) →
      ∃ x, BatchAction.commitActions l s d = some x := by
  induction l with
  | nil => intro s d _; exact ⟨_, rfl⟩
  | cons a r ih =>
    intro s d h
    obtain ⟨⟨a1, sa, da⟩, ha⟩ := Action.commit_isSome a s d (h a (List.mem_cons_self _ _))
    obtain ⟨⟨r1, s2, d2⟩, hr⟩ := ih sa da (fun x hx =>
      (Action.addressable_congr x s sa (Action.commit_hasLocation a a1 s sa d da ha)).mpr
        (h x (List.mem_cons_of_mem _ hx)))
    exact ⟨_, (BatchAction.commitActions_cons a r _ s s2 d d2).mpr ⟨a1, sa, da, r1, ha, hr, rfl⟩⟩

theorem BatchAction.commitActions_hasLocation (l : List Action) :
    ∀ (l1 : List Action) (s s1 : LiveState) (d d1 : DirtyList),
      BatchAction.commitActions l s d = some (l1, s1, d1) →
      ∀ x : Address, s1.hasLocation x = s.hasLocation x := by
  induction l with
  | nil =>
    intro l1 s s1 d d1 h x
    simp only [BatchAction.commitActions, Option.some.injEq, Prod.mk.injEq] at h
    rw [← h.2.1]
  | cons a r ih =>
    intro l1 s s1 d d1 h x
    obtain ⟨a1, sa, da, r1, ha, hr, _⟩ := (BatchAction.commitActions_cons a r l1 s s1 d d1).mp h
    rw [ih r1 sa s1 da d1 hr x, Action.commit_hasLocation a a1 s sa d da ha x]

theorem BatchAction.undoActions_hasLocation (l : List Action) :
    ∀ (l1 : List Action) (s s1 : LiveState) (d d1 : DirtyList),
      BatchAction.undoActions l s d = some (l1, s1, d1) →
      ∀ x : Address, s1.hasLocation x = s.hasLocation x := by
  induction l with
  | nil =>
    intro l1 s s1 d d1 h x
    simp only [BatchAction.undoActions, Option.some.injEq, Prod.mk.injEq] at h
    rw [← h.2.1]
  | cons a r ih =>
    intro l1 s s1 d d1 h x
    obtain ⟨a1, sr, dr, r1, hr, ha, _⟩ := (BatchAction.undoActions_cons a r l1 s s1 d d1).mp h
    rw [Action.undo_hasLocation a a1 sr s1 dr d1 ha x, ih r1 s sr d dr hr x]

/-- C2, as stated, fails: for an action that holds two tile changes on the same position,
all addressed locations being present, `undo` right after `commit` leaves the tile 101 at
that position where the tile 100 was before the commit (undo swaps in insertion order). -/
theorem commit_undo_counterexample :
    exampleActionTwice.Addressable exampleStore
      ∧ exampleStore.tiles (Position.mk 10 10 7) = some 100
      ∧ ((exampleActionTwice.commit exampleStore DirtyList.empty).bind
            (fun r => r.1.undo r.2.1 DirtyList.empty)).map
          (fun r => r.2.1.tiles (Position.mk 10 10 7)) = some (some 101) := by
  decide

/-- C2, amended: for every Action whose changes address pairwise distinct locations (and
every BatchAction made of such Actions) and every live state in which all addressed
locations exist, `commit` succeeds, `undo` called right after it succeeds and leaves the
live state equal to what it was before the commit, and the two calls, given the same
dirty list, record the same set of positions. -/
theorem commit_undo_restores (a : Action) (b : BatchAction) (s : LiveState) (d : DirtyList) :
    (a.Independent → a.Addressable s →
      ∃ (a1 a2 : Action) (s1 : LiveState) (d1 d2 : DirtyList),
        a.commit s d = some (a1, s1, d1) ∧ a1.undo s1 d = some (a2, s, d2)
          ∧ ∀ p, p ∈ d1.positions ↔ p ∈ d2.positions)
      ∧ (b.Independent → b.Addressable s →
          ∃ (b1 b2 : BatchAction) (s1 : LiveState) (d1 d2 : DirtyList),
            b.commit s = some (b1, s1, d1) ∧ b1.undo s1 = some (b2, s, d2)
              ∧ ∀ p, p ∈ d1.positions ↔ p ∈ d2.positions) := by
  constructor
  · intro hi ha
    obtain ⟨⟨a1, s1, d1⟩, hc⟩ := Action.commit_isSome a s d ha
    obtain ⟨T, hT, hu⟩ := Action.commit_undo a a1 s s1 d d1 hi hc
    obtain ⟨d2, hd2, hp2⟩ := hu d
    exact ⟨a1, _, s1, d1, d2, hc, hd2, fun p => by rw [hT p, hp2 p]⟩
  · intro hi ha
    obtain ⟨⟨l1, s1, d1⟩, hc⟩ := BatchAction.commitActions_isSome b.batch s DirtyList.empty ha
    obtain ⟨T, hT, hu⟩ := BatchAction.commitActions_undoActions b.batch l1 s s1
      DirtyList.empty d1 hi hc
    obtain ⟨d2, hd2, hp2⟩ := hu DirtyList.empty
    refine ⟨{ b with batch := l1 },
      { b with batch := b.batch.map (fun a => { a with commited := false }) },
      s1, d1, d2, ?_, ?_, fun p => by rw [hT p, hp2 p]⟩
    · unfold BatchAction.commit
      rw [hc]
    · unfold BatchAction.undo
      dsimp only
      rw [hd2]

/-- Witness for C2: an action with three changes on three different locations, and a
batch of two actions, on the example store. -/
theorem commit_undo_restores_witness :
    exampleActionThree.Independent ∧ exampleActionThree.Addressable exampleStore
      ∧ (∃ (a1 a2 : Action) (s1 : LiveState) (d1 d2 : DirtyList),
          exampleActionThree.commit exampleStore DirtyList.empty = some (a1, s1, d1)
            ∧ a1.undo s1 DirtyList.empty = some (a2, exampleStore, d2)
            ∧ ∀ p, p ∈ d1.positions ↔ p ∈ d2.positions)
      ∧ exampleBatchTwo.Independent ∧ exampleBatchTwo.Addressable exampleStore
      ∧ (∃ (b1 b2 : BatchAction) (s1 : LiveState) (d1 d2 : DirtyList),
          exampleBatchTwo.commit exampleStore = some (b1, s1, d1)
            ∧ b1.undo s1 = some (b2, exampleStore, d2)
            ∧ ∀ p, p ∈ d1.positions ↔ p ∈ d2.positions) :=
  ⟨by decide, by decide,
    (commit_undo_restores exampleActionThree exampleBatchTwo exampleStore DirtyList.empty).1
      (by decide) (by decide),
    by decide, by decide,
    (commit_undo_restores exampleActionThree exampleBatchTwo exampleStore DirtyList.empty).2
      (by decide) (by decide)⟩

/-! ## Undo and redo on the queue -/

theorem BatchAction.undoActions_isSome (l : List Action) :
    ∀ (s : LiveState) (d : DirtyList), (∀ a ∈ l, a.commited = true ∧ a.Addressable s) →
      ∃ x, BatchAction.undoActions l s d = some x := by
  induction l with
  | nil => intro s d _; exact ⟨_, rfl⟩
  | cons a r ih =>
    intro s d h
    obtain ⟨⟨r1, sr, dr⟩, hr⟩ := ih s d (fun x hx => h x (List.mem_cons_of_mem _ hx))
    obtain ⟨hcm, had⟩ := h a (List.mem_cons_self _ _)
    have had1 : a.Addressable sr :=
      (Action.addressable_congr a s sr
        (BatchAction.undoActions_hasLocation r r1 s sr d dr hr)).mpr had
    have hs := (Action.swapAll_isSome a.changes sr).mpr had1
    cases hsw : Action.swapAll a.changes sr with
    | none => rw [hsw] at hs; exact absurd hs (by simp)
    | some y =>
      obtain ⟨cs1, s2⟩ := y
      obtain ⟨d2, hd2, _⟩ := Action.undo_of_swapAll a sr s2 dr cs1 hcm hsw
      exact ⟨_, (BatchAction.undoActions_cons a r _ s s2 d d2).mpr ⟨_, sr, dr, r1, hr, hd2, rfl⟩⟩

/-- Undo of a committed batch succeeds, and redo right after it gives back the batch and
the live state. -/
theorem BatchAction.batch_undo_redo (b : BatchAction) (s : LiveState)
    (hc : b.Commited) (hi : b.Independent) (ha : b.Addressable s) :
    ∃ (b1 : BatchAction) (s1 : LiveState) (d1 d2 : DirtyList),
      b.undo s = some (b1, s1, d1) ∧ b1.redo s1 = some (b, s, d2)
        ∧ ∀ x : Address, s1.hasLocation x = s.hasLocation x := by
  obtain ⟨⟨l1, s1, d1⟩, hu⟩ := BatchAction.undoActions_isSome b.batch s DirtyList.empty
    (fun a hx => ⟨hc a hx, ha a hx⟩)
  obtain ⟨d2, hd2⟩ := BatchAction.undoActions_commitActions b.batch l1 s s1 DirtyList.empty d1
    hi hu DirtyList.empty
  refine ⟨{ b with batch := l1 }, s1, d1, d2, ?_, ?_,
    BatchAction.undoActions_hasLocation b.batch l1 s s1 DirtyList.empty d1 hu⟩
  · unfold BatchAction.undo
    rw [hu]
  · unfold BatchAction.redo BatchAction.commit
    dsimp only
    rw [hd2]

theorem List.set_getElem?_same {α : Type} (l : List α) (i : Nat) (b : α)
    (h : l[i]? = some b) : l.set i b = l := by
  apply List.ext_getElem?
  intro j
  by_cases hj : i = j
  · subst hj
    rw [List.getElem?_set_self', h]
    rfl
  · rw [List.getElem?_set_ne hj]

/-- One `undo` below the cursor succeeds and the `redo` that follows reverts it. -/
theorem ActionQueue.queue_undo_redo (q : ActionQueue) (s : LiveState)
    (h0 : 0 < q.current) (hl : q.current ≤ (q.actions.length : Int))
    (hok : q.DoneOk s) :
    ∃ (q1 : ActionQueue) (s1 : LiveState),
      q.undo s = some (q1, s1) ∧ q1.redo s1 = some (q, s)
        ∧ q1.current = q.current - 1 ∧ q1.actions.length = q.actions.length
        ∧ q1.DoneOk s1 := by
  have hi : (q.current - 1).toNat < q.actions.length := by omega
  have hget : q.actions[(q.current - 1).toNat]? = some (q.actions[(q.current - 1).toNat]) :=
    List.getElem?_eq_getElem hi
  obtain ⟨hcm, hin, had⟩ := hok (q.current - 1).toNat _ (by omega) hget
  obtain ⟨b1, s1, d1, d2, hu, hr, hloc⟩ := BatchAction.batch_undo_redo _ s hcm hin had
  refine ⟨{ q with current := q.current - 1,
                   actions := q.actions.set (q.current - 1).toNat b1 }, s1, ?_, ?_, rfl,
    by simp, ?_⟩
  · unfold ActionQueue.undo
    rw [if_neg (by omega), hget]
    dsimp only
    rw [hu]
  · unfold ActionQueue.redo
    dsimp only
    rw [if_neg (by simp only [List.length_set]; omega),
      List.getElem?_set_self (by omega)]
    dsimp only
    rw [hr]
    dsimp only
    rw [List.set_set, List.set_getElem?_same _ _ _ hget]
    simp
  · intro i b hlt hb
    dsimp only at hlt hb
    have hne : (q.current - 1).toNat ≠ i := by omega
    rw [List.getElem?_set_ne hne] at hb
    obtain ⟨h1, h2, h3⟩ := hok i b (by omega) hb
    refine ⟨h1, h2, ?_⟩
    intro a hx
    exact (Action.addressable_congr a s s1 hloc).mpr (h3 a hx)

theorem ActionQueue.redoTimes_succ (n : Nat) :
    ∀ (q0 q1 q : ActionQueue) (s0 s1 s : LiveState),
      q0.redoTimes n s0 = some (q1, s1) → q1.redo s1 = some (q, s) →
      q0.redoTimes (n + 1) s0 = some (q, s) := by
  induction n with
  | zero =>
    intro q0 q1 q s0 s1 s h hr
    simp only [ActionQueue.redoTimes, Option.some.injEq, Prod.mk.injEq] at h
    rw [← h.1, ← h.2] at hr
    simp only [ActionQueue.redoTimes, hr]
  | succ n ih =>
    intro q0 q1 q s0 s1 s h hr
    rw [ActionQueue.redoTimes] at h
    cases hq : q0.redo s0 with
    | none => rw [hq] at h; exact absurd h (by simp)
    | some x =>
      obtain ⟨qa, sa⟩ := x
      rw [hq] at h
      dsimp only at h
      have := ih qa q1 q sa s1 s h hr
      rw [ActionQueue.redoTimes, hq]
      exact this

/-- Below the cursor, `n` calls of `undo` succeed and `n` calls of `redo` revert them. -/
theorem ActionQueue.undoTimes_redoTimes (n : Nat) :
    ∀ (q : ActionQueue) (s : LiveState),
      (n : Int) ≤ q.current → q.current ≤ (q.actions.length : Int) → q.DoneOk s →
      ∃ (q0 : ActionQueue) (s0 : LiveState),
        q.undoTimes n s = some (q0, s0) ∧ q0.redoTimes n s0 = some (q, s) := by
  induction n with
  | zero => intro q s _ _ _; exact ⟨q, s, rfl, rfl⟩
  | succ n ih =>
    intro q s hn hl hok
    obtain ⟨q1, s1, hu, hr, hc1, hl1, hok1⟩ :=
      ActionQueue.queue_undo_redo q s (by omega) hl hok
    obtain ⟨q0, s0, hun, hrn⟩ := ih q1 s1 (by omega) (by omega) hok1
    refine ⟨q0, s0, ?_, ActionQueue.redoTimes_succ n q0 q1 q s0 s1 s hrn hr⟩
    rw [ActionQueue.undoTimes, hu]
    exact hun

/-! ## States reached by committing batches -/

theorem Action.commit_addressable (a a1 : Action) (s s1 : LiveState) (d d1 : DirtyList)
    (h : a.commit s d = some (a1, s1, d1)) :
    a1.commited = true ∧ a1.Addressable s1 := by
  obtain ⟨hsw, ha1⟩ := Action.action_commit_inv a a1 s s1 d d1 h
  refine ⟨by rw [ha1], ?_⟩
  intro c1 hc1
  have hall := (Action.swapAll_isSome a.changes s).mp (by rw [hsw]; rfl)
  have hmem : c1.addr ∈ a1.changes.map Change.addr := List.mem_map_of_mem _ hc1
  rw [Action.swapAll_addr a.changes s s1 a1.changes hsw] at hmem
  obtain ⟨c, hc, hca⟩ := List.mem_map.mp hmem
  rw [Action.swapAll_hasLocation a.changes s s1 a1.changes hsw, ← hca]
  exact hall c hc

theorem BatchAction.commitActions_addressable (l : List Action) :
    ∀ (l1 : List Action) (s s1 : LiveState) (d d1 : DirtyList),
      BatchAction.commitActions l s d = some (l1, s1, d1) →
      ∀ a1 ∈ l1, a1.commited = true ∧ a1.Addressable s1 := by
  induction l with
  | nil =>
    intro l1 s s1 d d1 h a1 ha1
    simp only [BatchAction.commitActions, Option.some.injEq, Prod.mk.injEq] at h
    rw [← h.1] at ha1
    exact absurd ha1 (List.not_mem_nil _)
  | cons a r ih =>
    intro l1 s s1 d d1 h x hx
    obtain ⟨a1, sa, da, r1, ha, hr, hl⟩ := (BatchAction.commitActions_cons a r l1 s s1 d d1).mp h
    rw [hl] at hx
    rcases List.mem_cons.mp hx with hx | hx
    · obtain ⟨hcm, had⟩ := Action.commit_addressable a a1 s sa d da ha
      rw [hx]
      exact ⟨hcm, (Action.addressable_congr a1 sa s1
        (BatchAction.commitActions_hasLocation r r1 sa s1 da d1 hr)).mpr had⟩
    · exact ih r1 sa s1 da d1 hr x hx

theorem BatchAction.batch_commit_inv (b b1 : BatchAction) (s s1 : LiveState) (d1 : DirtyList)
    (h : b.commit s = some (b1, s1, d1)) :
    BatchAction.commitActions b.batch s DirtyList.empty = some (b1.batch, s1, d1) := by
  unfold BatchAction.commit at h
  cases hr : BatchAction.commitActions b.batch s DirtyList.empty with
  | none => rw [hr] at h; exact absurd h (by simp)
  | some x =>
    obtain ⟨l1, s2, d2⟩ := x
    rw [hr] at h
    simp only [Option.some.injEq, Prod.mk.injEq] at h
    rw [← h.1, ← h.2.1, ← h.2.2]

/-- A call of `addBatch` that makes the history one entry longer, on a queue with nothing
pending redo, has committed the batch and appended it, with no eviction. -/
theorem ActionQueue.addBatch_grow (ctx : Context) (q q1 : ActionQueue) (s s1 : LiveState)
    (batch : BatchAction) (delay now : Int)
    (hcur : q.current = (q.actions.length : Int))
    (h : q.addBatch ctx s batch delay now = some (q1, s1))
    (hlen : q1.actions.length = q.actions.length + 1) :
    ∃ (b1 : BatchAction) (d : DirtyList), batch.commit s = some (b1, s1, d)
      ∧ q1.actions = q.actions ++ [b1] ∧ q1.current = (q.actions.length : Int) + 1 := by
  by_cases hst : q.stackable batch delay now = true
  · exfalso
    obtain ⟨_, hne⟩ := ActionQueue.stackable_current q batch delay now hst
    cases hl : q.actions.getLast? with
    | none => rw [List.getLast?_eq_none_iff] at hl; exact hne hl
    | some top =>
      cases hc : batch.commit s with
      | none =>
        unfold ActionQueue.addBatch at h
        rw [hst, hl, hc] at h
        exact absurd h (by simp)
      | some x =>
        obtain ⟨b1, s2, d⟩ := x
        rw [ActionQueue.addBatch_merge ctx q s s2 batch b1 top d delay now hst hl hc] at h
        simp only [Option.some.injEq, Prod.mk.injEq] at h
        obtain ⟨k, _, hk, _⟩ := ActionQueue.enforceBudget_drop ctx.memCap
          (q.actions.dropLast ++ [BatchAction.merge ctx top b1]) q.current
          (q.memory_size - (top.memory_size : Int)
            + ((BatchAction.merge ctx top b1).memory_size : Int))
        rw [h.1] at hk
        have hpos : 0 < q.actions.length := List.length_pos.mpr hne
        have hsame : (q.actions.dropLast ++ [BatchAction.merge ctx top b1]).length
            = q.actions.length := by
          rw [List.length_append, List.length_dropLast, List.length_singleton]
          omega
        rw [hk, List.length_drop, hsame] at hlen
        omega
  · have hsf : q.stackable batch delay now = false := by
      cases hv : q.stackable batch delay now with
      | false => rfl
      | true => exact absurd hv hst
    cases hc : batch.commit s with
    | none =>
      unfold ActionQueue.addBatch at h
      rw [hsf, hc] at h
      exact absurd h (by simp)
    | some x =>
      obtain ⟨b1, s2, d⟩ := x
      rw [ActionQueue.addBatch_push ctx q s s2 batch b1 d delay now hsf hc] at h
      simp only [Option.some.injEq, Prod.mk.injEq] at h
      have htn : q.current.toNat = q.actions.length := by omega
      rw [htn, List.take_length] at h
      obtain ⟨k, _, hk, hkc⟩ := ActionQueue.enforceBudget_drop ctx.memCap
        (q.actions ++ [b1]) ((q.actions.length : Int) + 1)
        (q.memory_size - ActionQueue.memsizeOf (q.actions.drop q.actions.length)
          + (b1.memory_size : Int))
      rw [h.1] at hk hkc
      have hk0 : k = 0 := by
        rw [hk] at hlen
        simp only [List.length_drop, List.length_append, List.length_singleton] at hlen
        omega
      rw [hk0] at hk hkc
      refine ⟨b1, d, by rw [h.2], by simpa using hk, by simpa using hkc⟩

theorem ActionQueue.committed_inv (ctx : Context) (n : Nat) (q : ActionQueue) (s : LiveState)
    (h : ActionQueue.Committed ctx n q s) :
    q.current = (n : Int) ∧ q.actions.length = n
      ∧ ∀ b ∈ q.actions, b.Commited ∧ b.Addressable s := by
  induction h with
  | init s => exact ⟨rfl, rfl, fun b hb => absurd hb (List.not_mem_nil _)⟩
  | @push n q q1 s s1 batch delay now _ hadd hlen ih =>
    obtain ⟨hc, hl, hall⟩ := ih
    obtain ⟨b1, d, hcommit, hact, hcur⟩ :=
      ActionQueue.addBatch_grow ctx q q1 s s1 batch delay now (by omega) hadd hlen
    have hca := BatchAction.batch_commit_inv batch b1 s s1 d hcommit
    have hloc := BatchAction.commitActions_hasLocation batch.batch b1.batch s s1
      DirtyList.empty d hca
    refine ⟨by rw [hcur, hl]; push_cast; ring, by rw [hlen, hl], ?_⟩
    intro b hb
    rw [hact] at hb
    rcases List.mem_append.mp hb with hb | hb
    · obtain ⟨h1, h2⟩ := hall b hb
      exact ⟨h1, fun a ha => (Action.addressable_congr a s s1 hloc).mpr (h2 a ha)⟩
    · rw [List.mem_singleton] at hb
      rw [hb]
      have := BatchAction.commitActions_addressable batch.batch b1.batch s s1
        DirtyList.empty d hca
      exact ⟨fun a ha => (this a ha).1, fun a ha => (this a ha).2⟩

/-- C1, as stated, fails: one batch is committed through `addBatch`; its action changes
the tile at (10,10,7) twice. Right after the commit the live tile is 102; after one
`undo` and one `redo` it is 100. -/
theorem undo_redo_counterexample :
    ActionQueue.Committed (exampleContext 10) 1
        { actions := [exampleBatchTwice1], current := 1, memory_size := 1 } exampleStoreTwice
      ∧ exampleStoreTwice.tiles (Position.mk 10 10 7) = some 102
      ∧ (((ActionQueue.mk [exampleBatchTwice1] 1 1).undoTimes 1 exampleStoreTwice).bind
            (fun r => r.1.redoTimes 1 r.2)).map (fun r => r.2.tiles (Position.mk 10 10 7))
          = some (some 100) :=
  ⟨ActionQueue.Committed.push exampleBatchTwice 0 0
      (ActionQueue.Committed.init exampleStore) rfl rfl,
    by decide, by decide⟩

/-- C1, amended: for every N and every ActionQueue state reached by committing N batches
through `addBatch` (no stacking merge, no eviction), when within each Action of the
history the changes address pairwise distinct locations, calling `undo()` N times and
then `redo()` N times succeeds and leaves the live map state and the queue equal to what
they were right after the N-th commit, with `current` equal to N. -/
theorem undo_redo_restores (ctx : Context) (n : Nat) (q : ActionQueue) (s : LiveState)
    (hc : ActionQueue.Committed ctx n q s) (hi : ∀ b ∈ q.actions, b.Independent) :
    (q.undoTimes n s).bind (fun r => r.1.redoTimes n r.2) = some (q, s)
      ∧ q.current = (n : Int) := by
  obtain ⟨hcur, hlen, hall⟩ := ActionQueue.committed_inv ctx n q s hc
  have hok : q.DoneOk s := by
    intro i b _ hb
    have hmem := List.getElem?_mem hb
    exact ⟨(hall b hmem).1, hi b hmem, (hall b hmem).2⟩
  obtain ⟨q0, s0, hu, hr⟩ :=
    ActionQueue.undoTimes_redoTimes n q s (by omega) (by omega) hok
  refine ⟨?_, hcur⟩
  rw [hu]
  exact hr

/-- Witness for C1: the scenario of the specification: batch A (a tile change at
(10,10,7)) and batch B (a tile change at (11,10,7)) pushed with `stacking_delay = 0`,
then two `undo` and two `redo`. -/
theorem undo_redo_restores_witness :
    ActionQueue.Committed (exampleContext 10) 2
        { actions := [exampleBatchA1, exampleBatchB1], current := 2, memory_size := 2 }
        exampleStoreAB
      ∧ (∀ b ∈ (ActionQueue.mk [exampleBatchA1, exampleBatchB1] 2 2).actions, b.Independent)
      ∧ ((ActionQueue.mk [exampleBatchA1, exampleBatchB1] 2 2).undoTimes 2 exampleStoreAB).bind
            (fun r => r.1.redoTimes 2 r.2)
          = some (ActionQueue.mk [exampleBatchA1, exampleBatchB1] 2 2, exampleStoreAB)
      ∧ (ActionQueue.mk [exampleBatchA1, exampleBatchB1] 2 2).current = ((2 : Nat) : Int) :=
  have hc : ActionQueue.Committed (exampleContext 10) 2
      { actions := [exampleBatchA1, exampleBatchB1], current := 2, memory_size := 2 }
      exampleStoreAB :=
    ActionQueue.Committed.push exampleBatchB 0 0
      (ActionQueue.Committed.push exampleBatchA 0 0
        (ActionQueue.Committed.init exampleStore)
        (show ActionQueue.empty.addBatch (exampleContext 10) exampleStore exampleBatchA 0 0
            = some ({ actions := [exampleBatchA1], current := 1, memory_size := 1 },
                exampleStoreA) from rfl)
        rfl)
      rfl rfl
  ⟨hc, by decide,
    undo_redo_restores (exampleContext 10) 2 _ exampleStoreAB hc (by decide)⟩

/-! ## Results on the position set of the dirty list -/

theorem SetType.mem_insert (s : SetType) (v x : ValueType) (h : x ∈ SetType.insert s v) :
    x = v ∨ x ∈ s := by
  induction s with
  | nil =>
    simp only [SetType.insert, List.mem_singleton] at h
    exact Or.inl h
  | cons y rest ih =>
    unfold SetType.insert at h
    split_ifs at h with h1 h2
    · rcases List.mem_cons.mp h with h | h
      · exact Or.inl h
      · exact Or.inr h
    · rcases List.mem_cons.mp h with h | h
      · exact Or.inr (h ▸ List.mem_cons_self _ _)
      · rcases ih h with h | h
        · exact Or.inl h
        · exact Or.inr (List.mem_cons_of_mem _ h)
    · exact Or.inr h

theorem SetType.insert_ascending (s : SetType) (v : ValueType)
    (h : s.Pairwise (fun a b => a.pos < b.pos)) :
    (SetType.insert s v).Pairwise (fun a b => a.pos < b.pos) := by
  induction s with
  | nil => simp [SetType.insert]
  | cons y rest ih =>
    rw [List.pairwise_cons] at h
    unfold SetType.insert
    split_ifs with h1 h2
    · simp only [DirtyList.Comparator, decide_eq_true_eq] at h1
      rw [List.pairwise_cons]
      refine ⟨?_, List.pairwise_cons.mpr h⟩
      intro x hx
      rcases List.mem_cons.mp hx with hx | hx
      · rw [hx]; exact h1
      · exact Nat.lt_trans h1 (h.1 x hx)
    · simp only [DirtyList.Comparator, decide_eq_true_eq] at h2
      rw [List.pairwise_cons]
      refine ⟨?_, ih h.2⟩
      intro x hx
      rcases SetType.mem_insert rest v x hx with hx | hx
      · rw [hx]; exact h2
      · exact h.1 x hx
    · exact List.pairwise_cons.mpr h

theorem SetType.foldl_insert_ascending (l : List ValueType) :
    ∀ s : SetType, s.Pairwise (fun a b => a.pos < b.pos) →
      (l.foldl SetType.insert s).Pairwise (fun a b => a.pos < b.pos) := by
  induction l with
  | nil => intro s h; exact h
  | cons v l ih => intro s h; exact ih _ (SetType.insert_ascending s v h)

/-- C11: the ordering that `DirtyList` uses for its position set compares the packed
position only and is a strict weak ordering: it is irreflexive and transitive, the
equivalence it induces is transitive, and two entries are equivalent exactly when their
`pos` fields are equal, whatever their `floors`. Hence a set built by insertions
enumerates its entries in strictly ascending `pos` order and holds at most one entry per
packed position. -/
theorem comparator_strict_weak_order :
    (∀ a : ValueType, DirtyList.Comparator a a = false)
      ∧ (∀ a b c : ValueType, DirtyList.Comparator a b = true →
          DirtyList.Comparator b c = true → DirtyList.Comparator a c = true)
      ∧ (∀ a b c : ValueType, DirtyList.Equivalent a b → DirtyList.Equivalent b c →
          DirtyList.Equivalent a c)
      ∧ (∀ a b : ValueType, DirtyList.Equivalent a b ↔ a.pos = b.pos)
      ∧ (∀ a b : ValueType, DirtyList.Comparator a b = decide (a.pos < b.pos))
      ∧ (∀ l : List ValueType,
          (SetType.ofInserts l).Pairwise (fun a b => a.pos < b.pos)
            ∧ ((SetType.ofInserts l).map ValueType.pos).Nodup) := by
  have heq : ∀ a b : ValueType, DirtyList.Equivalent a b ↔ a.pos = b.pos := by
    intro a b
    simp only [DirtyList.Equivalent, DirtyList.Comparator, decide_eq_false_iff_not]
    omega
  refine ⟨?_, ?_, ?_, heq, fun _ _ => rfl, ?_⟩
  · intro a
    simp [DirtyList.Comparator]
  · intro a b c h1 h2
    simp only [DirtyList.Comparator, decide_eq_true_eq] at h1 h2 ⊢
    omega
  · intro a b c h1 h2
    rw [heq] at h1 h2 ⊢
    omega
  · intro l
    have hasc := SetType.foldl_insert_ascending l [] List.Pairwise.nil
    refine ⟨hasc, ?_⟩
    unfold SetType.ofInserts
    rw [List.Nodup, List.pairwise_map]
    exact hasc.imp (fun h => Nat.ne_of_lt h)

/-- Witness for C11: entries with the packed positions 7, 3, 7 and 5 and different floor
masks; the two entries at position 7 are equivalent, and only the first one is held. -/
theorem comparator_strict_weak_order_witness :
    DirtyList.Comparator (ValueType.mk 3 1) (ValueType.mk 5 2) = true
      ∧ DirtyList.Comparator (ValueType.mk 5 2) (ValueType.mk 7 4) = true
      ∧ DirtyList.Comparator (ValueType.mk 3 1) (ValueType.mk 7 4) = true
      ∧ DirtyList.Equivalent (ValueType.mk 7 4) (ValueType.mk 7 8)
      ∧ SetType.ofInserts [ValueType.mk 7 4, ValueType.mk 3 1, ValueType.mk 7 8,
            ValueType.mk 5 2]
          = [ValueType.mk 3 1, ValueType.mk 5 2, ValueType.mk 7 4]
      ∧ (SetType.ofInserts [ValueType.mk 7 4, ValueType.mk 3 1, ValueType.mk 7 8,
            ValueType.mk 5 2]).Pairwise (fun a b => a.pos < b.pos) :=
  ⟨by decide, by decide,
    comparator_strict_weak_order.2.1 (ValueType.mk 3 1) (ValueType.mk 5 2) (ValueType.mk 7 4)
      (by decide) (by decide),
    (comparator_strict_weak_order.2.2.2.1 (ValueType.mk 7 4) (ValueType.mk 7 8)).mpr rfl,
    by decide,
    (comparator_strict_weak_order.2.2.2.2.2 _).1⟩

/-! ## Results on `ItemAttribute` -/

/-- C12, what the code does: whatever the attribute held before, after `set(v)` with an
integer, a float, a boolean, or a string that is no part of the attribute itself, the
getter of the kind of `v` returns `v` and the getters of the three other kinds return
null. When the argument of `set(const std::string&)` is the string that the attribute
itself holds, as in `a.set(*a.getString())`, `clear()` destroys that string before it is
copied: the getter then returns the bytes `junk` that the copy obtains from the destroyed
object, whatever the string was. With the example tags, an attribute that holds "ab" no
longer returns "ab" after such a call when the copy obtains no bytes. -/
theorem set_then_get (tc : TypeCodes) (hd : tc.Distinct) (a : ItemAttribute)
    (str junk : ByteString) (i : Int) (y : Nat) (b : Bool) :
    ((a.setString tc (.apart str)).getString tc = some str
        ∧ (a.setString tc (.apart str)).getInteger tc = none
        ∧ (a.setString tc (.apart str)).getFloat tc = none
        ∧ (a.setString tc (.apart str)).getBoolean tc = none)
      ∧ ((a.setInteger tc i).getInteger tc = some i
        ∧ (a.setInteger tc i).getString tc = none
        ∧ (a.setInteger tc i).getFloat tc = none
        ∧ (a.setInteger tc i).getBoolean tc = none)
      ∧ ((a.setFloat tc y).getFloat tc = some y
        ∧ (a.setFloat tc y).getString tc = none
        ∧ (a.setFloat tc y).getInteger tc = none
        ∧ (a.setFloat tc y).getBoolean tc = none)
      ∧ ((a.setBoolean tc b).getBoolean tc = some b
        ∧ (a.setBoolean tc b).getString tc = none
        ∧ (a.setBoolean tc b).getInteger tc = none
        ∧ (a.setBoolean tc b).getFloat tc = none)
      ∧ (a.setString tc (.held junk)).getString tc = some junk
      ∧ (ItemAttribute.ofString exampleCodes [97, 98]).getString exampleCodes = some [97, 98]
      ∧ ((ItemAttribute.ofString exampleCodes [97, 98]).setString exampleCodes
            (.held [])).getString exampleCodes = some []
      ∧ ((ItemAttribute.ofString exampleCodes [97, 98]).setString exampleCodes
            (.held [])).getString exampleCodes
          ≠ (ItemAttribute.ofString exampleCodes [97, 98]).getString exampleCodes := by
  obtain ⟨h1, h2, h3, h4, h5, h6⟩ := hd
  refine ⟨?_, ?_, ?_, ?_, ?_, by decide, by decide, by decide⟩
  all_goals
    simp only [ItemAttribute.setString, ItemAttribute.setInteger, ItemAttribute.setFloat,
      ItemAttribute.setBoolean, ItemAttribute.getString, ItemAttribute.getInteger,
      ItemAttribute.getFloat, ItemAttribute.getBoolean, AttrData.asString, AttrData.asInteger,
      AttrData.asFloat, AttrData.asBoolean, if_true, if_neg h1, if_neg h2, if_neg h3,
      if_neg h4, if_neg h5, if_neg h6, if_neg (Ne.symm h1), if_neg (Ne.symm h2),
      if_neg (Ne.symm h3), if_neg (Ne.symm h4), if_neg (Ne.symm h5), if_neg (Ne.symm h6),
      and_self]

/-- Witness for C12: an attribute that holds the string "a" is set to each kind in turn,
with the example tags, and at last to its own string. -/
theorem set_then_get_witness :
    exampleCodes.Distinct
      ∧ ((ItemAttribute.mk 1 (AttrData.str [97])).setInteger exampleCodes (-5)).getInteger
          exampleCodes = some (-5)
      ∧ ((ItemAttribute.mk 1 (AttrData.str [97])).setInteger exampleCodes (-5)).getString
          exampleCodes = none
      ∧ ((ItemAttribute.mk 1 (AttrData.str [97])).setBoolean exampleCodes true).getBoolean
          exampleCodes = some true
      ∧ ((ItemAttribute.mk 1 (AttrData.str [97])).setString exampleCodes
            (StringRef.apart [98, 99])).getString exampleCodes = some [98, 99]
      ∧ ((ItemAttribute.mk 1 (AttrData.str [97])).setString exampleCodes
            (StringRef.held [0, 255])).getString exampleCodes = some [0, 255] :=
  have h := set_then_get exampleCodes (by decide) (ItemAttribute.mk 1 (AttrData.str [97]))
    [98, 99] [0, 255] (-5) 0 true
  ⟨by decide, h.2.1.1, h.2.1.2.1, h.2.2.2.1.1, h.1.1, h.2.2.2.2.1⟩

/-- C13, what the code does: the constructors from a string, an integer and a float give
the attribute that `set` gives on a default-constructed one. The constructor from a
`bool` stores the value and leaves the tag uninitialised: `getBoolean()` returns the
value only if the indeterminate tag happens to be `BOOLEAN`, and null otherwise; with a
tag of 0 and the example tags, `ItemAttribute(true).getBoolean()` is null and the
attribute differs from a default-constructed one after `set(true)`. -/
theorem constructors_spec :
    (∀ (tc : TypeCodes) (str : ByteString),
        ItemAttribute.ofString tc str = (ItemAttribute.new tc).setString tc (.apart str))
      ∧ (∀ (tc : TypeCodes) (i : Int),
          ItemAttribute.ofInteger tc i = (ItemAttribute.new tc).setInteger tc i)
      ∧ (∀ (tc : TypeCodes) (f : Nat),
          ItemAttribute.ofFloat tc f = (ItemAttribute.new tc).setFloat tc f)
      ∧ (∀ (tc : TypeCodes) (type0 : Nat) (b : Bool),
          (ItemAttribute.ofBoolean type0 b).getBoolean tc
            = if type0 = tc.BOOLEAN then some b else none)
      ∧ (ItemAttribute.ofBoolean 0 true).getBoolean exampleCodes = none
      ∧ ItemAttribute.ofBoolean 0 true
          ≠ (ItemAttribute.new exampleCodes).setBoolean exampleCodes true := by
  refine ⟨fun _ _ => rfl, fun _ _ => rfl, fun _ _ => rfl, fun _ _ _ => rfl, ?_, ?_⟩
  · decide
  · decide

theorem ItemAttribute.assign_getters (tc : TypeCodes) (hd : tc.AllDistinct)
    (a o : ItemAttribute) (ho : o.HasKnownType tc) :
    (a.assign tc o).type = o.type
      ∧ (a.assign tc o).getString tc = o.getString tc
      ∧ (a.assign tc o).getInteger tc = o.getInteger tc
      ∧ (a.assign tc o).getFloat tc = o.getFloat tc
      ∧ (a.assign tc o).getBoolean tc = o.getBoolean tc := by
  obtain ⟨⟨h1, h2, h3, h4, h5, h6⟩, n1, n2, n3, n4⟩ := hd
  rcases ho with h | h | h | h | h
  all_goals
    simp only [ItemAttribute.assign, ItemAttribute.getString, ItemAttribute.getInteger,
      ItemAttribute.getFloat, ItemAttribute.getBoolean, h, if_true, if_neg h1, if_neg h2,
      if_neg h3, if_neg h4, if_neg h5, if_neg h6, if_neg (Ne.symm h1), if_neg (Ne.symm h2),
      if_neg (Ne.symm h3), if_neg (Ne.symm h4), if_neg (Ne.symm h5), if_neg (Ne.symm h6),
      if_neg n1, if_neg n2, if_neg n3, if_neg n4, if_neg (Ne.symm n1), if_neg (Ne.symm n2),
      if_neg (Ne.symm n3), if_neg (Ne.symm n4), AttrData.asString, AttrData.asInteger,
      AttrData.asFloat, AttrData.asBoolean, and_self]

/-- C14: assignment of `ItemAttribute` has value semantics: for attributes `a` and `o`
of any of the five types, after `a = o` the attribute `a` has the type tag of `o` and
every getter returns on `a` what it returns on `o` (`o` is a `const` argument, and a
value here, so it is unchanged); assigning an attribute to itself leaves it unchanged. -/
theorem assign_value_semantics (tc : TypeCodes) (hd : tc.AllDistinct)
    (a o : ItemAttribute) (ho : o.HasKnownType tc) :
    (a.assign tc o).type = o.type
      ∧ (a.assign tc o).getString tc = o.getString tc
      ∧ (a.assign tc o).getInteger tc = o.getInteger tc
      ∧ (a.assign tc o).getFloat tc = o.getFloat tc
      ∧ (a.assign tc o).getBoolean tc = o.getBoolean tc
      ∧ a.assignSelf = a :=
  have h := ItemAttribute.assign_getters tc hd a o ho
  ⟨h.1, h.2.1, h.2.2.1, h.2.2.2.1, h.2.2.2.2, rfl⟩

/-- Witness for C14: an attribute that holds the string "a" is assigned the integer 7,
with the example tags. -/
theorem assign_value_semantics_witness :
    exampleCodes.AllDistinct
      ∧ (ItemAttribute.mk 2 (AttrData.int 7)).HasKnownType exampleCodes
      ∧ ((ItemAttribute.mk 1 (AttrData.str [97])).assign exampleCodes
            (ItemAttribute.mk 2 (AttrData.int 7))).type = 2
      ∧ ((ItemAttribute.mk 1 (AttrData.str [97])).assign exampleCodes
            (ItemAttribute.mk 2 (AttrData.int 7))).getInteger exampleCodes = some 7
      ∧ ((ItemAttribute.mk 1 (AttrData.str [97])).assign exampleCodes
            (ItemAttribute.mk 2 (AttrData.int 7))).getString exampleCodes = none :=
  have h := assign_value_semantics exampleCodes (by decide)
    (ItemAttribute.mk 1 (AttrData.str [97])) (ItemAttribute.mk 2 (AttrData.int 7)) (by decide)
  ⟨by decide, by decide, h.1, h.2.2.1, h.2.1⟩

/-! ## The attribute map -/

theorem keyLess_irrefl (a : ByteString) : keyLess a a = false := by
  induction a with
  | nil => rfl
  | cons x xs ih => simp [keyLess, ih]

theorem keyLess_trans : ∀ (a b c : ByteString),
    keyLess a b = true → keyLess b c = true → keyLess a c = true := by
  intro a
  induction a with
  | nil =>
    intro b c h1 h2
    cases b with
    | nil => simp [keyLess] at h1
    | cons y ys =>
      cases c with
      | nil => simp [keyLess] at h2
      | cons z zs => rfl
  | cons x xs ih =>
    intro b c h1 h2
    cases b with
    | nil => simp [keyLess] at h1
    | cons y ys =>
      cases c with
      | nil => simp [keyLess] at h2
      | cons z zs =>
        simp only [keyLess] at h1 h2 ⊢
        by_cases hxy : x < y
        · by_cases hyz : y < z
          · rw [if_pos (by omega)]
          · rw [if_neg hyz] at h2
            by_cases hzy : z < y
            · rw [if_pos hzy] at h2; exact absurd h2 (by simp)
            · rw [if_pos (by omega)]
        · rw [if_neg hxy] at h1
          by_cases hyx : y < x
          · rw [if_pos hyx] at h1; exact absurd h1 (by simp)
          · rw [if_neg hyx] at h1
            have hxe : x = y := by omega
            subst hxe
            by_cases hyz : x < z
            · rw [if_pos hyz]
            · rw [if_neg hyz] at h2 ⊢
              by_cases hzy : z < x
              · rw [if_pos hzy] at h2; exact absurd h2 (by simp)
              · rw [if_neg hzy] at h2 ⊢
                exact ih ys zs h1 h2

theorem keyLess_total : ∀ (a b : ByteString),
    a = b ∨ keyLess a b = true ∨ keyLess b a = true := by
  intro a
  induction a with
  | nil =>
    intro b
    cases b with
    | nil => exact Or.inl rfl
    | cons y ys => exact Or.inr (Or.inl rfl)
  | cons x xs ih =>
    intro b
    cases b with
    | nil => exact Or.inr (Or.inr rfl)
    | cons y ys =>
      simp only [keyLess]
      by_cases hxy : x < y
      · exact Or.inr (Or.inl (by rw [if_pos hxy]))
      · by_cases hyx : y < x
        · exact Or.inr (Or.inr (by rw [if_pos hyx]))
        · have hxe : x = y := by omega
          subst hxe
          simp only [if_neg hxy]
          rcases ih ys with h | h | h
          · exact Or.inl (by rw [h])
          · exact Or.inr (Or.inl h)
          · exact Or.inr (Or.inr h)

theorem keyLess_ne (a b : ByteString) (h : keyLess a b = true) : a ≠ b := by
  intro hab
  rw [hab, keyLess_irrefl] at h
  exact absurd h (by simp)

theorem keyLess_asymm (a b : ByteString) (h : keyLess a b = true) : keyLess b a = false := by
  cases hba : keyLess b a with
  | false => rfl
  | true =>
    have := keyLess_trans a b a h hba
    rw [keyLess_irrefl] at this
    exact absurd this (by simp)

theorem ItemAttributeMap.find_applyAt_same (tc : TypeCodes) (m : ItemAttributeMap)
    (k : ByteString) (f : ItemAttribute → ItemAttribute) :
    ∃ a0 : ItemAttribute,
      ItemAttributeMap.find (ItemAttributeMap.applyAt tc m k f) k = some (f a0) := by
  induction m with
  | nil => exact ⟨ItemAttribute.new tc, by simp [ItemAttributeMap.applyAt, ItemAttributeMap.find]⟩
  | cons e rest ih =>
    obtain ⟨k0, v⟩ := e
    unfold ItemAttributeMap.applyAt
    by_cases h1 : k = k0
    · subst h1
      exact ⟨v, by simp [ItemAttributeMap.find]⟩
    · rw [if_neg h1]
      by_cases h2 : keyLess k k0 = true
      · rw [if_pos h2]
        exact ⟨ItemAttribute.new tc, by simp [ItemAttributeMap.find]⟩
      · rw [if_neg h2]
        simp only [ItemAttributeMap.find, if_neg h1]
        exact ih

theorem ItemAttributeMap.find_applyAt_other (tc : TypeCodes) (m : ItemAttributeMap)
    (k k1 : ByteString) (f : ItemAttribute → ItemAttribute) (hk : k1 ≠ k) :
    ItemAttributeMap.find (ItemAttributeMap.applyAt tc m k f) k1
      = ItemAttributeMap.find m k1 := by
  induction m with
  | nil => simp [ItemAttributeMap.applyAt, ItemAttributeMap.find, hk]
  | cons e rest ih =>
    obtain ⟨k0, v⟩ := e
    unfold ItemAttributeMap.applyAt
    by_cases h1 : k = k0
    · subst h1
      simp [ItemAttributeMap.find, hk]
    · rw [if_neg h1]
      by_cases h2 : keyLess k k0 = true
      · rw [if_pos h2]
        simp [ItemAttributeMap.find, hk]
      · rw [if_neg h2]
        simp only [ItemAttributeMap.find]
        by_cases h3 : k1 = k0
        · rw [if_pos h3, if_pos h3]
        · rw [if_neg h3, if_neg h3]
          exact ih

theorem ItemAttributeMap.find_erase_other (m : ItemAttributeMap) (k k1 : ByteString)
    (hk : k1 ≠ k) :
    ItemAttributeMap.find (ItemAttributeMap.erase m k) k1 = ItemAttributeMap.find m k1 := by
  induction m with
  | nil => rfl
  | cons e rest ih =>
    obtain ⟨k0, v⟩ := e
    unfold ItemAttributeMap.erase
    by_cases h1 : k = k0
    · subst h1
      simp [ItemAttributeMap.find, hk]
    · rw [if_neg h1]
      simp only [ItemAttributeMap.find]
      by_cases h3 : k1 = k0
      · rw [if_pos h3, if_pos h3]
      · rw [if_neg h3, if_neg h3]
        exact ih

theorem ItemAttributeMap.find_none_of_not_mem (m : ItemAttributeMap) (k : ByteString)
    (h : k ∉ m.map Prod.fst) : ItemAttributeMap.find m k = none := by
  induction m with
  | nil => rfl
  | cons e rest ih =>
    obtain ⟨k0, v⟩ := e
    simp only [List.map_cons, List.mem_cons, not_or] at h
    simp only [ItemAttributeMap.find, if_neg h.1]
    exact ih h.2

theorem ItemAttributeMap.find_erase_same (m : ItemAttributeMap) (k : ByteString)
    (ho : m.Ordered) : ItemAttributeMap.find (ItemAttributeMap.erase m k) k = none := by
  induction m with
  | nil => rfl
  | cons e rest ih =>
    obtain ⟨k0, v⟩ := e
    unfold ItemAttributeMap.Ordered at ho
    rw [List.map_cons, List.pairwise_cons] at ho
    unfold ItemAttributeMap.erase
    by_cases h1 : k = k0
    · subst h1
      rw [if_pos rfl]
      apply ItemAttributeMap.find_none_of_not_mem
      intro hmem
      exact keyLess_ne k k (ho.1 k hmem) rfl
    · rw [if_neg h1]
      simp only [ItemAttributeMap.find, if_neg h1]
      exact ih ho.2

theorem ItemAttributeMap.erase_of_find_none (m : ItemAttributeMap) (k : ByteString)
    (h : ItemAttributeMap.find m k = none) : ItemAttributeMap.erase m k = m := by
  induction m with
  | nil => rfl
  | cons e rest ih =>
    obtain ⟨k0, v⟩ := e
    unfold ItemAttributeMap.find at h
    by_cases h1 : k = k0
    · rw [if_pos h1] at h
      exact absurd h (by simp)
    · rw [if_neg h1] at h
      unfold ItemAttributeMap.erase
      rw [if_neg h1, ih h]

/-! ## Results on `ItemAttributes` -/

theorem ItemAttribute.getters_setString (tc : TypeCodes) (hd : tc.Distinct)
    (a : ItemAttribute) (str : ByteString) :
    (a.setString tc (.apart str)).getString tc = some str
      ∧ (a.setString tc (.apart str)).getInteger tc = none
      ∧ (a.setString tc (.apart str)).getFloat tc = none
      ∧ (a.setString tc (.apart str)).getBoolean tc = none := by
  obtain ⟨h1, h2, h3, _, _, _⟩ := hd
  simp only [ItemAttribute.setString, ItemAttribute.getString, ItemAttribute.getInteger,
    ItemAttribute.getFloat, ItemAttribute.getBoolean, AttrData.asString, if_true,
    if_neg h1, if_neg h2, if_neg h3, and_self]

theorem ItemAttribute.getters_setHeld (tc : TypeCodes) (hd : tc.Distinct)
    (a : ItemAttribute) (junk : ByteString) :
    (a.setString tc (.held junk)).getString tc = some junk
      ∧ (a.setString tc (.held junk)).getInteger tc = none
      ∧ (a.setString tc (.held junk)).getFloat tc = none
      ∧ (a.setString tc (.held junk)).getBoolean tc = none := by
  obtain ⟨h1, h2, h3, _, _, _⟩ := hd
  simp only [ItemAttribute.setString, ItemAttribute.getString, ItemAttribute.getInteger,
    ItemAttribute.getFloat, ItemAttribute.getBoolean, AttrData.asString, if_true,
    if_neg h1, if_neg h2, if_neg h3, and_self]

theorem ItemAttribute.getters_setInteger (tc : TypeCodes) (hd : tc.Distinct)
    (a : ItemAttribute) (i : Int) :
    (a.setInteger tc i).getString tc = none ∧ (a.setInteger tc i).getInteger tc = some i
      ∧ (a.setInteger tc i).getFloat tc = none
      ∧ (a.setInteger tc i).getBoolean tc = none := by
  obtain ⟨h1, _, _, h4, h5, _⟩ := hd
  simp only [ItemAttribute.setInteger, ItemAttribute.getString, ItemAttribute.getInteger,
    ItemAttribute.getFloat, ItemAttribute.getBoolean, AttrData.asInteger, if_true,
    if_neg (Ne.symm h1), if_neg h4, if_neg h5, and_self]

theorem ItemAttribute.getters_setFloat (tc : TypeCodes) (hd : tc.Distinct)
    (a : ItemAttribute) (y : Nat) :
    (a.setFloat tc y).getString tc = none ∧ (a.setFloat tc y).getInteger tc = none
      ∧ (a.setFloat tc y).getFloat tc = some y
      ∧ (a.setFloat tc y).getBoolean tc = none := by
  obtain ⟨_, h2, _, h4, _, h6⟩ := hd
  simp only [ItemAttribute.setFloat, ItemAttribute.getString, ItemAttribute.getInteger,
    ItemAttribute.getFloat, ItemAttribute.getBoolean, AttrData.asFloat, if_true,
    if_neg (Ne.symm h2), if_neg (Ne.symm h4), if_neg h6, and_self]

theorem ItemAttribute.getters_setBoolean (tc : TypeCodes) (hd : tc.Distinct)
    (a : ItemAttribute) (b : Bool) :
    (a.setBoolean tc b).getString tc = none ∧ (a.setBoolean tc b).getInteger tc = none
      ∧ (a.setBoolean tc b).getFloat tc = none
      ∧ (a.setBoolean tc b).getBoolean tc = some b := by
  obtain ⟨_, _, h3, _, h5, h6⟩ := hd
  simp only [ItemAttribute.setBoolean, ItemAttribute.getString, ItemAttribute.getInteger,
    ItemAttribute.getFloat, ItemAttribute.getBoolean, AttrData.asBoolean, if_true,
    if_neg (Ne.symm h3), if_neg (Ne.symm h5), if_neg (Ne.symm h6), and_self]

/-- The four getters read the attribute that `find` returns. -/
theorem ItemAttributes.getters_eq (tc : TypeCodes) (s : ItemAttributes) (k : ByteString) :
    s.getters tc k
      = match s.find k with
        | some a => (a.getString tc, a.getInteger tc, a.getFloat tc, a.getBoolean tc)
        | none => (none, none, none, none) := by
  unfold ItemAttributes.getters ItemAttributes.getStringAttribute
    ItemAttributes.getIntegerAttribute ItemAttributes.getFloatAttribute
    ItemAttributes.getBooleanAttribute ItemAttributes.find
  cases s.attributes with
  | none => rfl
  | some m =>
    dsimp only
    cases ItemAttributeMap.find m k <;> rfl

theorem ItemAttributes.find_createAttributes (s : ItemAttributes) (k : ByteString) :
    ItemAttributeMap.find (s.createAttributes.attributes.getD []) k = s.find k := by
  cases s with
  | mk a => cases a <;> rfl

/-- After `m[key].f()` the attribute under `key` is a result of `f`, and the attribute
under any other key is the one that was there. -/
theorem ItemAttributes.find_applied (tc : TypeCodes) (s : ItemAttributes) (k k1 : ByteString)
    (f : ItemAttribute → ItemAttribute) :
    (∃ a0 : ItemAttribute,
      (ItemAttributes.mk (some (ItemAttributeMap.applyAt tc
        (s.createAttributes.attributes.getD []) k f))).find k = some (f a0))
      ∧ (k1 ≠ k →
        (ItemAttributes.mk (some (ItemAttributeMap.applyAt tc
          (s.createAttributes.attributes.getD []) k f))).find k1 = s.find k1) := by
  constructor
  · exact ItemAttributeMap.find_applyAt_same tc _ k f
  · intro hk
    show ItemAttributeMap.find _ k1 = s.find k1
    rw [ItemAttributeMap.find_applyAt_other tc _ k k1 f hk,
      ItemAttributes.find_createAttributes]

theorem ItemAttributes.getters_of_find_eq (tc : TypeCodes) (s t : ItemAttributes)
    (k : ByteString) (h : s.find k = t.find k) : s.getters tc k = t.getters tc k := by
  rw [ItemAttributes.getters_eq, ItemAttributes.getters_eq, h]

theorem ItemAttributes.has_eq (tc : TypeCodes) (s : ItemAttributes) (k : ByteString) :
    s.hasStringAttribute tc k = (s.getters tc k).1.isSome
      ∧ s.hasIntegerAttribute tc k = (s.getters tc k).2.1.isSome
      ∧ s.hasFloatAttribute tc k = (s.getters tc k).2.2.1.isSome
      ∧ s.hasBooleanAttribute tc k = (s.getters tc k).2.2.2.isSome :=
  ⟨rfl, rfl, rfl, rfl⟩

/-- C16, what the code does: for every `ItemAttributes` (with or without an allocated
map), key `k` and value that is an integer, a float, a boolean, or a string that is no
part of the attribute stored under `k`, after `setAttribute(k, v)` the getter of the kind
of `v` returns `v` for `k`, the matching `has...Attribute(k)` is true and the three other
getters return null for `k`; for every other key the attribute stored, and so the result
of each of the four getters, is what it was before the call. When the value is the string
that the attribute under `k` itself holds, as in
`s.setAttribute(k, *s.getStringAttribute(k))`, the reference is forwarded to `set`, which
destroys that string before it is copied: the string getter then returns for `k` the
bytes `junk` that the copy obtains from the destroyed object, whatever the string was.
With the example tags, an object that holds "hi" under "a" no longer returns "hi" for "a"
after such a call when the copy obtains no bytes. -/
theorem setAttribute_then_get (tc : TypeCodes) (hd : tc.Distinct) (s : ItemAttributes)
    (k k1 : ByteString) (str junk : ByteString) (i : Int) (y : Nat) (b : Bool) :
    ((s.setAttributeString tc k (.apart str)).getters tc k = (some str, none, none, none)
        ∧ (s.setAttributeString tc k (.apart str)).hasStringAttribute tc k = true
        ∧ (k1 ≠ k → (s.setAttributeString tc k (.apart str)).find k1 = s.find k1
            ∧ (s.setAttributeString tc k (.apart str)).getters tc k1 = s.getters tc k1))
      ∧ ((s.setAttributeInteger tc k i).getters tc k = (none, some i, none, none)
        ∧ (s.setAttributeInteger tc k i).hasIntegerAttribute tc k = true
        ∧ (k1 ≠ k → (s.setAttributeInteger tc k i).find k1 = s.find k1
            ∧ (s.setAttributeInteger tc k i).getters tc k1 = s.getters tc k1))
      ∧ ((s.setAttributeFloat tc k y).getters tc k = (none, none, some y, none)
        ∧ (s.setAttributeFloat tc k y).hasFloatAttribute tc k = true
        ∧ (k1 ≠ k → (s.setAttributeFloat tc k y).find k1 = s.find k1
            ∧ (s.setAttributeFloat tc k y).getters tc k1 = s.getters tc k1))
      ∧ ((s.setAttributeBoolean tc k b).getters tc k = (none, none, none, some b)
        ∧ (s.setAttributeBoolean tc k b).hasBooleanAttribute tc k = true
        ∧ (k1 ≠ k → (s.setAttributeBoolean tc k b).find k1 = s.find k1
            ∧ (s.setAttributeBoolean tc k b).getters tc k1 = s.getters tc k1))
      ∧ ((s.setAttributeString tc k (.held junk)).getters tc k = (some junk, none, none, none)
        ∧ (k1 ≠ k → (s.setAttributeString tc k (.held junk)).find k1 = s.find k1
            ∧ (s.setAttributeString tc k (.held junk)).getters tc k1 = s.getters tc k1))
      ∧ (exampleHi.getStringAttribute exampleCodes [97] = some [104, 105]
        ∧ (exampleHi.setAttributeString exampleCodes [97] (.held [])).getStringAttribute
            exampleCodes [97] = some []
        ∧ (exampleHi.setAttributeString exampleCodes [97] (.held [])).getStringAttribute
            exampleCodes [97] ≠ exampleHi.getStringAttribute exampleCodes [97]) := by
  refine ⟨?_, ?_, ?_, ?_, ?_, by decide⟩
  · obtain ⟨⟨a0, h0⟩, h1⟩ :=
      ItemAttributes.find_applied tc s k k1 (fun a => a.setString tc (.apart str))
    obtain ⟨g1, g2, g3, g4⟩ := ItemAttribute.getters_setString tc hd a0 str
    have hg : (s.setAttributeString tc k (.apart str)).getters tc k
        = (some str, none, none, none) := by
      rw [ItemAttributes.getters_eq]
      unfold ItemAttributes.setAttributeString
      rw [h0]
      dsimp only
      rw [g1, g2, g3, g4]
    refine ⟨hg, ?_, fun hk => ⟨h1 hk, ItemAttributes.getters_of_find_eq tc _ s k1 (h1 hk)⟩⟩
    rw [(ItemAttributes.has_eq tc _ k).1, hg]
    rfl
  · obtain ⟨⟨a0, h0⟩, h1⟩ := ItemAttributes.find_applied tc s k k1 (fun a => a.setInteger tc i)
    obtain ⟨g1, g2, g3, g4⟩ := ItemAttribute.getters_setInteger tc hd a0 i
    have hg : (s.setAttributeInteger tc k i).getters tc k = (none, some i, none, none) := by
      rw [ItemAttributes.getters_eq]
      unfold ItemAttributes.setAttributeInteger
      rw [h0]
      dsimp only
      rw [g1, g2, g3, g4]
    refine ⟨hg, ?_, fun hk => ⟨h1 hk, ItemAttributes.getters_of_find_eq tc _ s k1 (h1 hk)⟩⟩
    rw [(ItemAttributes.has_eq tc _ k).2.1, hg]
    rfl
  · obtain ⟨⟨a0, h0⟩, h1⟩ := ItemAttributes.find_applied tc s k k1 (fun a => a.setFloat tc y)
    obtain ⟨g1, g2, g3, g4⟩ := ItemAttribute.getters_setFloat tc hd a0 y
    have hg : (s.setAttributeFloat tc k y).getters tc k = (none, none, some y, none) := by
      rw [ItemAttributes.getters_eq]
      unfold ItemAttributes.setAttributeFloat
      rw [h0]
      dsimp only
      rw [g1, g2, g3, g4]
    refine ⟨hg, ?_, fun hk => ⟨h1 hk, ItemAttributes.getters_of_find_eq tc _ s k1 (h1 hk)⟩⟩
    rw [(ItemAttributes.has_eq tc _ k).2.2.1, hg]
    rfl
  · obtain ⟨⟨a0, h0⟩, h1⟩ := ItemAttributes.find_applied tc s k k1 (fun a => a.setBoolean tc b)
    obtain ⟨g1, g2, g3, g4⟩ := ItemAttribute.getters_setBoolean tc hd a0 b
    have hg : (s.setAttributeBoolean tc k b).getters tc k = (none, none, none, some b) := by
      rw [ItemAttributes.getters_eq]
      unfold ItemAttributes.setAttributeBoolean
      rw [h0]
      dsimp only
      rw [g1, g2, g3, g4]
    refine ⟨hg, ?_, fun hk => ⟨h1 hk, ItemAttributes.getters_of_find_eq tc _ s k1 (h1 hk)⟩⟩
    rw [(ItemAttributes.has_eq tc _ k).2.2.2, hg]
    rfl
  · obtain ⟨⟨a0, h0⟩, h1⟩ :=
      ItemAttributes.find_applied tc s k k1 (fun a => a.setString tc (.held junk))
    obtain ⟨g1, g2, g3, g4⟩ := ItemAttribute.getters_setHeld tc hd a0 junk
    have hg : (s.setAttributeString tc k (.held junk)).getters tc k
        = (some junk, none, none, none) := by
      rw [ItemAttributes.getters_eq]
      unfold ItemAttributes.setAttributeString
      rw [h0]
      dsimp only
      rw [g1, g2, g3, g4]
    exact ⟨hg, fun hk => ⟨h1 hk, ItemAttributes.getters_of_find_eq tc _ s k1 (h1 hk)⟩⟩

/-- Witness for C16: the key "a" of the example attributes is set to the string "hi" and
to its own string, and a boolean is set on an object without a map. -/
theorem setAttribute_then_get_witness :
    exampleCodes.Distinct ∧ ([98] : ByteString) ≠ [97]
      ∧ (exampleAttributes.setAttributeString exampleCodes [97]
            (StringRef.apart [104, 105])).getters exampleCodes [97]
          = (some [104, 105], none, none, none)
      ∧ (exampleAttributes.setAttributeString exampleCodes [97]
            (StringRef.apart [104, 105])).getters exampleCodes [98]
          = exampleAttributes.getters exampleCodes [98]
      ∧ (exampleAttributes.setAttributeString exampleCodes [97]
            (StringRef.held [0, 255])).getters exampleCodes [97]
          = (some [0, 255], none, none, none)
      ∧ ((ItemAttributes.mk none).setAttributeBoolean exampleCodes [97] true).getters
          exampleCodes [97] = (none, none, none, some true) :=
  have h := setAttribute_then_get exampleCodes (by decide) exampleAttributes [97] [98]
    [104, 105] [0, 255] 0 0 true
  ⟨by decide, by decide, h.1.1, (h.1.2.2 (by decide)).2, h.2.2.2.2.1.1,
    (setAttribute_then_get exampleCodes (by decide) (ItemAttributes.mk none) [97] [98]
      [] [] 0 0 true).2.2.2.1.1⟩

theorem ItemAttributeMap.mem_keys_erase (m : ItemAttributeMap) (k x : ByteString)
    (h : x ∈ (ItemAttributeMap.erase m k).map Prod.fst) : x ∈ m.map Prod.fst := by
  induction m with
  | nil => exact h
  | cons e rest ih =>
    obtain ⟨k0, v⟩ := e
    unfold ItemAttributeMap.erase at h
    by_cases h1 : k = k0
    · rw [if_pos h1] at h
      exact List.mem_cons_of_mem _ h
    · rw [if_neg h1] at h
      rw [List.map_cons] at h ⊢
      rcases List.mem_cons.mp h with h | h
      · exact h ▸ List.mem_cons_self _ _
      · exact List.mem_cons_of_mem _ (ih h)

theorem ItemAttributeMap.erase_ordered (m : ItemAttributeMap) (k : ByteString)
    (ho : m.Ordered) : (ItemAttributeMap.erase m k).Ordered := by
  induction m with
  | nil => exact ho
  | cons e rest ih =>
    obtain ⟨k0, v⟩ := e
    unfold ItemAttributeMap.Ordered at ho ih ⊢
    rw [List.map_cons, List.pairwise_cons] at ho
    unfold ItemAttributeMap.erase
    by_cases h1 : k = k0
    · rw [if_pos h1]
      exact ho.2
    · rw [if_neg h1, List.map_cons, List.pairwise_cons]
      exact ⟨fun x hx => ho.1 x (ItemAttributeMap.mem_keys_erase rest k x hx), ih ho.2⟩

theorem ItemAttributeMap.mem_keys_applyAt (tc : TypeCodes) (m : ItemAttributeMap)
    (k x : ByteString) (f : ItemAttribute → ItemAttribute)
    (h : x ∈ (ItemAttributeMap.applyAt tc m k f).map Prod.fst) :
    x = k ∨ x ∈ m.map Prod.fst := by
  induction m with
  | nil =>
    simp only [ItemAttributeMap.applyAt, List.map_cons, List.map_nil, List.mem_singleton] at h
    exact Or.inl h
  | cons e rest ih =>
    obtain ⟨k0, v⟩ := e
    unfold ItemAttributeMap.applyAt at h
    by_cases h1 : k = k0
    · rw [if_pos h1] at h
      exact Or.inr h
    · rw [if_neg h1] at h
      by_cases h2 : keyLess k k0 = true
      · rw [if_pos h2, List.map_cons] at h
        rcases List.mem_cons.mp h with h | h
        · exact Or.inl h
        · exact Or.inr h
      · rw [if_neg h2, List.map_cons] at h
        rw [List.map_cons]
        rcases List.mem_cons.mp h with h | h
        · exact Or.inr (h ▸ List.mem_cons_self _ _)
        · rcases ih h with h | h
          · exact Or.inl h
          · exact Or.inr (List.mem_cons_of_mem _ h)

theorem ItemAttributeMap.applyAt_ordered (tc : TypeCodes) (m : ItemAttributeMap)
    (k : ByteString) (f : ItemAttribute → ItemAttribute) (ho : m.Ordered) :
    (ItemAttributeMap.applyAt tc m k f).Ordered := by
  induction m with
  | nil => simp [ItemAttributeMap.applyAt, ItemAttributeMap.Ordered]
  | cons e rest ih =>
    obtain ⟨k0, v⟩ := e
    unfold ItemAttributeMap.Ordered at ho ih ⊢
    rw [List.map_cons, List.pairwise_cons] at ho
    unfold ItemAttributeMap.applyAt
    by_cases h1 : k = k0
    · rw [if_pos h1, List.map_cons, List.pairwise_cons]
      exact ho
    · rw [if_neg h1]
      by_cases h2 : keyLess k k0 = true
      · rw [if_pos h2, List.map_cons, List.map_cons, List.pairwise_cons, List.pairwise_cons]
        refine ⟨?_, ho⟩
        intro x hx
        rcases List.mem_cons.mp hx with hx | hx
        · rw [hx]; exact h2
        · exact keyLess_trans k k0 x h2 (ho.1 x hx)
      · rw [if_neg h2, List.map_cons, List.pairwise_cons]
        refine ⟨?_, ih ho.2⟩
        intro x hx
        rcases ItemAttributeMap.mem_keys_applyAt tc rest k x f hx with hx | hx
        · rw [hx]
          rcases keyLess_total k k0 with h | h | h
          · exact absurd h h1
          · exact absurd h h2
          · exact h
        · exact ho.1 x hx

/-- C17: after `eraseAttribute(k)` no attribute is stored under `k`: the four typed
getters return null for `k` and the four `has...Attribute(k)` are false; every other key
keeps its attribute; and when `k` was absent, or the object has no attribute map, the
call leaves the object unchanged. The object keeps the invariant of its map. -/
theorem eraseAttribute_spec (tc : TypeCodes) (s : ItemAttributes) (k k1 : ByteString)
    (hwf : s.WellFormed) :
    (s.eraseAttribute k).find k = none
      ∧ (s.eraseAttribute k).getters tc k = (none, none, none, none)
      ∧ (s.eraseAttribute k).hasStringAttribute tc k = false
      ∧ (s.eraseAttribute k).hasIntegerAttribute tc k = false
      ∧ (s.eraseAttribute k).hasFloatAttribute tc k = false
      ∧ (s.eraseAttribute k).hasBooleanAttribute tc k = false
      ∧ (k1 ≠ k → (s.eraseAttribute k).find k1 = s.find k1
          ∧ (s.eraseAttribute k).getters tc k1 = s.getters tc k1)
      ∧ (s.find k = none → s.eraseAttribute k = s)
      ∧ (s.eraseAttribute k).WellFormed := by
  have hfind : (s.eraseAttribute k).find k = none := by
    cases s with
    | mk a =>
      cases a with
      | none => rfl
      | some m => exact ItemAttributeMap.find_erase_same m k (hwf m rfl)
  have hg : (s.eraseAttribute k).getters tc k = (none, none, none, none) := by
    rw [ItemAttributes.getters_eq, hfind]
  obtain ⟨e1, e2, e3, e4⟩ := ItemAttributes.has_eq tc (s.eraseAttribute k) k
  refine ⟨hfind, hg, by rw [e1, hg]; rfl, by rw [e2, hg]; rfl, by rw [e3, hg]; rfl,
    by rw [e4, hg]; rfl, ?_, ?_, ?_⟩
  · intro hk
    have h1 : (s.eraseAttribute k).find k1 = s.find k1 := by
      cases s with
      | mk a =>
        cases a with
        | none => rfl
        | some m => exact ItemAttributeMap.find_erase_other m k k1 hk
    exact ⟨h1, ItemAttributes.getters_of_find_eq tc _ s k1 h1⟩
  · intro hnone
    cases s with
    | mk a =>
      cases a with
      | none => rfl
      | some m =>
        show ItemAttributes.mk (some (ItemAttributeMap.erase m k)) = _
        rw [ItemAttributeMap.erase_of_find_none m k hnone]
  · cases s with
    | mk a =>
      cases a with
      | none => exact hwf
      | some m =>
        intro m1 hm1
        have : m1 = ItemAttributeMap.erase m k := by
          simp only [ItemAttributes.eraseAttribute, Option.some.injEq] at hm1
          exact hm1.symm
        rw [this]
        exact ItemAttributeMap.erase_ordered m k (hwf m rfl)

/-- Witness for C17: the key "a" is erased from the example attributes; the key "c" is
absent from them. -/
theorem eraseAttribute_spec_witness :
    exampleAttributes.WellFormed ∧ ([98] : ByteString) ≠ [97]
      ∧ (exampleAttributes.eraseAttribute [97]).getters exampleCodes [97]
          = (none, none, none, none)
      ∧ (exampleAttributes.eraseAttribute [97]).hasIntegerAttribute exampleCodes [97] = false
      ∧ (exampleAttributes.eraseAttribute [97]).getters exampleCodes [98]
          = exampleAttributes.getters exampleCodes [98]
      ∧ exampleAttributes.find [99] = none
      ∧ exampleAttributes.eraseAttribute [99] = exampleAttributes :=
  have h := eraseAttribute_spec exampleCodes exampleAttributes [97] [98] (by decide)
  ⟨by decide, by decide, h.2.1, h.2.2.2.1, (h.2.2.2.2.2.2.1 (by decide)).2, by decide,
    (eraseAttribute_spec exampleCodes exampleAttributes [99] [98] (by decide)).2.2.2.2.2.2.2.1
      (by decide)⟩

theorem ItemAttributeMap.assignAt_eq_applyAt (tc : TypeCodes) (m : ItemAttributeMap)
    (k : ByteString) (v : ItemAttribute) :
    ItemAttributeMap.assignAt tc m k v
      = ItemAttributeMap.applyAt tc m k (fun a => a.assign tc v) := by
  induction m with
  | nil => rfl
  | cons e rest ih =>
    obtain ⟨k0, v0⟩ := e
    unfold ItemAttributeMap.assignAt ItemAttributeMap.applyAt
    rw [ih]

theorem ItemAttribute.unserialize_unknown (tc : TypeCodes) (rtype0 : Nat) (a : ItemAttribute)
    (st1 st2 : BinaryNode) (t : Nat) (ht : st1.getU8 = (some t, st2))
    (hu : t ≠ tc.STRING ∧ t ≠ tc.INTEGER ∧ t ≠ tc.FLOAT ∧ t ≠ tc.BOOLEAN) :
    a.unserialize tc rtype0 st1 = (true, a, st2) := by
  unfold ItemAttribute.unserialize
  simp only [ht, Option.getD_some, if_neg hu.1, if_neg hu.2.1, if_neg hu.2.2.1,
    if_neg hu.2.2.2]

/-- C18: when the type byte of an entry is none of `STRING`, `INTEGER`, `FLOAT`,
`BOOLEAN`, `ItemAttribute::unserialize` returns true, leaves the stream right after the
type byte (no value byte is read) and leaves the attribute as it was. The loop of
`unserializeAttributeMap` then assigns to the key of that entry the local attribute as
the preceding entry left it (a fresh `NONE` attribute for the first entry) and goes on
with the next entry; it returns true when this entry is the last one. The attribute
stored is the result of `operator=`, on which the getters return what they return on
the local attribute. -/
theorem unserialize_unknown_type (tc : TypeCodes) (rtype0 : Nat) (attrib : ItemAttribute)
    (m : ItemAttributeMap) (n : Nat) (st st1 st2 : BinaryNode) (key : ByteString) (t : Nat)
    (hk : st.getString = (some key, st1)) (ht : st1.getU8 = (some t, st2))
    (hu : t ≠ tc.STRING ∧ t ≠ tc.INTEGER ∧ t ≠ tc.FLOAT ∧ t ≠ tc.BOOLEAN) :
    attrib.unserialize tc rtype0 st1 = (true, attrib, st2)
      ∧ ItemAttributes.unserializeEntries tc rtype0 (n + 1) attrib m st
          = ItemAttributes.unserializeEntries tc rtype0 n attrib
              (ItemAttributeMap.assignAt tc m key attrib) st2
      ∧ ItemAttributes.unserializeEntries tc rtype0 1 attrib m st
          = (true, ItemAttributeMap.assignAt tc m key attrib, st2)
      ∧ (∃ a0 : ItemAttribute,
          ItemAttributeMap.find (ItemAttributeMap.assignAt tc m key attrib) key
              = some (a0.assign tc attrib)
            ∧ (tc.AllDistinct → attrib.HasKnownType tc →
                (a0.assign tc attrib).type = attrib.type
                  ∧ (a0.assign tc attrib).getString tc = attrib.getString tc
                  ∧ (a0.assign tc attrib).getInteger tc = attrib.getInteger tc
                  ∧ (a0.assign tc attrib).getFloat tc = attrib.getFloat tc
                  ∧ (a0.assign tc attrib).getBoolean tc = attrib.getBoolean tc))
      ∧ (∀ (s : ItemAttributes) (stream : BinaryNode), stream.getU16 = (some 1, st) →
          ItemAttributes.unserializeAttributeMap tc rtype0 s stream
            = (true,
                { attributes := some (ItemAttributeMap.assignAt tc
                    (s.createAttributes.attributes.getD []) key (ItemAttribute.new tc)) },
                st2)) := by
  have hun : ∀ a : ItemAttribute, a.unserialize tc rtype0 st1 = (true, a, st2) :=
    fun a => ItemAttribute.unserialize_unknown tc rtype0 a st1 st2 t ht hu
  have hstep : ∀ (k : Nat) (a : ItemAttribute) (m0 : ItemAttributeMap),
      ItemAttributes.unserializeEntries tc rtype0 (k + 1) a m0 st
        = ItemAttributes.unserializeEntries tc rtype0 k a
            (ItemAttributeMap.assignAt tc m0 key a) st2 := by
    intro k a m0
    rw [ItemAttributes.unserializeEntries, hk]
    dsimp only
    rw [hun a]
  refine ⟨hun attrib, hstep n attrib m, ?_, ?_, ?_⟩
  · rw [hstep 0 attrib m]
    rfl
  · rw [ItemAttributeMap.assignAt_eq_applyAt]
    obtain ⟨a0, h0⟩ := ItemAttributeMap.find_applyAt_same tc m key (fun a => a.assign tc attrib)
    exact ⟨a0, h0, fun hd hkn => ItemAttribute.assign_getters tc hd a0 attrib hkn⟩
  · intro s stream hs
    unfold ItemAttributes.unserializeAttributeMap
    rw [hs]
    dsimp only
    rw [hstep 0]
    rfl

/-- Witness for C18: two entries, "a" with the integer 7 and "b" with the type byte 9,
which is no tag: the call returns true and both keys hold the integer 7. -/
theorem unserialize_unknown_type_witness :
    (BinaryNode.mk [1, 0, 98, 9]).getString = (some [98], BinaryNode.mk [9])
      ∧ (BinaryNode.mk [9]).getU8 = (some 9, BinaryNode.mk [])
      ∧ ((9 : Nat) ≠ exampleCodes.STRING ∧ (9 : Nat) ≠ exampleCodes.INTEGER
          ∧ (9 : Nat) ≠ exampleCodes.FLOAT ∧ (9 : Nat) ≠ exampleCodes.BOOLEAN)
      ∧ (ItemAttribute.mk 2 (AttrData.int 7)).unserialize exampleCodes 0 (BinaryNode.mk [9])
          = (true, ItemAttribute.mk 2 (AttrData.int 7), BinaryNode.mk [])
      ∧ ItemAttributes.unserializeAttributeMap exampleCodes 0 (ItemAttributes.mk none)
            (BinaryNode.mk [2, 0, 1, 0, 97, 2, 7, 0, 0, 0, 1, 0, 98, 9])
          = (true,
              ItemAttributes.mk (some [([97], ItemAttribute.mk 2 (AttrData.int 7)),
                                       ([98], ItemAttribute.mk 2 (AttrData.int 7))]),
              BinaryNode.mk []) :=
  ⟨rfl, rfl, by decide,
    (unserialize_unknown_type exampleCodes 0 (ItemAttribute.mk 2 (AttrData.int 7))
      [([97], ItemAttribute.mk 2 (AttrData.int 7))] 0 (BinaryNode.mk [1, 0, 98, 9])
      (BinaryNode.mk [9]) (BinaryNode.mk []) [98] 9 rfl rfl (by decide)).1,
    by decide⟩

/-! ## Round trip of the attribute map -/

theorem BinaryNode.getU16_encodeU16 (n : Nat) (rest : List Nat) (h : n < 65536) :
    (BinaryNode.mk (encodeU16 n ++ rest)).getU16 = (some n, BinaryNode.mk rest) := by
  simp only [encodeU16, List.cons_append, List.nil_append, BinaryNode.getU16]
  congr 2
  omega

theorem BinaryNode.getU32_encodeU32 (n : Nat) (rest : List Nat) (h : n < 4294967296) :
    (BinaryNode.mk (encodeU32 n ++ rest)).getU32 = (some n, BinaryNode.mk rest) := by
  simp only [encodeU32, List.cons_append, List.nil_append, BinaryNode.getU32]
  congr 2
  omega

theorem BinaryNode.getBlock_append (str rest : List Nat) :
    (BinaryNode.mk (str ++ rest)).getBlock str.length = (some str, BinaryNode.mk rest) := by
  unfold BinaryNode.getBlock
  rw [if_pos (by simp)]
  simp

theorem BinaryNode.getString_encode (str rest : List Nat) (h : str.length ≤ 65535) :
    (BinaryNode.mk (encodeU16 str.length ++ str ++ rest)).getString
      = (some str, BinaryNode.mk rest) := by
  unfold BinaryNode.getString
  rw [List.append_assoc, BinaryNode.getU16_encodeU16 _ _ (by omega)]
  exact BinaryNode.getBlock_append str rest

theorem BinaryNode.getLongString_encode (str rest : List Nat) (h : str.length < 4294967296) :
    (BinaryNode.mk (encodeU32 str.length ++ str ++ rest)).getLongString
      = (some str, BinaryNode.mk rest) := by
  unfold BinaryNode.getLongString
  rw [List.append_assoc, BinaryNode.getU32_encodeU32 _ _ h]
  exact BinaryNode.getBlock_append str rest

theorem toInt32_toUInt32 (i : Int) (h1 : -2147483648 ≤ i) (h2 : i < 2147483648) :
    toInt32 (toUInt32 i) = i := by
  unfold toInt32 toUInt32
  have hlt : (i % 4294967296).toNat < 4294967296 := by omega
  rw [Nat.mod_eq_of_lt hlt]
  split_ifs with hc <;> omega

theorem toUInt32_lt (i : Int) : toUInt32 i < 4294967296 := by
  unfold toUInt32
  omega

theorem ItemAttribute.unserialize_serialize (tc : TypeCodes) (hd : tc.Distinct)
    (hb : tc.FitByte) (rtype0 : Nat) (a attrib : ItemAttribute) (rest : List Nat)
    (hf : a.Fits tc) :
    attrib.unserialize tc rtype0 (BinaryNode.mk ((a.serialize tc (NodeFileWriteHandle.mk [])).bytes ++ rest))
      = (true, a, BinaryNode.mk rest) := by
  obtain ⟨h1, h2, h3, h4, h5, h6⟩ := hd
  obtain ⟨b1, b2, b3, b4⟩ := hb
  obtain ⟨ty, data⟩ := a
  cases data with
  | unset => exact absurd hf (by simp [ItemAttribute.Fits])
  | str v =>
    simp only [ItemAttribute.Fits] at hf
    obtain ⟨hty, hlen⟩ := hf
    subst hty
    simp only [ItemAttribute.serialize, if_true, NodeFileWriteHandle.addU8,
      NodeFileWriteHandle.addLongString, AttrData.asString, List.nil_append,
      Nat.mod_eq_of_lt b1, List.cons_append, List.append_assoc]
    unfold ItemAttribute.unserialize
    simp only [BinaryNode.getU8, Option.getD_some, if_true]
    rw [← List.append_assoc, BinaryNode.getLongString_encode v rest hlen]
    rfl
  | int i =>
    simp only [ItemAttribute.Fits] at hf
    obtain ⟨hty, hlo, hhi⟩ := hf
    subst hty
    simp only [ItemAttribute.serialize, if_true, if_neg (Ne.symm h1), NodeFileWriteHandle.addU8,
      NodeFileWriteHandle.addU32, AttrData.asInteger, List.nil_append,
      Nat.mod_eq_of_lt b2, List.cons_append, List.append_assoc]
    unfold ItemAttribute.unserialize
    simp only [BinaryNode.getU8, Option.getD_some, if_true, if_neg (Ne.symm h1)]
    rw [BinaryNode.getU32_encodeU32 _ rest (toUInt32_lt i)]
    simp only [toInt32_toUInt32 i hlo hhi]
    rfl
  | float y =>
    simp only [ItemAttribute.Fits] at hf
    obtain ⟨hty, hlen⟩ := hf
    subst hty
    simp only [ItemAttribute.serialize, if_true, if_neg (Ne.symm h2), if_neg (Ne.symm h4),
      NodeFileWriteHandle.addU8,
      NodeFileWriteHandle.addU32, AttrData.asFloat, List.nil_append,
      Nat.mod_eq_of_lt b3, List.cons_append, List.append_assoc]
    unfold ItemAttribute.unserialize
    simp only [BinaryNode.getU8, Option.getD_some, if_true, if_neg (Ne.symm h2),
      if_neg (Ne.symm h4)]
    rw [BinaryNode.getU32_encodeU32 _ rest hlen]
    rfl
  | bool b =>
    simp only [ItemAttribute.Fits] at hf
    subst hf
    simp only [ItemAttribute.serialize, if_true, if_neg (Ne.symm h3), if_neg (Ne.symm h5),
      if_neg (Ne.symm h6), NodeFileWriteHandle.addU8, AttrData.asBoolean, List.nil_append,
      Nat.mod_eq_of_lt b4, List.cons_append, List.append_assoc]
    unfold ItemAttribute.unserialize
    simp only [BinaryNode.getU8, Option.getD_some, if_true, if_neg (Ne.symm h3),
      if_neg (Ne.symm h5), if_neg (Ne.symm h6)]
    cases b <;> rfl

theorem ItemAttributes.entryEncoding_eq (tc : TypeCodes) (key : ByteString)
    (a : ItemAttribute) (h : key.length ≤ 65535) :
    ItemAttributes.entryEncoding tc (key, a)
      = encodeU16 key.length ++ key ++ (a.serialize tc (NodeFileWriteHandle.mk [])).bytes := by
  unfold ItemAttributes.entryEncoding
  dsimp only
  rw [List.take_of_length_le h, ItemAttribute.serialize_bytes]
  simp [NodeFileWriteHandle.addString]

theorem ItemAttribute.assign_of_fits (tc : TypeCodes) (hd : tc.Distinct)
    (x a : ItemAttribute) (hf : a.Fits tc) : x.assign tc a = a := by
  obtain ⟨h1, h2, h3, h4, h5, h6⟩ := hd
  obtain ⟨ty, data⟩ := a
  cases data with
  | unset => exact absurd hf (by simp [ItemAttribute.Fits])
  | str v =>
    simp only [ItemAttribute.Fits] at hf
    obtain ⟨hty, _⟩ := hf
    subst hty
    simp [ItemAttribute.assign, AttrData.asString]
  | int i =>
    simp only [ItemAttribute.Fits] at hf
    obtain ⟨hty, _⟩ := hf
    subst hty
    simp [ItemAttribute.assign, AttrData.asInteger, Ne.symm h1]
  | float y =>
    simp only [ItemAttribute.Fits] at hf
    obtain ⟨hty, _⟩ := hf
    subst hty
    simp [ItemAttribute.assign, AttrData.asFloat, Ne.symm h2, Ne.symm h4]
  | bool b =>
    simp only [ItemAttribute.Fits] at hf
    subst hf
    simp [ItemAttribute.assign, AttrData.asBoolean, Ne.symm h3, Ne.symm h5, Ne.symm h6]

/-- Assignment under a key that is greater than every key of the map appends an entry. -/
theorem ItemAttributeMap.assignAt_append (tc : TypeCodes) (acc : ItemAttributeMap)
    (key : ByteString) (v : ItemAttribute)
    (h : ∀ x ∈ acc.map Prod.fst, keyLess x key = true) :
    ItemAttributeMap.assignAt tc acc key v
      = acc ++ [(key, (ItemAttribute.new tc).assign tc v)] := by
  induction acc with
  | nil => rfl
  | cons e rest ih =>
    obtain ⟨k0, v0⟩ := e
    have hk0 : keyLess k0 key = true := h k0 (by simp)
    unfold ItemAttributeMap.assignAt
    rw [if_neg (Ne.symm (keyLess_ne k0 key hk0)),
      if_neg (by rw [keyLess_asymm k0 key hk0]; simp),
      ih (fun x hx => h x (by rw [List.map_cons]; exact List.mem_cons_of_mem _ hx))]
    rfl

theorem ItemAttributes.unserializeEntries_encoded (tc : TypeCodes) (hd : tc.Distinct)
    (hb : tc.FitByte) (rtype0 : Nat) (m : ItemAttributeMap) :
    ∀ (acc : ItemAttributeMap) (attrib : ItemAttribute) (rest : List Nat),
      ItemAttributeMap.Ordered (acc ++ m) →
      (∀ e ∈ m, e.1.length ≤ 65535 ∧ e.2.Fits tc) →
      ItemAttributes.unserializeEntries tc rtype0 m.length attrib acc
          (BinaryNode.mk ((m.map (ItemAttributes.entryEncoding tc)).flatten ++ rest))
        = (true, acc ++ m, BinaryNode.mk rest) := by
  induction m with
  | nil =>
    intro acc attrib rest _ _
    simp [ItemAttributes.unserializeEntries]
  | cons e tl ih =>
    intro acc attrib rest ho hfit
    obtain ⟨key, a⟩ := e
    obtain ⟨hkl, haf⟩ := hfit (key, a) (List.mem_cons_self _ _)
    have hless : ∀ x ∈ acc.map Prod.fst, keyLess x key = true := by
      intro x hx
      unfold ItemAttributeMap.Ordered at ho
      rw [List.map_append, List.pairwise_append] at ho
      exact ho.2.2 x hx key (by simp)
    rw [List.length_cons, ItemAttributes.unserializeEntries, List.map_cons, List.flatten_cons,
      ItemAttributes.entryEncoding_eq tc key a hkl, List.append_assoc, List.append_assoc,
      BinaryNode.getString_encode key _ hkl]
    dsimp only
    rw [ItemAttribute.unserialize_serialize tc hd hb rtype0 a attrib _ haf]
    dsimp only
    rw [ItemAttributeMap.assignAt_append tc acc key a hless,
      ItemAttribute.assign_of_fits tc hd _ a haf,
      ih (acc ++ [(key, a)]) a rest (by rw [List.append_assoc]; exact ho)
        (fun e he => hfit e (List.mem_cons_of_mem _ he))]
    simp

theorem ItemAttributeMap.mem_applyAt (tc : TypeCodes) (m : ItemAttributeMap)
    (k : ByteString) (f : ItemAttribute → ItemAttribute) (e : ByteString × ItemAttribute)
    (h : e ∈ ItemAttributeMap.applyAt tc m k f) :
    e ∈ m ∨ ∃ a0 : ItemAttribute, e = (k, f a0) := by
  induction m with
  | nil =>
    simp only [ItemAttributeMap.applyAt, List.mem_singleton] at h
    exact Or.inr ⟨_, h⟩
  | cons e0 rest ih =>
    obtain ⟨k0, v⟩ := e0
    unfold ItemAttributeMap.applyAt at h
    by_cases h1 : k = k0
    · rw [if_pos h1] at h
      rcases List.mem_cons.mp h with h | h
      · exact Or.inr ⟨v, by rw [h, h1]⟩
      · exact Or.inl (List.mem_cons_of_mem _ h)
    · rw [if_neg h1] at h
      by_cases h2 : keyLess k k0 = true
      · rw [if_pos h2] at h
        rcases List.mem_cons.mp h with h | h
        · exact Or.inr ⟨_, h⟩
        · exact Or.inl h
      · rw [if_neg h2] at h
        rcases List.mem_cons.mp h with h | h
        · exact Or.inl (h ▸ List.mem_cons_self _ _)
        · rcases ih h with h | h
          · exact Or.inl (List.mem_cons_of_mem _ h)
          · exact Or.inr h

theorem ItemAttributes.serialisable_applied (tc : TypeCodes) (s : ItemAttributes)
    (k : ByteString) (f : ItemAttribute → ItemAttribute) (hs : s.Serialisable tc)
    (hk : k.length ≤ 65535) (hf : ∀ a0, (f a0).Fits tc) :
    (ItemAttributes.mk (some (ItemAttributeMap.applyAt tc
      (s.createAttributes.attributes.getD []) k f))).Serialisable tc := by
  have hm0 : ItemAttributeMap.Ordered (s.createAttributes.attributes.getD [])
      ∧ ∀ e ∈ s.createAttributes.attributes.getD [], e.1.length ≤ 65535 ∧ e.2.Fits tc := by
    cases s with
    | mk a =>
      cases a with
      | none => exact ⟨List.Pairwise.nil, fun e he => absurd he (List.not_mem_nil _)⟩
      | some m => exact hs m rfl
  intro m hm
  simp only [Option.some.injEq] at hm
  rw [← hm]
  refine ⟨ItemAttributeMap.applyAt_ordered tc _ k f hm0.1, ?_⟩
  intro e he
  rcases ItemAttributeMap.mem_applyAt tc _ k f e he with he | ⟨a0, he⟩
  · exact hm0.2 e he
  · rw [he]
    exact ⟨hk, hf a0⟩

theorem ItemAttributes.serialisable_setAttribute (tc : TypeCodes) (s : ItemAttributes)
    (c : SetCall) (hs : s.Serialisable tc) (hk : c.key.length ≤ 65535) (hf : c.Fits) :
    (s.setAttribute tc c).Serialisable tc ∧ ∃ m, (s.setAttribute tc c).attributes = some m := by
  cases c with
  | str k v =>
    exact ⟨ItemAttributes.serialisable_applied tc s k _ hs hk
      (fun a0 => by simp only [ItemAttribute.setString, ItemAttribute.Fits]; exact ⟨trivial, hf⟩),
      ⟨_, rfl⟩⟩
  | int k v =>
    exact ⟨ItemAttributes.serialisable_applied tc s k _ hs hk
      (fun a0 => by simp only [ItemAttribute.setInteger, ItemAttribute.Fits]; exact ⟨trivial, hf⟩),
      ⟨_, rfl⟩⟩
  | float k v =>
    exact ⟨ItemAttributes.serialisable_applied tc s k _ hs hk
      (fun a0 => by simp only [ItemAttribute.setFloat, ItemAttribute.Fits]; exact ⟨trivial, hf⟩),
      ⟨_, rfl⟩⟩
  | bool k v =>
    exact ⟨ItemAttributes.serialisable_applied tc s k _ hs hk
      (fun a0 => by simp only [ItemAttribute.setBoolean, ItemAttribute.Fits]),
      ⟨_, rfl⟩⟩

theorem ItemAttributes.serialisable_foldl (tc : TypeCodes) (calls : List SetCall) :
    ∀ s : ItemAttributes, s.Serialisable tc →
      (∀ c ∈ calls, c.key.length ≤ 65535 ∧ c.Fits) →
      (calls.foldl (ItemAttributes.setAttribute tc) s).Serialisable tc
        ∧ ((calls ≠ [] ∨ ∃ m, s.attributes = some m) →
            ∃ m, (calls.foldl (ItemAttributes.setAttribute tc) s).attributes = some m) := by
  induction calls with
  | nil =>
    intro s hs _
    refine ⟨hs, ?_⟩
    rintro (h | h)
    · exact absurd rfl h
    · exact h
  | cons c tl ih =>
    intro s hs hc
    obtain ⟨hk, hf⟩ := hc c (List.mem_cons_self _ _)
    obtain ⟨hs1, hm1⟩ := ItemAttributes.serialisable_setAttribute tc s c hs hk hf
    obtain ⟨h1, h2⟩ := ih (s.setAttribute tc c) hs1 (fun x hx => hc x (List.mem_cons_of_mem _ hx))
    exact ⟨h1, fun _ => h2 (Or.inr hm1)⟩

/-- The round trip on an object that satisfies the invariant and holds a map of at most
65535 attributes. -/
theorem ItemAttributes.roundtrip_of_serialisable (tc : TypeCodes) (hd : tc.Distinct)
    (hb : tc.FitByte) (rtype0 : Nat) (m : ItemAttributeMap)
    (hs : (ItemAttributes.mk (some m)).Serialisable tc) (hc : m.length ≤ 65535) :
    ∃ f : NodeFileWriteHandle,
      ItemAttributes.serializeAttributeMap tc { attributes := some m } { bytes := [] } = some f
        ∧ ItemAttributes.unserializeAttributeMap tc rtype0 { attributes := none }
            { data := f.bytes } = (true, { attributes := some m }, { data := [] }) := by
  obtain ⟨ho, hfit⟩ := hs m rfl
  refine ⟨_, rfl, ?_⟩
  rw [ItemAttributes.serializeEntries_bytes]
  simp only [NodeFileWriteHandle.addU16, List.nil_append, Nat.sub_zero]
  rw [List.take_of_length_le (by omega), Nat.min_eq_right hc]
  unfold ItemAttributes.unserializeAttributeMap
  rw [BinaryNode.getU16_encodeU16 _ _ (by omega)]
  dsimp only
  have h := ItemAttributes.unserializeEntries_encoded tc hd hb rtype0 m []
    (ItemAttribute.new tc) [] (by simpa using ho) hfit
  rw [List.append_nil] at h
  simp only [ItemAttributes.createAttributes, Option.getD_some]
  rw [h]
  rfl

/-- C15: round trip. For every `ItemAttributes` built only by calls of `setAttribute`,
with at least one and at most 65535 attributes and every key at most 65535 bytes long,
`serializeAttributeMap` writes a stream on which `unserializeAttributeMap`, run into an
object without attributes, returns true, consumes the whole stream and yields exactly
the same map (same keys, same type tags, same values; a float is its 32-bit pattern).
The values are taken in the range of their type and of the stream primitive that carries
them (`SetCall.Fits`), and the tags are distinct byte values. -/
theorem serialize_unserialize_roundtrip (tc : TypeCodes) (rtype0 : Nat)
    (calls : List SetCall) (hd : tc.Distinct) (hb : tc.FitByte) (hne : calls ≠ [])
    (hcalls : ∀ c ∈ calls, c.key.length ≤ 65535 ∧ c.Fits)
    (hcount : (ItemAttributes.build tc calls).count ≤ 65535) :
    ∃ f : NodeFileWriteHandle,
      ItemAttributes.serializeAttributeMap tc (ItemAttributes.build tc calls) { bytes := [] }
          = some f
        ∧ ItemAttributes.unserializeAttributeMap tc rtype0 { attributes := none }
            { data := f.bytes }
          = (true, ItemAttributes.build tc calls, { data := [] }) := by
  have h0 : (ItemAttributes.mk none).Serialisable tc := fun m hm => by cases hm
  obtain ⟨hs, hm⟩ := ItemAttributes.serialisable_foldl tc calls _ h0 hcalls
  obtain ⟨m, hm⟩ := hm (Or.inl hne)
  have hb2 : ItemAttributes.build tc calls = { attributes := some m } := by
    unfold ItemAttributes.build
    cases hx : List.foldl (ItemAttributes.setAttribute tc) { attributes := none } calls with
    | mk a =>
      rw [hx] at hm
      simp only at hm
      rw [hm]
  rw [hb2] at hcount ⊢
  have hs2 : (ItemAttributes.mk (some m)).Serialisable tc := by
    unfold ItemAttributes.build at hb2
    rw [hb2] at hs
    exact hs
  exact ItemAttributes.roundtrip_of_serialisable tc hd hb rtype0 m hs2 hcount

/-- Witness for C15: the object built by the example calls, which set four keys of the
four kinds and one of them twice, with the example tags. -/
theorem serialize_unserialize_roundtrip_witness :
    exampleCodes.Distinct ∧ exampleCodes.FitByte ∧ exampleCalls ≠ []
      ∧ (∀ c ∈ exampleCalls, c.key.length ≤ 65535 ∧ c.Fits)
      ∧ (ItemAttributes.build exampleCodes exampleCalls).count ≤ 65535
      ∧ ∃ f : NodeFileWriteHandle,
          ItemAttributes.serializeAttributeMap exampleCodes
              (ItemAttributes.build exampleCodes exampleCalls) { bytes := [] } = some f
            ∧ ItemAttributes.unserializeAttributeMap exampleCodes 0 { attributes := none }
                { data := f.bytes }
              = (true, ItemAttributes.build exampleCodes exampleCalls, { data := [] }) :=
  ⟨by decide, by decide, by decide, by decide, by decide,
    serialize_unserialize_roundtrip exampleCodes 0 exampleCalls (by decide) (by decide)
      (by decide) (by decide) (by decide)⟩

end RME
